import Mathlib

/-!
Verification of the limit order book matching engine found in
crates/matching-engine (order.rs, quantity.rs, price.rs, order_book.rs).

Shallow embedding conventions:
- Prices (rust_decimal Decimal, strictly positive) are modelled as Int
  values in minor units (cents); only their total order matters here.
- Quantities (u64) are modelled as Nat.
- Timestamps (chrono DateTime) are modelled as Nat and passed explicitly
  as a `now` argument to mutating operations.
- BTreeMap (Price to Vec of Order) is modelled as an association list
  sorted strictly ascending by key; HashMap (OrderId to (side, price))
  as an association list with unique keys.
- Fallible Rust functions returning crate::Result are modelled with
  Except MatchingEngineError.
-/

set_option maxHeartbeats 1000000

namespace Brokerage

/-- Order side (Buy or Sell), from order.rs. -/
inductive OrderSide where
  | Buy
  | Sell
deriving DecidableEq, Repr

/-- Order status tracking, from order.rs. -/
inductive OrderStatus where
  | Active
  | PartiallyFilled
  | Filled
  | Cancelled
deriving DecidableEq, Repr

/-- Matching engine errors, from error.rs (the variants reachable from the
modelled order-book code). -/
inductive MatchingEngineError where
  | InvalidPrice (msg : String)
  | InvalidQuantity (msg : String)
  | OrderNotFound (msg : String)
  | InsufficientQuantity (requested : Nat) (available : Nat)
  | InvariantViolation (msg : String)
deriving DecidableEq, Repr

/-- A limit order, from order.rs. Prices are minor units (cents) as Int,
quantities are Nat, timestamps are Nat. -/
structure Order where
  id : Nat
  user_id : Nat
  side : OrderSide
  price : Int
  original_quantity : Nat
  remaining_quantity : Nat
  status : OrderStatus
  created_at : Nat
  updated_at : Nat
deriving DecidableEq, Repr

namespace Order

/-- Order constructor, from Order::new in order.rs. -/
def new (id user : Nat) (side : OrderSide) (price : Int) (qty : Nat)
    (now : Nat) : Order :=
  { id := id, user_id := user, side := side, price := price,
    original_quantity := qty, remaining_quantity := qty,
    status := OrderStatus.Active, created_at := now, updated_at := now }

/-- Order::is_active from order.rs: status is Active or PartiallyFilled. -/
def is_active (o : Order) : Bool :=
  match o.status with
  | OrderStatus.Active => true
  | OrderStatus.PartiallyFilled => true
  | _ => false

/-- Order::is_filled from order.rs. -/
def is_filled (o : Order) : Bool :=
  o.status = OrderStatus.Filled

/-- Order::fill from order.rs. Quantity::can_be_satisfied_by is inlined:
it holds iff the requested quantity is at most the remaining quantity. -/
def fill (o : Order) (quantity : Nat) (now : Nat) :
    Except MatchingEngineError Order :=
  if quantity ≤ o.remaining_quantity then
    let new_remaining := o.remaining_quantity - quantity
    let st := if new_remaining = 0 then OrderStatus.Filled
              else OrderStatus.PartiallyFilled
    Except.ok { o with remaining_quantity := new_remaining,
                       status := st, updated_at := now }
  else
    Except.error (MatchingEngineError.InsufficientQuantity quantity
      o.remaining_quantity)

/-- Order::cancel from order.rs. -/
def cancel (o : Order) (now : Nat) : Order :=
  { o with status := OrderStatus.Cancelled, updated_at := now }

/-- Order::filled_quantity from order.rs. -/
def filled_quantity (o : Order) : Nat :=
  o.original_quantity - o.remaining_quantity

end Order

/-- Trade execution record, from order_book.rs. -/
structure Trade where
  buy_order_id : Nat
  sell_order_id : Nat
  price : Int
  quantity : Nat
  timestamp : Nat
deriving DecidableEq, Repr

/-- A price ladder: the model of BTreeMap from Price to Vec of Order,
as an association list sorted strictly ascending by price key. -/
abbrev Ladder := List (Int × List Order)

namespace Ladder

/-- Model of BTreeMap::get: the value at the first entry with the key. -/
def lookupLevel : Ladder → Int → Option (List Order)
  | [], _ => none
  | e :: rest, p => if e.1 = p then some e.2 else lookupLevel rest p

/-- Replaces the value stored at the first entry with the given key
(model of mutating through BTreeMap::get_mut). -/
def setLevel : Ladder → Int → List Order → Ladder
  | [], _, _ => []
  | e :: rest, p, l => if e.1 = p then (p, l) :: rest else e :: setLevel rest p l

/-- Model of BTreeMap::remove: drops the first entry with the given key. -/
def removeKey : Ladder → Int → Ladder
  | [], _ => []
  | e :: rest, p => if e.1 = p then rest else e :: removeKey rest p

/-- Model of bids.entry(price).or_insert_with(Vec::new).push(order):
appends the order to the level at the key, creating the level at its
sorted position when absent. -/
def entryPush : Ladder → Int → Order → Ladder
  | [], p, o => [(p, [o])]
  | e :: rest, p, o =>
    if p < e.1 then (p, [o]) :: e :: rest
    else if p = e.1 then (e.1, e.2 ++ [o]) :: rest
    else e :: entryPush rest p o

/-- Model of keys().next() on an ascending BTreeMap: the least key. -/
def minKey (lad : Ladder) : Option Int :=
  lad.head?.map Prod.fst

/-- Model of keys().next_back() on an ascending BTreeMap: the greatest key. -/
def maxKey (lad : Ladder) : Option Int :=
  lad.getLast?.map Prod.fst

/-- All order ids stored in the ladder, in ladder order. -/
def ids (lad : Ladder) : List Nat :=
  lad.flatMap (fun e => e.2.map Order.id)

/-- Sum of remaining quantities of all orders resting in the ladder. -/
def remSum (lad : Ladder) : Nat :=
  (lad.map (fun e => (e.2.map Order.remaining_quantity).sum)).sum

/-- Prices (order fields, not keys) of all orders resting in the ladder. -/
def orderPrices (lad : Ladder) : List Int :=
  lad.flatMap (fun e => e.2.map Order.price)

/-- Total number of orders resting in the ladder. -/
def orderTotal (lad : Ladder) : Nat :=
  (lad.map (fun e => e.2.length)).sum

end Ladder

/-- The order-id index: the model of HashMap from OrderId to (side, price),
an association list with unique keys. -/
abbrev OrderIndex := List (Nat × (OrderSide × Int))

namespace OrderIndex

/-- Model of HashMap::get. -/
def lookupId : OrderIndex → Nat → Option (OrderSide × Int)
  | [], _ => none
  | e :: rest, i => if e.1 = i then some e.2 else lookupId rest i

/-- Model of HashMap::insert (replace the binding when the key exists). -/
def insertId : OrderIndex → Nat → OrderSide × Int → OrderIndex
  | [], i, v => [(i, v)]
  | e :: rest, i, v => if e.1 = i then (i, v) :: rest else e :: insertId rest i v

/-- Model of HashMap::remove: drops every binding of the key (at most one
exists in a well-formed index). -/
def removeId (idx : OrderIndex) (i : Nat) : OrderIndex :=
  idx.filter (fun e => ¬ e.1 = i)

end OrderIndex

/-- Level II market data level, from order_book.rs. -/
structure MarketLevel where
  price : Int
  quantity : Nat
  order_count : Nat
deriving DecidableEq, Repr

/-- Market depth information, from order_book.rs. The spread is minor units. -/
structure MarketDepth where
  bids : List MarketLevel
  asks : List MarketLevel
  spread : Option Int
deriving DecidableEq, Repr

/-- The limit order book, from order_book.rs. -/
structure LimitOrderBook where
  symbol : String
  bids : Ladder
  asks : Ladder
  orders : OrderIndex
  recent_trades : List Trade
  max_recent_trades : Nat
deriving DecidableEq, Repr

namespace LimitOrderBook

/-- LimitOrderBook::new for a valid symbol string (Symbol validation is out
of scope for the claims; the symbol plays no role in any operation). -/
def new (symbol : String) : LimitOrderBook :=
  { symbol := symbol, bids := [], asks := [], orders := [],
    recent_trades := [], max_recent_trades := 1000 }

/-- best_bid from order_book.rs: greatest bid key. -/
def best_bid (b : LimitOrderBook) : Option Int :=
  Ladder.maxKey b.bids

/-- best_ask from order_book.rs: least ask key. -/
def best_ask (b : LimitOrderBook) : Option Int :=
  Ladder.minKey b.asks

/-- spread from order_book.rs: ask minus bid when both exist. -/
def spread (b : LimitOrderBook) : Option Int :=
  match b.best_bid, b.best_ask with
  | some bid, some ask => some (ask - bid)
  | _, _ => none

/-- Aggregation of one price level for market_depth: total remaining
quantity and count over active orders (order_book.rs computes the same
value through Quantity::new / new_allow_zero). -/
def levelEntry (e : Int × List Order) : MarketLevel :=
  { price := e.1,
    quantity := ((e.2.filter Order.is_active).map Order.remaining_quantity).sum,
    order_count := (e.2.filter Order.is_active).length }

/-- market_depth from order_book.rs. -/
def market_depth (b : LimitOrderBook) (levels : Nat) : MarketDepth :=
  { bids := (((b.bids.reverse.take levels).map levelEntry).filter
      (fun l => 0 < l.quantity)),
    asks := (((b.asks.take levels).map levelEntry).filter
      (fun l => 0 < l.quantity)),
    spread := b.spread }

/-- get_order from order_book.rs. -/
def get_order (b : LimitOrderBook) (order_id : Nat) : Option Order :=
  match OrderIndex.lookupId b.orders order_id with
  | none => none
  | some (side, price) =>
    let lad := match side with
      | OrderSide.Buy => b.bids
      | OrderSide.Sell => b.asks
    match Ladder.lookupLevel lad price with
    | none => none
    | some l => l.find? (fun o => o.id = order_id)

/-- order_count from order_book.rs. -/
def order_count (b : LimitOrderBook) : Nat :=
  b.orders.length

/-- is_empty from order_book.rs. -/
def is_empty (b : LimitOrderBook) : Bool :=
  b.bids.isEmpty && b.asks.isEmpty

/-- insert_order from order_book.rs (its Result is always Ok, so it is
modelled as a pure function). -/
def insert_order (b : LimitOrderBook) (o : Order) : LimitOrderBook :=
  let b1 := { b with orders := OrderIndex.insertId b.orders o.id (o.side, o.price) }
  match o.side with
  | OrderSide.Buy => { b1 with bids := Ladder.entryPush b1.bids o.price o }
  | OrderSide.Sell => { b1 with asks := Ladder.entryPush b1.asks o.price o }

/-- remove_filled_order from order_book.rs. -/
def remove_filled_order (b : LimitOrderBook) (order_id : Nat)
    (side : OrderSide) (price : Int) :
    Except MatchingEngineError LimitOrderBook :=
  let b1 := { b with orders := OrderIndex.removeId b.orders order_id }
  let lad := match side with
    | OrderSide.Buy => b1.bids
    | OrderSide.Sell => b1.asks
  match Ladder.lookupLevel lad price with
  | none => Except.error (MatchingEngineError.InvariantViolation
      "Filled order not found in book")
  | some l =>
    let l2 := l.filter (fun o => ¬ o.id = order_id)
    let lad2 := if l2.isEmpty then Ladder.removeKey lad price
                else Ladder.setLevel lad price l2
    Except.ok (match side with
      | OrderSide.Buy => { b1 with bids := lad2 }
      | OrderSide.Sell => { b1 with asks := lad2 })

/-- One can always bound the number of iterations of the match loop by the
number of resting orders on the opposing side plus one; matchLoop carries
that bound as fuel. -/
def oppCount (b : LimitOrderBook) (s : OrderSide) : Nat :=
  match s with
  | OrderSide.Buy => Ladder.orderTotal b.asks
  | OrderSide.Sell => Ladder.orderTotal b.bids

/-- The body of the loop in match_order from order_book.rs, as a
fuel-indexed recursion. Each loop iteration that recurses removes a filled
resting order, so fuel larger than the opposing order count makes the fuel
case unreachable; on fuel exhaustion the loop stops like a break. -/
def matchLoop (fuel : Nat) (b : LimitOrderBook) (inc : Order) (now : Nat)
    (acc : List Trade) :
    Except MatchingEngineError (LimitOrderBook × Order × List Trade) :=
  match fuel with
  | 0 => Except.ok (b, inc, acc)
  | fuel + 1 =>
    let bestOpp : Option Int := match inc.side with
      | OrderSide.Buy => Ladder.minKey b.asks
      | OrderSide.Sell => Ladder.maxKey b.bids
    match bestOpp with
    | none => Except.ok (b, inc, acc)
    | some best_price =>
      let can_match_at_price : Bool := match inc.side with
        | OrderSide.Buy => best_price ≤ inc.price
        | OrderSide.Sell => inc.price ≤ best_price
      if can_match_at_price then
        let lvl : Option (List Order) := match inc.side with
          | OrderSide.Buy => Ladder.lookupLevel b.asks best_price
          | OrderSide.Sell => Ladder.lookupLevel b.bids best_price
        match lvl with
        | none => Except.ok (b, inc, acc)
        | some [] => Except.ok (b, inc, acc)
        | some (h :: rest) =>
          if h.is_active then
            let trade_quantity := min inc.remaining_quantity h.remaining_quantity
            let trade : Trade :=
              { buy_order_id := match inc.side with
                  | OrderSide.Buy => inc.id
                  | OrderSide.Sell => h.id,
                sell_order_id := match inc.side with
                  | OrderSide.Sell => inc.id
                  | OrderSide.Buy => h.id,
                price := h.price,
                quantity := trade_quantity,
                timestamp := now }
            match inc.fill trade_quantity now with
            | Except.error e => Except.error e
            | Except.ok inc2 =>
              match h.fill trade_quantity now with
              | Except.error e => Except.error e
              | Except.ok h2 =>
                let b1 := match inc.side with
                  | OrderSide.Buy =>
                    { b with asks := Ladder.setLevel b.asks best_price (h2 :: rest) }
                  | OrderSide.Sell =>
                    { b with bids := Ladder.setLevel b.bids best_price (h2 :: rest) }
                if h2.is_filled then
                  match remove_filled_order b1 h.id h.side best_price with
                  | Except.error e => Except.error e
                  | Except.ok b2 =>
                    if inc2.is_filled then Except.ok (b2, inc2, acc ++ [trade])
                    else matchLoop fuel b2 inc2 now (acc ++ [trade])
                else
                  if inc2.is_filled then Except.ok (b1, inc2, acc ++ [trade])
                  else matchLoop fuel b1 inc2 now (acc ++ [trade])
          else
            Except.ok (b, inc, acc)
      else
        Except.ok (b, inc, acc)

/-- match_order from order_book.rs: runs the loop then appends the emitted
trades to recent_trades, draining the oldest beyond max_recent_trades. -/
def match_order (b : LimitOrderBook) (inc : Order) (now : Nat) :
    Except MatchingEngineError (LimitOrderBook × Order × List Trade) :=
  match matchLoop (oppCount b inc.side + 1) b inc now [] with
  | Except.error e => Except.error e
  | Except.ok (b1, inc2, trades) =>
    let rt := b1.recent_trades ++ trades
    let rt2 := if b1.max_recent_trades < rt.length then
        rt.drop (rt.length - b1.max_recent_trades)
      else rt
    Except.ok ({ b1 with recent_trades := rt2 }, inc2, trades)

/-- add_order from order_book.rs. -/
def add_order (b : LimitOrderBook) (o : Order) (now : Nat) :
    Except MatchingEngineError (LimitOrderBook × List Trade) :=
  match match_order b o now with
  | Except.error e => Except.error e
  | Except.ok (b1, o2, trades) =>
    if 0 < o2.remaining_quantity ∧ o2.is_active then
      Except.ok (insert_order b1 o2, trades)
    else
      Except.ok (b1, trades)

/-- Removes the first order with the given id from a level, returning it
and the rest (models position-lookup followed by Vec::remove(pos) in
cancel_order). -/
def extractById : List Order → Nat → Option (Order × List Order)
  | [], _ => none
  | o :: rest, oid =>
    if o.id = oid then some (o, rest)
    else (extractById rest oid).map (fun x => (x.1, o :: x.2))

/-- cancel_order from order_book.rs. The Rust function mutates the book in
place; the model returns the book alongside the result so the state after
each error path is visible (orders.remove has already happened on the
invariant-violation paths, exactly as in the source). -/
def cancel_order (b : LimitOrderBook) (order_id : Nat) (now : Nat) :
    LimitOrderBook × Except MatchingEngineError Order :=
  match OrderIndex.lookupId b.orders order_id with
  | none => (b, Except.error (MatchingEngineError.OrderNotFound
      (toString order_id)))
  | some (side, price) =>
    let b1 := { b with orders := OrderIndex.removeId b.orders order_id }
    let lad := match side with
      | OrderSide.Buy => b1.bids
      | OrderSide.Sell => b1.asks
    match Ladder.lookupLevel lad price with
    | none => (b1, Except.error (MatchingEngineError.InvariantViolation
        "Order exists in lookup but not in book"))
    | some l =>
      match extractById l order_id with
      | none => (b1, Except.error (MatchingEngineError.InvariantViolation
          "Order exists in lookup but not at price level"))
      | some (o, l2) =>
        let o2 := o.cancel now
        let lad2 := if l2.isEmpty then Ladder.removeKey lad price
                    else Ladder.setLevel lad price l2
        (match side with
          | OrderSide.Buy => ({ b1 with bids := lad2 }, Except.ok o2)
          | OrderSide.Sell => ({ b1 with asks := lad2 }, Except.ok o2))

end LimitOrderBook

/-- Modelled from the spec: the serde-derived snapshot codec of
LimitOrderBook (section 6 of the spec; the derive attributes are in
order_book.rs but the codec body is generated library code not present
under src/). The snapshot records every component of the book; the ladders
keep their ordered keys and per-key FIFOs, the id index its bindings. -/
structure Snapshot where
  symbol : String
  bids : List (Int × List Order)
  asks : List (Int × List Order)
  orders : List (Nat × (OrderSide × Int))
  recent_trades : List Trade
  max_recent_trades : Nat
deriving DecidableEq, Repr

/-- Modelled from the spec: serialization of the book into the snapshot
form (field-faithful, deterministic). -/
def serialize (b : LimitOrderBook) : Snapshot :=
  { symbol := b.symbol, bids := b.bids, asks := b.asks, orders := b.orders,
    recent_trades := b.recent_trades,
    max_recent_trades := b.max_recent_trades }

/-- Modelled from the spec: deserialization reconstructing a book from a
snapshot. -/
def deserialize (s : Snapshot) : LimitOrderBook :=
  { symbol := s.symbol, bids := s.bids, asks := s.asks, orders := s.orders,
    recent_trades := s.recent_trades,
    max_recent_trades := s.max_recent_trades }

/-- A top-level operation of a client trace: submitting a fresh order
(built with Order::new, its id drawn from the uuid generator, modelled as
a running counter) or cancelling by id. -/
inductive BookOp where
  | submit (side : OrderSide) (price : Int) (qty : Nat) (user : Nat)
  | cancelOp (oid : Nat)
deriving DecidableEq, Repr

/-- Sum of the quantities of a list of trades. -/
def tradeQtySum (ts : List Trade) : Nat :=
  (ts.map Trade.quantity).sum

/-- State threaded through a trace: the book, the id counter (modelling
uuid freshness), a clock, and the accounting sums of the conservation
property (submitted original quantity, traded quantity, remaining
quantity returned by cancellations). -/
structure TraceState where
  book : LimitOrderBook
  nextId : Nat
  now : Nat
  submittedSum : Nat
  tradeSum : Nat
  cancelledSum : Nat
deriving Repr

/-- The initial trace state: an empty book. -/
def initialState : TraceState :=
  { book := LimitOrderBook.new "AAPL", nextId := 0, now := 0,
    submittedSum := 0, tradeSum := 0, cancelledSum := 0 }

/-- One top-level operation applied to the trace state. A submission calls
add_order on a fresh order; a cancellation calls cancel_order. On an
add_order error the book of the model state is kept (the error is proved
unreachable); on a cancel_order error the book returned by cancel_order is
kept, which is the unchanged book for OrderNotFound. -/
def stepOp (s : TraceState) (op : BookOp) : TraceState :=
  match op with
  | BookOp.submit side price qty user =>
    let o := Order.new s.nextId user side price qty s.now
    match LimitOrderBook.add_order s.book o s.now with
    | Except.ok (b2, trades) =>
      { book := b2, nextId := s.nextId + 1, now := s.now + 1,
        submittedSum := s.submittedSum + qty,
        tradeSum := s.tradeSum + tradeQtySum trades,
        cancelledSum := s.cancelledSum }
    | Except.error _ =>
      { s with nextId := s.nextId + 1, now := s.now + 1,
               submittedSum := s.submittedSum + qty }
  | BookOp.cancelOp oid =>
    match LimitOrderBook.cancel_order s.book oid s.now with
    | (b2, Except.ok o) =>
      { s with book := b2, now := s.now + 1,
               cancelledSum := s.cancelledSum + o.remaining_quantity }
    | (b2, Except.error _) =>
      { s with book := b2, now := s.now + 1 }

/-- Runs a finite sequence of top-level operations from the empty book. -/
def runTrace (ops : List BookOp) : TraceState :=
  ops.foldl stepOp initialState

namespace Ladder

/-- All orders resting in the ladder, in ladder order. -/
def allOrders (lad : Ladder) : List Order :=
  lad.flatMap Prod.snd

end Ladder

namespace LimitOrderBook

/-- The ladder an incoming order of the given side matches against. -/
def oppLadder (b : LimitOrderBook) (s : OrderSide) : Ladder :=
  match s with
  | OrderSide.Buy => b.asks
  | OrderSide.Sell => b.bids

/-- The ladder an incoming order of the given side would rest in. -/
def ownLadder (b : LimitOrderBook) (s : OrderSide) : Ladder :=
  match s with
  | OrderSide.Buy => b.bids
  | OrderSide.Sell => b.asks

/-- The best opposing price the match loop inspects for the side. -/
def bestOpposing (b : LimitOrderBook) (s : OrderSide) : Option Int :=
  match s with
  | OrderSide.Buy => Ladder.minKey b.asks
  | OrderSide.Sell => Ladder.maxKey b.bids

/-- The crossing test of the match loop for an incoming order of side s
with limit price p against opposing best price bp. -/
def crossesPrice (s : OrderSide) (p bp : Int) : Prop :=
  match s with
  | OrderSide.Buy => bp ≤ p
  | OrderSide.Sell => p ≤ bp

instance (s : OrderSide) (p bp : Int) : Decidable (crossesPrice s p bp) := by
  cases s <;> simp [crossesPrice] <;> infer_instance

/-- The maker (resting side) order id recorded in a trade, given the side
of the incoming (taker) order. -/
def makerId (t : Trade) (incomingSide : OrderSide) : Nat :=
  match incomingSide with
  | OrderSide.Buy => t.sell_order_id
  | OrderSide.Sell => t.buy_order_id

end LimitOrderBook

/-- Replaces the status of an order, leaving every other field alone. -/
def setStatus (o : Order) (st : OrderStatus) : Order :=
  { o with status := st }

/-- Forgets the returned incoming order of a match result, keeping the
resulting book and the emitted trades. -/
def bookAndTrades
    (r : Except MatchingEngineError (LimitOrderBook × Order × List Trade)) :
    Except MatchingEngineError (LimitOrderBook × List Trade) :=
  r.map (fun x => (x.1, x.2.2))

/-- A book whose single resting ask has a non-active status (Cancelled),
violating invariant F.5; used to exercise the inactive-head branch of the
match loop. -/
def inactiveHeadAsk : Order :=
  { id := 1, user_id := 1, side := OrderSide.Sell, price := 15050,
    original_quantity := 100, remaining_quantity := 100,
    status := OrderStatus.Cancelled, created_at := 0, updated_at := 0 }

/-- The book holding only inactiveHeadAsk at its price level. -/
def inactiveHeadBook : LimitOrderBook :=
  { symbol := "AAPL", bids := [], asks := [(15050, [inactiveHeadAsk])],
    orders := [(1, (OrderSide.Sell, 15050))], recent_trades := [],
    max_recent_trades := 1000 }

/-- An active incoming buy whose price crosses the inactive resting ask. -/
def crossingBuy : Order :=
  { id := 2, user_id := 2, side := OrderSide.Buy, price := 15060,
    original_quantity := 100, remaining_quantity := 100,
    status := OrderStatus.Active, created_at := 3, updated_at := 3 }

/-- A resting active ask used by the terminal-status-incoming scenario. -/
def restingAsk : Order :=
  { id := 1, user_id := 1, side := OrderSide.Sell, price := 15000,
    original_quantity := 100, remaining_quantity := 100,
    status := OrderStatus.Active, created_at := 0, updated_at := 0 }

/-- The book holding only restingAsk. -/
def restingAskBook : LimitOrderBook :=
  { symbol := "AAPL", bids := [], asks := [(15000, [restingAsk])],
    orders := [(1, (OrderSide.Sell, 15000))], recent_trades := [],
    max_recent_trades := 1000 }

/-- An incoming buy that is already Cancelled but still has remaining
quantity, crossing restingAsk. -/
def cancelledBuy : Order :=
  { id := 2, user_id := 2, side := OrderSide.Buy, price := 15000,
    original_quantity := 100, remaining_quantity := 100,
    status := OrderStatus.Cancelled, created_at := 4, updated_at := 4 }

/-- The submissions of scenario S1 of the spec: two bids and two asks on
AAPL that do not cross. -/
def s1ops : List BookOp :=
  [BookOp.submit OrderSide.Buy 15000 100 1,
   BookOp.submit OrderSide.Buy 14950 200 1,
   BookOp.submit OrderSide.Sell 15050 100 2,
   BookOp.submit OrderSide.Sell 15100 150 2]

/-- The book after scenario S1. -/
def s1book : LimitOrderBook :=
  (runTrace s1ops).book

/-- The incoming order of scenario S2: Buy at 150.10 for 350. -/
def s2buy : Order :=
  Order.new 4 3 OrderSide.Buy 15010 350 4

/-- An incoming buy at 150.60 that does cross the best ask (150.50) of the
S1 book; its own price differs from every resting price. -/
def crossingBuy15060 : Order :=
  Order.new 4 3 OrderSide.Buy 15060 100 4

/-- The trade the S1 book produces for crossingBuy15060: executed at the
resting ask price 150.50, not at the incoming 150.60. -/
def s1CrossTrade : Trade :=
  { buy_order_id := 4, sell_order_id := 2, price := 15050, quantity := 100,
    timestamp := 4 }

/-- All orders of a ladder belong to the stated side. -/
def ladderSides (lad : Ladder) (s : OrderSide) : Prop :=
  ∀ e ∈ lad, ∀ o ∈ e.2, o.side = s

/-- The trade produced when cancelledBuy fully crosses restingAsk. -/
def tradeOnRestingAsk : Trade :=
  { buy_order_id := 2, sell_order_id := 1, price := 15000, quantity := 100,
    timestamp := 5 }

/-- The book left after cancelledBuy fully consumes restingAsk: empty
ladders and index, the trade recorded in recent_trades. -/
def bookAfterCancelledBuy : LimitOrderBook :=
  { symbol := "AAPL", bids := [], asks := [], orders := [],
    recent_trades := [tradeOnRestingAsk], max_recent_trades := 1000 }

/-- The opposite side. -/
def oppositeSide : OrderSide → OrderSide
  | OrderSide.Buy => OrderSide.Sell
  | OrderSide.Sell => OrderSide.Buy

/-- The record produced by a successful Order::fill. -/
def fillResult (o : Order) (q now : Nat) : Order :=
  { o with remaining_quantity := o.remaining_quantity - q,
           status := if o.remaining_quantity - q = 0 then OrderStatus.Filled
                     else OrderStatus.PartiallyFilled,
           updated_at := now }

/-- The trade record built by one iteration of the match loop for the
incoming order against resting head h. -/
def tradeOf (inc h : Order) (now : Nat) : Trade :=
  { buy_order_id := match inc.side with
      | OrderSide.Buy => inc.id
      | OrderSide.Sell => h.id,
    sell_order_id := match inc.side with
      | OrderSide.Sell => inc.id
      | OrderSide.Buy => h.id,
    price := h.price,
    quantity := min inc.remaining_quantity h.remaining_quantity,
    timestamp := now }

/-- Writes a new level list at a key of the ladder opposing side s. -/
def setOppLevel (b : LimitOrderBook) (s : OrderSide) (p : Int)
    (l : List Order) : LimitOrderBook :=
  match s with
  | OrderSide.Buy => { b with asks := Ladder.setLevel b.asks p l }
  | OrderSide.Sell => { b with bids := Ladder.setLevel b.bids p l }

/-- The book produced by remove_filled_order after the match loop has
already written level lvl at key bp of the ladder opposing s: the id
leaves the index, the level is filtered by id and pruned if empty. -/
def afterRemove (b : LimitOrderBook) (s : OrderSide) (bp : Int)
    (lvl : List Order) (oid : Nat) : LimitOrderBook :=
  let lvl2 := lvl.filter (fun o => ¬ o.id = oid)
  match s with
  | OrderSide.Buy =>
    let lad := Ladder.setLevel b.asks bp lvl
    { b with orders := OrderIndex.removeId b.orders oid,
             asks := if lvl2.isEmpty then Ladder.removeKey lad bp
                     else Ladder.setLevel lad bp lvl2 }
  | OrderSide.Sell =>
    let lad := Ladder.setLevel b.bids bp lvl
    { b with orders := OrderIndex.removeId b.orders oid,
             bids := if lvl2.isEmpty then Ladder.removeKey lad bp
                     else Ladder.setLevel lad bp lvl2 }

/-- One full iteration of the match loop in the crossing case with active
head h and tail rest at best opposing price bp, followed by the remainder
of the loop with fuel n. -/
def matchLoopStep (n : Nat) (b : LimitOrderBook) (inc h : Order)
    (rest : List Order) (bp : Int) (now : Nat) (acc : List Trade) :
    Except MatchingEngineError (LimitOrderBook × Order × List Trade) :=
  let tq := min inc.remaining_quantity h.remaining_quantity
  let inc2 := fillResult inc tq now
  let h2 := fillResult h tq now
  let b1 := setOppLevel b inc.side bp (h2 :: rest)
  let tr := tradeOf inc h now
  if h2.is_filled then
    match LimitOrderBook.remove_filled_order b1 h.id h.side bp with
    | Except.error e => Except.error e
    | Except.ok b2 =>
      if inc2.is_filled then Except.ok (b2, inc2, acc ++ [tr])
      else LimitOrderBook.matchLoop n b2 inc2 now (acc ++ [tr])
  else
    if inc2.is_filled then Except.ok (b1, inc2, acc ++ [tr])
    else LimitOrderBook.matchLoop n b1 inc2 now (acc ++ [tr])

/-- The keys of a ladder, in ladder order. -/
def ladderKeys (lad : Ladder) : List Int :=
  lad.map Prod.fst

/-- The ladder keys are strictly ascending, as in a BTreeMap. -/
def ladderSorted (lad : Ladder) : Prop :=
  (ladderKeys lad).Pairwise (· < ·)

/-- Every price level of the ladder is non-empty. -/
def ladderNoEmpty (lad : Ladder) : Prop :=
  ∀ e ∈ lad, e.2 ≠ []

/-- Every order resting in the ladder is active-for-matching with
positive remaining quantity (invariant F.5/F.6 of the spec). -/
def ladderActive (lad : Ladder) : Prop :=
  ∀ e ∈ lad, ∀ o ∈ e.2, o.is_active = true ∧ 0 < o.remaining_quantity

/-- The book is not crossed: best bid at most best ask when both exist. -/
def notCrossed (b : LimitOrderBook) : Prop :=
  ∀ bb ba, LimitOrderBook.best_bid b = some bb →
    LimitOrderBook.best_ask b = some ba → bb ≤ ba

/-- The inductive invariant carried along a trace: well-formed sorted
ladders, resting orders active with positive remainder and on their own
side, globally distinct resting ids below the id counter, an uncrossed
book, and the quantity-conservation accounting equation. -/
structure TraceInv (st : TraceState) : Prop where
  sortedB : ladderSorted st.book.bids
  sortedA : ladderSorted st.book.asks
  neB : ladderNoEmpty st.book.bids
  neA : ladderNoEmpty st.book.asks
  actB : ladderActive st.book.bids
  actA : ladderActive st.book.asks
  sideB : ladderSides st.book.bids OrderSide.Buy
  sideA : ladderSides st.book.asks OrderSide.Sell
  nodup : (Ladder.ids st.book.bids ++ Ladder.ids st.book.asks).Nodup
  idsLt : ∀ i ∈ Ladder.ids st.book.bids ++ Ladder.ids st.book.asks, i < st.nextId
  nc : notCrossed st.book
  conserve : st.submittedSum = Ladder.remSum st.book.bids +
    Ladder.remSum st.book.asks + st.cancelledSum + 2 * st.tradeSum

/-- What one full run of the match loop guarantees about its result, for
an incoming order of side s: the own ladder is untouched; the opposing
ladder keeps well-formedness, loses keys and ids only, and loses exactly
the traded quantity; the incoming order keeps its identity fields and its
status only changes through fills; and the loop only stops with the
incoming order filled, the opposing side empty, or the best opposing
price no longer crossing. -/
structure MatchOut (b : LimitOrderBook) (inc : Order) (s : OrderSide)
    (b2 : LimitOrderBook) (inc2 : Order) (tds : List Trade) : Prop where
  own_eq : LimitOrderBook.ownLadder b2 s = LimitOrderBook.ownLadder b s
  keys_sub : ∀ k ∈ ladderKeys (LimitOrderBook.oppLadder b2 s),
    k ∈ ladderKeys (LimitOrderBook.oppLadder b s)
  sorted2 : ladderSorted (LimitOrderBook.oppLadder b2 s)
  ne2 : ladderNoEmpty (LimitOrderBook.oppLadder b2 s)
  act2 : ladderActive (LimitOrderBook.oppLadder b2 s)
  sides2 : ladderSides (LimitOrderBook.oppLadder b2 s) (oppositeSide s)
  ids_sub : (Ladder.ids (LimitOrderBook.oppLadder b2 s)).Sublist
    (Ladder.ids (LimitOrderBook.oppLadder b s))
  conserve : Ladder.remSum (LimitOrderBook.oppLadder b2 s) +
      inc2.remaining_quantity + 2 * tradeQtySum tds =
    Ladder.remSum (LimitOrderBook.oppLadder b s) + inc.remaining_quantity
  side_eq : inc2.side = inc.side
  price_eq : inc2.price = inc.price
  id_eq : inc2.id = inc.id
  status_ok : inc2 = inc ∨ inc2.status =
    (if inc2.remaining_quantity = 0 then OrderStatus.Filled
     else OrderStatus.PartiallyFilled)
  finished : inc2.is_filled = true ∨
    LimitOrderBook.bestOpposing b2 s = none ∨
    ∃ bp2, LimitOrderBook.bestOpposing b2 s = some bp2 ∧
      ¬ LimitOrderBook.crossesPrice s inc.price bp2

/-- Every occurrence of the second id in the list is preceded by an
occurrence of the first id: the first id is ahead in the FIFO queue. -/
def precedes (aid bid : Nat) (l : List Nat) : Prop :=
  ∀ pre post, l = pre ++ bid :: post → aid ∈ pre

/-- FIFO order of trades: every trade whose maker (resting side) is the
second order is preceded in the list by a trade whose maker is the first
order. -/
def tradesFifo (s : OrderSide) (aid bid : Nat) (tds : List Trade) : Prop :=
  ∀ pre t post, tds = pre ++ t :: post →
    LimitOrderBook.makerId t s = bid →
    ∃ t0 ∈ pre, LimitOrderBook.makerId t0 s = aid

/-- First resting ask of the FIFO scenario: inserted first at 150.50. -/
def aOrd : Order :=
  { id := 10, user_id := 1, side := OrderSide.Sell, price := 15050,
    original_quantity := 50, remaining_quantity := 50,
    status := OrderStatus.Active, created_at := 0, updated_at := 0 }

/-- Second resting ask of the FIFO scenario: same price, inserted later. -/
def bOrd : Order :=
  { id := 20, user_id := 2, side := OrderSide.Sell, price := 15050,
    original_quantity := 50, remaining_quantity := 50,
    status := OrderStatus.Active, created_at := 1, updated_at := 1 }

/-- A book with the two same-price asks queued in insertion order. -/
def fifoBook : LimitOrderBook :=
  { symbol := "AAPL", bids := [], asks := [(15050, [aOrd, bOrd])],
    orders := [(10, (OrderSide.Sell, 15050)), (20, (OrderSide.Sell, 15050))],
    recent_trades := [], max_recent_trades := 1000 }

/-- A crossing buy large enough to consume the first ask and part of the
second. -/
def fifoInc : Order :=
  { id := 30, user_id := 3, side := OrderSide.Buy, price := 15060,
    original_quantity := 80, remaining_quantity := 80,
    status := OrderStatus.Active, created_at := 5, updated_at := 5 }

/-- The trades add_order emits for fifoInc against fifoBook: the earlier
ask trades first and for its full quantity. -/
def fifoTds : List Trade :=
  [{ buy_order_id := 30, sell_order_id := 10, price := 15050,
     quantity := 50, timestamp := 5 },
   { buy_order_id := 30, sell_order_id := 20, price := 15050,
     quantity := 30, timestamp := 5 }]

/-- The book remaining after the FIFO scenario: only the later ask is
left, partially filled. -/
def fifoBook2 : LimitOrderBook :=
  { symbol := "AAPL", bids := [],
    asks := [(15050,
      [{ id := 20, user_id := 2, side := OrderSide.Sell, price := 15050,
         original_quantity := 50, remaining_quantity := 20,
         status := OrderStatus.PartiallyFilled, created_at := 1,
         updated_at := 5 }])],
    orders := [(20, (OrderSide.Sell, 15050))],
    recent_trades := fifoTds, max_recent_trades := 1000 }

/-- The resting ask of the partial-fill-head scenario. -/
def hOrd : Order :=
  { id := 40, user_id := 4, side := OrderSide.Sell, price := 15050,
    original_quantity := 100, remaining_quantity := 100,
    status := OrderStatus.Active, created_at := 0, updated_at := 0 }

/-- A book holding only hOrd. -/
def headBook : LimitOrderBook :=
  { symbol := "AAPL", bids := [], asks := [(15050, [hOrd])],
    orders := [(40, (OrderSide.Sell, 15050))],
    recent_trades := [], max_recent_trades := 1000 }

/-- A crossing buy smaller than the resting head: partially fills it. -/
def headInc : Order :=
  { id := 50, user_id := 5, side := OrderSide.Buy, price := 15060,
    original_quantity := 40, remaining_quantity := 40,
    status := OrderStatus.Active, created_at := 6, updated_at := 6 }

/-! Theorems. General helper lemmas come first, then one theorem per
claim together with its witness or counterexample. -/

theorem lookupId_removeId_self (idx : OrderIndex) (i : Nat) :
    OrderIndex.lookupId (OrderIndex.removeId idx i) i = none := by
  induction idx with
  | nil => rfl
  | cons e rest ih =>
    by_cases h : e.1 = i
    · simpa [OrderIndex.removeId, List.filter_cons, h] using ih
    · simpa [OrderIndex.removeId, List.filter_cons, h, OrderIndex.lookupId]
        using ih

theorem extractById_of_find (l : List Order) (i : Nat) (o : Order)
    (h : l.find? (fun o => o.id = i) = some o) :
    ∃ l2, LimitOrderBook.extractById l i = some (o, l2) := by
  induction l with
  | nil => simp [List.find?] at h
  | cons a rest ih =>
    by_cases ha : a.id = i
    · rw [List.find?_cons_of_pos _ (by simpa using ha)] at h
      cases h
      exact ⟨rest, by simp [LimitOrderBook.extractById, ha]⟩
    · rw [List.find?_cons_of_neg _ (by simpa using ha)] at h
      obtain ⟨l2, hl2⟩ := ih h
      exact ⟨a :: l2, by simp [LimitOrderBook.extractById, ha, hl2]⟩

/-- C7 counterexample: the code contradicts the claim. A Cancelled order
with remaining quantity 50 accepts fill(30) and its status becomes
PartiallyFilled, so Cancelled is not terminal under Order::fill. -/
theorem cancelled_status_not_terminal_cex :
    (Order.fill
      { id := 1, user_id := 1, side := OrderSide.Buy, price := 15000,
        original_quantity := 100, remaining_quantity := 50,
        status := OrderStatus.Cancelled, created_at := 0, updated_at := 0 }
      30 7).map Order.status
      = Except.ok OrderStatus.PartiallyFilled := by rfl

/-- C7 amended: Order::fill rejects any positive fill of a Filled order
(remaining 0) with InsufficientQuantity, and Order::cancel keeps a
Cancelled order Cancelled; however fill does not inspect the status, so a
Cancelled order with remaining quantity can still be filled (see the
counterexample), and cancel maps even a Filled order to Cancelled. -/
theorem terminal_status_amended :
    (∀ (o : Order) (q now : Nat), o.status = OrderStatus.Filled →
      o.remaining_quantity = 0 → 0 < q →
      Order.fill o q now =
        Except.error (MatchingEngineError.InsufficientQuantity q 0)) ∧
    (∀ (o : Order) (now : Nat), o.status = OrderStatus.Cancelled →
      (Order.cancel o now).status = OrderStatus.Cancelled) := by
  constructor
  · intro o q now _ hrem hq
    simp [Order.fill, hrem]
    omega
  · intro o now _
    rfl

/-- C7 witness: the amended theorem applied at a fully filled order and at
a cancelled order. -/
theorem terminal_status_amended_witness :
    Order.fill
      { id := 1, user_id := 1, side := OrderSide.Buy, price := 15000,
        original_quantity := 100, remaining_quantity := 0,
        status := OrderStatus.Filled, created_at := 0, updated_at := 0 }
      5 9 = Except.error (MatchingEngineError.InsufficientQuantity 5 0) ∧
    (Order.cancel
      { id := 2, user_id := 1, side := OrderSide.Sell, price := 15000,
        original_quantity := 100, remaining_quantity := 40,
        status := OrderStatus.Cancelled, created_at := 0, updated_at := 0 }
      9).status = OrderStatus.Cancelled :=
  ⟨terminal_status_amended.1 _ 5 9 rfl rfl (by decide),
   terminal_status_amended.2 _ 9 rfl⟩

/-- C8: whenever get_order(id) returns Some, cancel_order(id) succeeds and
returns the order with status Cancelled; afterwards both cancel_order(id)
and get_order(id) fail or return none; and cancel_order on an id not in
the book (not in the id index) returns OrderNotFound and leaves the book
unchanged. -/
theorem cancel_total_one_shot :
    (∀ (b : LimitOrderBook) (i now now2 : Nat) (o : Order),
      LimitOrderBook.get_order b i = some o →
      ∃ b2, LimitOrderBook.cancel_order b i now = (b2, Except.ok (o.cancel now)) ∧
        (o.cancel now).status = OrderStatus.Cancelled ∧
        LimitOrderBook.get_order b2 i = none ∧
        LimitOrderBook.cancel_order b2 i now2 =
          (b2, Except.error (MatchingEngineError.OrderNotFound (toString i)))) ∧
    (∀ (b : LimitOrderBook) (i now : Nat),
      OrderIndex.lookupId b.orders i = none →
      LimitOrderBook.cancel_order b i now =
        (b, Except.error (MatchingEngineError.OrderNotFound (toString i)))) := by
  constructor
  · intro b i now now2 o hget
    unfold LimitOrderBook.get_order at hget
    cases hidx : OrderIndex.lookupId b.orders i with
    | none => rw [hidx] at hget; simp at hget
    | some sp =>
      rw [hidx] at hget
      obtain ⟨side, price⟩ := sp
      cases side with
      | Buy =>
        dsimp only at hget
        cases hlvl : Ladder.lookupLevel b.bids price with
        | none => rw [hlvl] at hget; simp at hget
        | some l =>
          rw [hlvl] at hget
          simp at hget
          obtain ⟨l2, hex⟩ := extractById_of_find l i o hget
          have hc : LimitOrderBook.cancel_order b i now =
              ({ b with
                  orders := OrderIndex.removeId b.orders i,
                  bids := if l2.isEmpty then Ladder.removeKey b.bids price
                          else Ladder.setLevel b.bids price l2 },
                Except.ok (o.cancel now)) := by
            unfold LimitOrderBook.cancel_order
            rw [hidx]
            dsimp only
            rw [hlvl]
            dsimp only
            rw [hex]
          refine ⟨_, hc, rfl, ?_, ?_⟩
          · unfold LimitOrderBook.get_order
            simp [lookupId_removeId_self]
          · unfold LimitOrderBook.cancel_order
            simp [lookupId_removeId_self]
      | Sell =>
        dsimp only at hget
        cases hlvl : Ladder.lookupLevel b.asks price with
        | none => rw [hlvl] at hget; simp at hget
        | some l =>
          rw [hlvl] at hget
          simp at hget
          obtain ⟨l2, hex⟩ := extractById_of_find l i o hget
          have hc : LimitOrderBook.cancel_order b i now =
              ({ b with
                  orders := OrderIndex.removeId b.orders i,
                  asks := if l2.isEmpty then Ladder.removeKey b.asks price
                          else Ladder.setLevel b.asks price l2 },
                Except.ok (o.cancel now)) := by
            unfold LimitOrderBook.cancel_order
            rw [hidx]
            dsimp only
            rw [hlvl]
            dsimp only
            rw [hex]
          refine ⟨_, hc, rfl, ?_, ?_⟩
          · unfold LimitOrderBook.get_order
            simp [lookupId_removeId_self]
          · unfold LimitOrderBook.cancel_order
            simp [lookupId_removeId_self]
  · intro b i now hidx
    unfold LimitOrderBook.cancel_order
    rw [hidx]

/-- C8 witness: the theorem applied to the book holding restingAsk and to
an id absent from the empty book. -/
theorem cancel_total_one_shot_witness :
    (∃ b2, LimitOrderBook.cancel_order restingAskBook 1 6 =
        (b2, Except.ok (restingAsk.cancel 6)) ∧
      (restingAsk.cancel 6).status = OrderStatus.Cancelled ∧
      LimitOrderBook.get_order b2 1 = none ∧
      LimitOrderBook.cancel_order b2 1 7 =
        (b2, Except.error (MatchingEngineError.OrderNotFound (toString 1)))) ∧
    LimitOrderBook.cancel_order (LimitOrderBook.new "AAPL") 1 6 =
      (LimitOrderBook.new "AAPL",
        Except.error (MatchingEngineError.OrderNotFound (toString 1))) :=
  ⟨cancel_total_one_shot.1 restingAskBook 1 6 7 restingAsk (by rfl),
   cancel_total_one_shot.2 (LimitOrderBook.new "AAPL") 1 6 (by rfl)⟩

/-- C6 counterexample: the code contradicts the claim. On a book whose
only resting ask has status Cancelled (not active-for-matching), a
crossing incoming buy returns normally: add_order yields Ok with zero
trades and simply rests the incoming order, instead of raising
InvariantViolation. -/
theorem inactive_head_no_violation_cex :
    LimitOrderBook.add_order inactiveHeadBook crossingBuy 3 =
      Except.ok (LimitOrderBook.insert_order inactiveHeadBook crossingBuy, []) := by
  rfl

/-- C6 amended: during matching, if the head order at the best crossing
opposing price level is not active-for-matching, the match loop stops
(break) and add_order returns Ok with no trades; no InvariantViolation is
raised. -/
theorem inactive_head_breaks_amended (b : LimitOrderBook) (inc : Order)
    (now : Nat) (bp : Int) (h : Order) (rest : List Order)
    (hbest : LimitOrderBook.bestOpposing b inc.side = some bp)
    (hcross : LimitOrderBook.crossesPrice inc.side inc.price bp)
    (hlvl : Ladder.lookupLevel (LimitOrderBook.oppLadder b inc.side) bp
      = some (h :: rest))
    (hinact : h.is_active = false) :
    ∃ b2, LimitOrderBook.add_order b inc now = Except.ok (b2, []) := by
  have hml : LimitOrderBook.matchLoop (LimitOrderBook.oppCount b inc.side + 1)
      b inc now [] = Except.ok (b, inc, []) := by
    cases hs : inc.side with
    | Buy =>
      simp only [LimitOrderBook.bestOpposing, hs] at hbest
      simp only [LimitOrderBook.crossesPrice, hs] at hcross
      simp only [LimitOrderBook.oppLadder, hs] at hlvl
      rw [LimitOrderBook.matchLoop]
      simp only [hs]
      simp [hbest, hcross, hlvl, hinact]
    | Sell =>
      simp only [LimitOrderBook.bestOpposing, hs] at hbest
      simp only [LimitOrderBook.crossesPrice, hs] at hcross
      simp only [LimitOrderBook.oppLadder, hs] at hlvl
      rw [LimitOrderBook.matchLoop]
      simp only [hs]
      simp [hbest, hcross, hlvl, hinact]
  unfold LimitOrderBook.add_order LimitOrderBook.match_order
  rw [hml]
  dsimp only
  by_cases hrest : 0 < inc.remaining_quantity ∧ inc.is_active
  · exact ⟨_, if_pos hrest⟩
  · exact ⟨_, if_neg hrest⟩

/-- C6 witness: the amended theorem applied to the concrete book with a
cancelled resting ask and a crossing incoming buy. -/
theorem inactive_head_breaks_amended_witness :
    ∃ b2, LimitOrderBook.add_order inactiveHeadBook crossingBuy 3 =
      Except.ok (b2, []) :=
  inactive_head_breaks_amended inactiveHeadBook crossingBuy 3 15050
    inactiveHeadAsk [] (by rfl) (by decide) (by rfl) (by rfl)

/-- C5: snapshot round-trip. Deserializing the serialization of any book
agrees with the original on best_bid, best_ask, spread, order_count,
market_depth at every depth and get_order at every id, and add_order of
any further order produces the identical trade list and identical
resulting state. -/
theorem snapshot_round_trip (b : LimitOrderBook) :
    LimitOrderBook.best_bid (deserialize (serialize b)) =
      LimitOrderBook.best_bid b ∧
    LimitOrderBook.best_ask (deserialize (serialize b)) =
      LimitOrderBook.best_ask b ∧
    LimitOrderBook.spread (deserialize (serialize b)) =
      LimitOrderBook.spread b ∧
    LimitOrderBook.order_count (deserialize (serialize b)) =
      LimitOrderBook.order_count b ∧
    (∀ k, LimitOrderBook.market_depth (deserialize (serialize b)) k =
      LimitOrderBook.market_depth b k) ∧
    (∀ i, LimitOrderBook.get_order (deserialize (serialize b)) i =
      LimitOrderBook.get_order b i) ∧
    (∀ (o : Order) (now : Nat),
      LimitOrderBook.add_order (deserialize (serialize b)) o now =
        LimitOrderBook.add_order b o now) :=
  ⟨rfl, rfl, rfl, rfl, fun _ => rfl, fun _ => rfl, fun _ _ => rfl⟩

/-- C10: the match loop never inspects the incoming order status. An
incoming buy that is already Cancelled but has remaining quantity 100 and
crosses the resting ask still executes the trade and add_order returns it;
the incoming order is consumed entirely and is not rested. The result is
the same for every initial status of the incoming order. -/
theorem match_ignores_incoming_status :
    ∀ s : OrderStatus,
      LimitOrderBook.add_order restingAskBook (setStatus cancelledBuy s) 5 =
        Except.ok (bookAfterCancelledBuy, [tradeOnRestingAsk]) := by
  intro s
  cases s <;> rfl

theorem mem_setLevel {lad : Ladder} {p : Int} {l2 : List Order}
    {e : Int × List Order} (h : e ∈ Ladder.setLevel lad p l2) :
    e = (p, l2) ∨ e ∈ lad := by
  induction lad with
  | nil => simp [Ladder.setLevel] at h
  | cons a rest ih =>
    by_cases ha : a.1 = p
    · rw [Ladder.setLevel, if_pos ha] at h
      rcases List.mem_cons.mp h with h1 | h1
      · exact Or.inl h1
      · exact Or.inr (List.mem_cons_of_mem _ h1)
    · rw [Ladder.setLevel, if_neg ha] at h
      rcases List.mem_cons.mp h with h1 | h1
      · exact Or.inr (h1 ▸ List.mem_cons_self _ _)
      · rcases ih h1 with h2 | h2
        · exact Or.inl h2
        · exact Or.inr (List.mem_cons_of_mem _ h2)

theorem mem_removeKey {lad : Ladder} {p : Int} {e : Int × List Order}
    (h : e ∈ Ladder.removeKey lad p) : e ∈ lad := by
  induction lad with
  | nil => simp [Ladder.removeKey] at h
  | cons a rest ih =>
    by_cases ha : a.1 = p
    · rw [Ladder.removeKey, if_pos ha] at h
      exact List.mem_cons_of_mem _ h
    · rw [Ladder.removeKey, if_neg ha] at h
      rcases List.mem_cons.mp h with h1 | h1
      · exact h1 ▸ List.mem_cons_self _ _
      · exact List.mem_cons_of_mem _ (ih h1)

theorem lookup_mem {lad : Ladder} {p : Int} {l : List Order}
    (h : Ladder.lookupLevel lad p = some l) : (p, l) ∈ lad := by
  induction lad with
  | nil => simp [Ladder.lookupLevel] at h
  | cons a rest ih =>
    by_cases ha : a.1 = p
    · rw [Ladder.lookupLevel, if_pos ha] at h
      cases h
      have : a = (p, a.2) := by
        cases a; simp at ha; simp [ha]
      exact this ▸ List.mem_cons_self _ _
    · rw [Ladder.lookupLevel, if_neg ha] at h
      exact List.mem_cons_of_mem _ (ih h)

theorem lookupLevel_setLevel_self {lad : Ladder} {p : Int} {l : List Order}
    (h : Ladder.lookupLevel lad p = some l) (l2 : List Order) :
    Ladder.lookupLevel (Ladder.setLevel lad p l2) p = some l2 := by
  induction lad with
  | nil => simp [Ladder.lookupLevel] at h
  | cons a rest ih =>
    by_cases ha : a.1 = p
    · rw [Ladder.setLevel, if_pos ha, Ladder.lookupLevel, if_pos rfl]
    · rw [Ladder.setLevel, if_neg ha, Ladder.lookupLevel, if_neg ha]
      rw [Ladder.lookupLevel, if_neg ha] at h
      exact ih h

theorem fill_ok (o : Order) (q now : Nat) (h : q ≤ o.remaining_quantity) :
    Order.fill o q now = Except.ok (fillResult o q now) := by
  simp [Order.fill, fillResult, h]

theorem ladderSides_setLevel {lad : Ladder} {s : OrderSide} {p : Int}
    {l2 : List Order} (hs : ladderSides lad s)
    (h2 : ∀ o ∈ l2, o.side = s) :
    ladderSides (Ladder.setLevel lad p l2) s := by
  intro e he o ho
  rcases mem_setLevel he with h1 | h1
  · subst h1
    exact h2 o ho
  · exact hs e h1 o ho

theorem ladderSides_removeKey {lad : Ladder} {s : OrderSide} {p : Int}
    (hs : ladderSides lad s) : ladderSides (Ladder.removeKey lad p) s :=
  fun e he o ho => hs e (mem_removeKey he) o ho

theorem matchLoop_succ_noOpp {n : Nat} {b : LimitOrderBook} {inc : Order}
    {now : Nat} {acc : List Trade}
    (hb : LimitOrderBook.bestOpposing b inc.side = none) :
    LimitOrderBook.matchLoop (n + 1) b inc now acc = Except.ok (b, inc, acc) := by
  rw [LimitOrderBook.matchLoop]
  cases hs : inc.side <;>
    simp only [LimitOrderBook.bestOpposing, hs] at hb <;>
    simp [hb]

theorem matchLoop_succ_noCross {n : Nat} {b : LimitOrderBook} {inc : Order}
    {now : Nat} {acc : List Trade} {bp : Int}
    (hb : LimitOrderBook.bestOpposing b inc.side = some bp)
    (hc : ¬ LimitOrderBook.crossesPrice inc.side inc.price bp) :
    LimitOrderBook.matchLoop (n + 1) b inc now acc = Except.ok (b, inc, acc) := by
  rw [LimitOrderBook.matchLoop]
  cases hs : inc.side <;>
    simp only [LimitOrderBook.bestOpposing, hs] at hb <;>
    simp only [LimitOrderBook.crossesPrice, hs] at hc <;>
    simp [hb, hc]

theorem matchLoop_succ_noLevel {n : Nat} {b : LimitOrderBook} {inc : Order}
    {now : Nat} {acc : List Trade} {bp : Int}
    (hb : LimitOrderBook.bestOpposing b inc.side = some bp)
    (hl : Ladder.lookupLevel (LimitOrderBook.oppLadder b inc.side) bp = none) :
    LimitOrderBook.matchLoop (n + 1) b inc now acc = Except.ok (b, inc, acc) := by
  rw [LimitOrderBook.matchLoop]
  cases hs : inc.side <;>
    simp only [LimitOrderBook.bestOpposing, hs] at hb <;>
    simp only [LimitOrderBook.oppLadder, hs] at hl <;>
    simp [hb, hl]

theorem matchLoop_succ_emptyLevel {n : Nat} {b : LimitOrderBook} {inc : Order}
    {now : Nat} {acc : List Trade} {bp : Int}
    (hb : LimitOrderBook.bestOpposing b inc.side = some bp)
    (hl : Ladder.lookupLevel (LimitOrderBook.oppLadder b inc.side) bp = some []) :
    LimitOrderBook.matchLoop (n + 1) b inc now acc = Except.ok (b, inc, acc) := by
  rw [LimitOrderBook.matchLoop]
  cases hs : inc.side <;>
    simp only [LimitOrderBook.bestOpposing, hs] at hb <;>
    simp only [LimitOrderBook.oppLadder, hs] at hl <;>
    simp [hb, hl]

theorem matchLoop_succ_inactive {n : Nat} {b : LimitOrderBook} {inc h : Order}
    {now : Nat} {acc : List Trade} {bp : Int} {rest : List Order}
    (hb : LimitOrderBook.bestOpposing b inc.side = some bp)
    (hl : Ladder.lookupLevel (LimitOrderBook.oppLadder b inc.side) bp
      = some (h :: rest))
    (hact : h.is_active = false) :
    LimitOrderBook.matchLoop (n + 1) b inc now acc = Except.ok (b, inc, acc) := by
  rw [LimitOrderBook.matchLoop]
  cases hs : inc.side <;>
    simp only [LimitOrderBook.bestOpposing, hs] at hb <;>
    simp only [LimitOrderBook.oppLadder, hs] at hl <;>
    simp [hb, hl, hact]

theorem matchLoop_succ_step {n : Nat} {b : LimitOrderBook} {inc h : Order}
    {now : Nat} {acc : List Trade} {bp : Int} {rest : List Order}
    (hb : LimitOrderBook.bestOpposing b inc.side = some bp)
    (hc : LimitOrderBook.crossesPrice inc.side inc.price bp)
    (hl : Ladder.lookupLevel (LimitOrderBook.oppLadder b inc.side) bp
      = some (h :: rest))
    (hact : h.is_active = true) :
    LimitOrderBook.matchLoop (n + 1) b inc now acc =
      matchLoopStep n b inc h rest bp now acc := by
  rw [LimitOrderBook.matchLoop]
  cases hs : inc.side <;>
    simp only [LimitOrderBook.bestOpposing, hs] at hb <;>
    simp only [LimitOrderBook.crossesPrice, hs] at hc <;>
    simp only [LimitOrderBook.oppLadder, hs] at hl <;>
    rw [hb] <;>
    dsimp only <;>
    rw [if_pos (by simpa using hc)] <;>
    rw [hl] <;>
    dsimp only <;>
    rw [if_pos hact] <;>
    rw [fill_ok inc _ now (Nat.min_le_left _ _),
        fill_ok h _ now (Nat.min_le_right _ _)] <;>
    dsimp only [matchLoopStep, tradeOf, setOppLevel] <;>
    simp only [hs]

theorem remove_step {b : LimitOrderBook} {s : OrderSide} {bp : Int}
    {l0 lvl : List Order} {oid : Nat}
    (hlook : Ladder.lookupLevel (LimitOrderBook.oppLadder b s) bp = some l0) :
    LimitOrderBook.remove_filled_order (setOppLevel b s bp lvl) oid
      (oppositeSide s) bp = Except.ok (afterRemove b s bp lvl oid) := by
  cases s with
  | Buy =>
    simp only [LimitOrderBook.oppLadder] at hlook
    unfold LimitOrderBook.remove_filled_order setOppLevel oppositeSide afterRemove
    dsimp only
    rw [lookupLevel_setLevel_self hlook lvl]
  | Sell =>
    simp only [LimitOrderBook.oppLadder] at hlook
    unfold LimitOrderBook.remove_filled_order setOppLevel oppositeSide afterRemove
    dsimp only
    rw [lookupLevel_setLevel_self hlook lvl]

theorem setOppLevel_sides {b : LimitOrderBook} {s : OrderSide} {bp : Int}
    {lvl : List Order} (hsb : ladderSides b.bids OrderSide.Buy)
    (hsa : ladderSides b.asks OrderSide.Sell)
    (hlvl : ∀ o ∈ lvl, o.side = oppositeSide s) :
    ladderSides (setOppLevel b s bp lvl).bids OrderSide.Buy ∧
    ladderSides (setOppLevel b s bp lvl).asks OrderSide.Sell := by
  cases s with
  | Buy =>
    exact ⟨hsb, ladderSides_setLevel hsa (by simpa [oppositeSide] using hlvl)⟩
  | Sell =>
    exact ⟨ladderSides_setLevel hsb (by simpa [oppositeSide] using hlvl), hsa⟩

theorem afterRemove_sides {b : LimitOrderBook} {s : OrderSide} {bp : Int}
    {lvl : List Order} {oid : Nat} (hsb : ladderSides b.bids OrderSide.Buy)
    (hsa : ladderSides b.asks OrderSide.Sell)
    (hlvl : ∀ o ∈ lvl, o.side = oppositeSide s) :
    ladderSides (afterRemove b s bp lvl oid).bids OrderSide.Buy ∧
    ladderSides (afterRemove b s bp lvl oid).asks OrderSide.Sell := by
  have hflt : ∀ o ∈ lvl.filter (fun o => ¬ o.id = oid), o.side = oppositeSide s :=
    fun o ho => hlvl o (List.mem_of_mem_filter ho)
  cases s with
  | Buy =>
    have base : ladderSides (Ladder.setLevel b.asks bp lvl) OrderSide.Sell :=
      ladderSides_setLevel hsa (by simpa [oppositeSide] using hlvl)
    refine ⟨hsb, ?_⟩
    dsimp only [afterRemove]
    split
    · exact ladderSides_removeKey base
    · exact ladderSides_setLevel base (by simpa [oppositeSide] using hflt)
  | Sell =>
    have base : ladderSides (Ladder.setLevel b.bids bp lvl) OrderSide.Buy :=
      ladderSides_setLevel hsb (by simpa [oppositeSide] using hlvl)
    refine ⟨?_, hsa⟩
    dsimp only [afterRemove]
    split
    · exact ladderSides_removeKey base
    · exact ladderSides_setLevel base (by simpa [oppositeSide] using hflt)

theorem head_side_opposite {b : LimitOrderBook} {inc h : Order} {bp : Int}
    {rest : List Order} (hsb : ladderSides b.bids OrderSide.Buy)
    (hsa : ladderSides b.asks OrderSide.Sell)
    (hl : Ladder.lookupLevel (LimitOrderBook.oppLadder b inc.side) bp
      = some (h :: rest)) :
    h.side = oppositeSide inc.side ∧
    (∀ o ∈ h :: rest, o.side = oppositeSide inc.side) := by
  cases hs : inc.side with
  | Buy =>
    rw [hs] at hl
    simp only [LimitOrderBook.oppLadder] at hl
    have hmem := lookup_mem hl
    exact ⟨hsa _ hmem h (List.mem_cons_self _ _),
      fun o ho => hsa _ hmem o ho⟩
  | Sell =>
    rw [hs] at hl
    simp only [LimitOrderBook.oppLadder] at hl
    have hmem := lookup_mem hl
    exact ⟨hsb _ hmem h (List.mem_cons_self _ _),
      fun o ho => hsb _ hmem o ho⟩

theorem matchLoop_sides (fuel : Nat) :
    ∀ (b : LimitOrderBook) (inc : Order) (now : Nat) (acc : List Trade),
      ladderSides b.bids OrderSide.Buy → ladderSides b.asks OrderSide.Sell →
      ∃ b2 inc2 ts,
        LimitOrderBook.matchLoop fuel b inc now acc = Except.ok (b2, inc2, ts) ∧
        ladderSides b2.bids OrderSide.Buy ∧
        ladderSides b2.asks OrderSide.Sell := by
  induction fuel with
  | zero => intro b inc now acc hsb hsa; exact ⟨b, inc, acc, rfl, hsb, hsa⟩
  | succ n ih =>
    intro b inc now acc hsb hsa
    cases hb : LimitOrderBook.bestOpposing b inc.side with
    | none => exact ⟨b, inc, acc, matchLoop_succ_noOpp hb, hsb, hsa⟩
    | some bp =>
      by_cases hc : LimitOrderBook.crossesPrice inc.side inc.price bp
      · cases hl : Ladder.lookupLevel (LimitOrderBook.oppLadder b inc.side) bp with
        | none => exact ⟨b, inc, acc, matchLoop_succ_noLevel hb hl, hsb, hsa⟩
        | some lvl =>
          cases lvl with
          | nil => exact ⟨b, inc, acc, matchLoop_succ_emptyLevel hb hl, hsb, hsa⟩
          | cons h rest =>
            cases hact : h.is_active with
            | false =>
              exact ⟨b, inc, acc, matchLoop_succ_inactive hb hl hact, hsb, hsa⟩
            | true =>
              rw [matchLoop_succ_step hb hc hl hact]
              obtain ⟨hhs, hlvlsides⟩ := head_side_opposite hsb hsa hl
              have hnewlvl : ∀ o ∈ (fillResult h
                  (min inc.remaining_quantity h.remaining_quantity) now) :: rest,
                  o.side = oppositeSide inc.side := by
                intro o ho
                rcases List.mem_cons.mp ho with h1 | h1
                · subst h1
                  exact hhs
                · exact hlvlsides o (List.mem_cons_of_mem _ h1)
              dsimp only [matchLoopStep]
              cases hf : (fillResult h
                  (min inc.remaining_quantity h.remaining_quantity) now).is_filled with
              | true =>
                rw [if_pos rfl, hhs, remove_step hl]
                dsimp only
                obtain ⟨hsb2, hsa2⟩ := @afterRemove_sides b inc.side bp _ h.id hsb hsa hnewlvl
                cases hif : (fillResult inc
                    (min inc.remaining_quantity h.remaining_quantity) now).is_filled with
                | true => exact ⟨_, _, _, by rw [if_pos rfl], hsb2, hsa2⟩
                | false =>
                  rw [if_neg (by simp)]
                  exact ih _ _ _ _ hsb2 hsa2
              | false =>
                rw [if_neg (by simp)]
                obtain ⟨hsb1, hsa1⟩ := @setOppLevel_sides b inc.side bp _ hsb hsa hnewlvl
                cases hif : (fillResult inc
                    (min inc.remaining_quantity h.remaining_quantity) now).is_filled with
                | true => exact ⟨_, _, _, by rw [if_pos rfl], hsb1, hsa1⟩
                | false =>
                  rw [if_neg (by simp)]
                  exact ih _ _ _ _ hsb1 hsa1
      · exact ⟨b, inc, acc, matchLoop_succ_noCross hb hc, hsb, hsa⟩

/-- C9: add_order is atomic. For every incoming order submitted to a book
whose resting orders all have positive remaining quantity (and rest on the
side their side field names, as every book built through the API does),
add_order returns Ok with its full trade list; the InsufficientQuantity
branch of fill is unreachable from the match loop because the traded
quantity is the minimum of the two remaining quantities. -/
theorem add_order_atomic (b : LimitOrderBook) (o : Order) (now : Nat)
    (_hpos : ∀ o2 ∈ Ladder.allOrders b.bids ++ Ladder.allOrders b.asks,
      0 < o2.remaining_quantity)
    (hsb : ladderSides b.bids OrderSide.Buy)
    (hsa : ladderSides b.asks OrderSide.Sell) :
    ∃ b2 ts, LimitOrderBook.add_order b o now = Except.ok (b2, ts) := by
  obtain ⟨b1, inc2, ts, heq, _, _⟩ :=
    matchLoop_sides (LimitOrderBook.oppCount b o.side + 1) b o now [] hsb hsa
  unfold LimitOrderBook.add_order LimitOrderBook.match_order
  rw [heq]
  dsimp only
  by_cases hrest : 0 < inc2.remaining_quantity ∧ inc2.is_active
  · exact ⟨_, _, if_pos hrest⟩
  · exact ⟨_, _, if_neg hrest⟩

/-- C9 witness: the theorem applied to the book holding restingAsk and a
crossing incoming buy. -/
theorem add_order_atomic_witness :
    ∃ b2 ts, LimitOrderBook.add_order restingAskBook
      (Order.new 4 3 OrderSide.Buy 15050 100 4) 4 = Except.ok (b2, ts) :=
  add_order_atomic restingAskBook (Order.new 4 3 OrderSide.Buy 15050 100 4) 4
    (by decide) (by unfold ladderSides; decide) (by unfold ladderSides; decide)

theorem mem_orderPrices {lad : Ladder} {q : Int} :
    q ∈ Ladder.orderPrices lad ↔ ∃ e ∈ lad, q ∈ e.2.map Order.price := by
  simp [Ladder.orderPrices, List.mem_flatMap]

theorem orderPrices_of_level {lad : Ladder} {p : Int} {l : List Order}
    (hl : Ladder.lookupLevel lad p = some l) {q : Int}
    (hq : q ∈ l.map Order.price) : q ∈ Ladder.orderPrices lad :=
  mem_orderPrices.mpr ⟨(p, l), lookup_mem hl, hq⟩

theorem orderPrices_setLevel_sub {lad : Ladder} {p : Int} {l2 : List Order}
    (hsub : ∀ q ∈ l2.map Order.price, q ∈ Ladder.orderPrices lad) :
    ∀ q ∈ Ladder.orderPrices (Ladder.setLevel lad p l2),
      q ∈ Ladder.orderPrices lad := by
  intro q hq
  obtain ⟨e, he, hqe⟩ := mem_orderPrices.mp hq
  rcases mem_setLevel he with h1 | h1
  · subst h1
    exact hsub q hqe
  · exact mem_orderPrices.mpr ⟨e, h1, hqe⟩

theorem orderPrices_removeKey_sub {lad : Ladder} {p : Int} :
    ∀ q ∈ Ladder.orderPrices (Ladder.removeKey lad p),
      q ∈ Ladder.orderPrices lad := by
  intro q hq
  obtain ⟨e, he, hqe⟩ := mem_orderPrices.mp hq
  exact mem_orderPrices.mpr ⟨e, mem_removeKey he, hqe⟩

theorem orderPrices_prune_sub {lad : Ladder} {bp : Int} {l l2 : List Order}
    (hl : Ladder.lookupLevel lad bp = some l)
    (hsub : ∀ q ∈ l2.map Order.price, q ∈ l.map Order.price) :
    ∀ q ∈ Ladder.orderPrices
      (if l2.isEmpty then Ladder.removeKey lad bp else Ladder.setLevel lad bp l2),
      q ∈ Ladder.orderPrices lad := by
  split
  · exact orderPrices_removeKey_sub
  · exact orderPrices_setLevel_sub
      (fun q hq => orderPrices_of_level hl (hsub q hq))

theorem remove_filled_prices_sub {b1 : LimitOrderBook} {oid : Nat}
    {side : OrderSide} {bp : Int} {b2 : LimitOrderBook}
    (h : LimitOrderBook.remove_filled_order b1 oid side bp = Except.ok b2)
    (s : OrderSide) :
    ∀ q ∈ Ladder.orderPrices (LimitOrderBook.oppLadder b2 s),
      q ∈ Ladder.orderPrices (LimitOrderBook.oppLadder b1 s) := by
  cases side with
  | Buy =>
    unfold LimitOrderBook.remove_filled_order at h
    dsimp only at h
    cases hlk : Ladder.lookupLevel b1.bids bp with
    | none => rw [hlk] at h; exact absurd h (by simp)
    | some l =>
      rw [hlk] at h
      dsimp only at h
      cases h
      cases s with
      | Buy => intro q hq; exact hq
      | Sell =>
        intro q hq
        exact orderPrices_prune_sub hlk
          (fun q2 hq2 => by
            obtain ⟨o, ho, rfl⟩ := List.mem_map.mp hq2
            exact List.mem_map_of_mem _ (List.mem_of_mem_filter ho)) q hq
  | Sell =>
    unfold LimitOrderBook.remove_filled_order at h
    dsimp only at h
    cases hlk : Ladder.lookupLevel b1.asks bp with
    | none => rw [hlk] at h; exact absurd h (by simp)
    | some l =>
      rw [hlk] at h
      dsimp only at h
      cases h
      cases s with
      | Sell => intro q hq; exact hq
      | Buy =>
        intro q hq
        exact orderPrices_prune_sub hlk
          (fun q2 hq2 => by
            obtain ⟨o, ho, rfl⟩ := List.mem_map.mp hq2
            exact List.mem_map_of_mem _ (List.mem_of_mem_filter ho)) q hq

theorem matchLoop_zero (b : LimitOrderBook) (inc : Order) (now : Nat)
    (acc : List Trade) :
    LimitOrderBook.matchLoop 0 b inc now acc = Except.ok (b, inc, acc) := rfl

theorem oppLadder_setOppLevel (b : LimitOrderBook) (s : OrderSide) (bp : Int)
    (l : List Order) :
    LimitOrderBook.oppLadder (setOppLevel b s bp l) s =
      Ladder.setLevel (LimitOrderBook.oppLadder b s) bp l := by
  cases s <;> rfl

theorem matchLoop_trade_prices (fuel : Nat) :
    ∀ (b : LimitOrderBook) (inc : Order) (now : Nat) (acc : List Trade)
      (b2 : LimitOrderBook) (inc2 : Order) (ts : List Trade),
      LimitOrderBook.matchLoop fuel b inc now acc = Except.ok (b2, inc2, ts) →
      ∀ t ∈ ts, t ∈ acc ∨
        t.price ∈ Ladder.orderPrices (LimitOrderBook.oppLadder b inc.side) := by
  induction fuel with
  | zero =>
    intro b inc now acc b2 inc2 ts heq t ht
    rw [matchLoop_zero] at heq
    simp only [Except.ok.injEq, Prod.mk.injEq] at heq
    obtain ⟨rfl, rfl, rfl⟩ := heq
    exact Or.inl ht
  | succ n ih =>
    intro b inc now acc b2 inc2 ts heq t ht
    cases hb : LimitOrderBook.bestOpposing b inc.side with
    | none =>
      rw [matchLoop_succ_noOpp hb] at heq
      simp only [Except.ok.injEq, Prod.mk.injEq] at heq
      obtain ⟨rfl, rfl, rfl⟩ := heq
      exact Or.inl ht
    | some bp =>
      by_cases hc : LimitOrderBook.crossesPrice inc.side inc.price bp
      · cases hl : Ladder.lookupLevel (LimitOrderBook.oppLadder b inc.side) bp with
        | none =>
          rw [matchLoop_succ_noLevel hb hl] at heq
          simp only [Except.ok.injEq, Prod.mk.injEq] at heq
          obtain ⟨rfl, rfl, rfl⟩ := heq
          exact Or.inl ht
        | some lvl =>
          cases lvl with
          | nil =>
            rw [matchLoop_succ_emptyLevel hb hl] at heq
            simp only [Except.ok.injEq, Prod.mk.injEq] at heq
            obtain ⟨rfl, rfl, rfl⟩ := heq
            exact Or.inl ht
          | cons h rest =>
            cases hact : h.is_active with
            | false =>
              rw [matchLoop_succ_inactive hb hl hact] at heq
              simp only [Except.ok.injEq, Prod.mk.injEq] at heq
              obtain ⟨rfl, rfl, rfl⟩ := heq
              exact Or.inl ht
            | true =>
              rw [matchLoop_succ_step hb hc hl hact] at heq
              dsimp only [matchLoopStep] at heq
              have hlvlprices : ∀ q ∈ ((fillResult h
                  (min inc.remaining_quantity h.remaining_quantity) now)
                    :: rest).map Order.price,
                  q ∈ Ladder.orderPrices (LimitOrderBook.oppLadder b inc.side) := by
                intro q hq
                exact orderPrices_of_level hl hq
              have htr : (tradeOf inc h now).price ∈
                  Ladder.orderPrices (LimitOrderBook.oppLadder b inc.side) :=
                orderPrices_of_level hl
                  (List.mem_map_of_mem _ (List.mem_cons_self _ _))
              have hmemtr : ∀ t2 ∈ acc ++ [tradeOf inc h now], t2 ∈ acc ∨
                  t2.price ∈ Ladder.orderPrices (LimitOrderBook.oppLadder b inc.side) := by
                intro t2 ht2
                rcases List.mem_append.mp ht2 with h1 | h1
                · exact Or.inl h1
                · rw [List.mem_singleton.mp h1]
                  exact Or.inr htr
              by_cases hf : (fillResult h
                  (min inc.remaining_quantity h.remaining_quantity) now).is_filled
                  = true
              · rw [if_pos hf] at heq
                cases hrm : LimitOrderBook.remove_filled_order
                    (setOppLevel b inc.side bp (fillResult h
                      (min inc.remaining_quantity h.remaining_quantity) now :: rest))
                    h.id h.side bp with
                | error e =>
                  rw [hrm] at heq
                  exact absurd heq (by simp)
                | ok brm =>
                  rw [hrm] at heq
                  dsimp only at heq
                  have hsub1 : ∀ q ∈ Ladder.orderPrices
                      (LimitOrderBook.oppLadder brm inc.side),
                      q ∈ Ladder.orderPrices (LimitOrderBook.oppLadder b inc.side) := by
                    intro q hq
                    have h2 := remove_filled_prices_sub hrm inc.side q hq
                    rw [oppLadder_setOppLevel] at h2
                    exact orderPrices_setLevel_sub hlvlprices q h2
                  by_cases hif : (fillResult inc
                      (min inc.remaining_quantity h.remaining_quantity) now).is_filled
                      = true
                  · rw [if_pos hif] at heq
                    simp only [Except.ok.injEq, Prod.mk.injEq] at heq
                    obtain ⟨rfl, rfl, rfl⟩ := heq
                    exact hmemtr t ht
                  · rw [if_neg hif] at heq
                    rcases ih brm _ now (acc ++ [tradeOf inc h now]) b2 inc2 ts heq t ht
                      with h1 | h1
                    · exact hmemtr t h1
                    · exact Or.inr (hsub1 _ h1)
              · rw [if_neg hf] at heq
                have hsub1 : ∀ q ∈ Ladder.orderPrices
                    (LimitOrderBook.oppLadder (setOppLevel b inc.side bp
                      (fillResult h
                        (min inc.remaining_quantity h.remaining_quantity) now :: rest))
                      inc.side),
                    q ∈ Ladder.orderPrices (LimitOrderBook.oppLadder b inc.side) := by
                  intro q hq
                  rw [oppLadder_setOppLevel] at hq
                  exact orderPrices_setLevel_sub hlvlprices q hq
                by_cases hif : (fillResult inc
                    (min inc.remaining_quantity h.remaining_quantity) now).is_filled
                    = true
                · rw [if_pos hif] at heq
                  simp only [Except.ok.injEq, Prod.mk.injEq] at heq
                  obtain ⟨rfl, rfl, rfl⟩ := heq
                  exact hmemtr t ht
                · rw [if_neg hif] at heq
                  rcases ih _ _ now (acc ++ [tradeOf inc h now]) b2 inc2 ts heq t ht
                    with h1 | h1
                  · exact hmemtr t h1
                  · exact Or.inr (hsub1 _ h1)
      · rw [matchLoop_succ_noCross hb hc] at heq
        simp only [Except.ok.injEq, Prod.mk.injEq] at heq
        obtain ⟨rfl, rfl, rfl⟩ := heq
        exact Or.inl ht

theorem makerId_tradeOf (inc h : Order) (now : Nat) :
    LimitOrderBook.makerId (tradeOf inc h now) inc.side = h.id := by
  cases hs : inc.side <;> simp [LimitOrderBook.makerId, tradeOf, hs]

theorem restsIn_setLevel {lad : Ladder} {p : Int} {l2 : List Order}
    {m : Order} (h : ∃ e ∈ Ladder.setLevel lad p l2, m ∈ e.2) :
    m ∈ l2 ∨ ∃ e ∈ lad, m ∈ e.2 := by
  obtain ⟨e, he, hm⟩ := h
  rcases mem_setLevel he with h1 | h1
  · subst h1
    exact Or.inl hm
  · exact Or.inr ⟨e, h1, hm⟩

theorem restsIn_removeKey {lad : Ladder} {p : Int} {m : Order}
    (h : ∃ e ∈ Ladder.removeKey lad p, m ∈ e.2) : ∃ e ∈ lad, m ∈ e.2 := by
  obtain ⟨e, he, hm⟩ := h
  exact ⟨e, mem_removeKey he, hm⟩

theorem restsIn_prune {lad : Ladder} {bp : Int} {l2 : List Order} {m : Order}
    (h : ∃ e ∈ (if l2.isEmpty then Ladder.removeKey lad bp
      else Ladder.setLevel lad bp l2), m ∈ e.2) :
    m ∈ l2 ∨ ∃ e ∈ lad, m ∈ e.2 := by
  split at h
  · exact Or.inr (restsIn_removeKey h)
  · exact restsIn_setLevel h

theorem remove_filled_restsIn {b1 : LimitOrderBook} {oid : Nat}
    {side : OrderSide} {bp : Int} {b2 : LimitOrderBook}
    (h : LimitOrderBook.remove_filled_order b1 oid side bp = Except.ok b2)
    (s : OrderSide) {m : Order}
    (hm : ∃ e ∈ LimitOrderBook.oppLadder b2 s, m ∈ e.2) :
    ∃ e ∈ LimitOrderBook.oppLadder b1 s, m ∈ e.2 := by
  cases side with
  | Buy =>
    unfold LimitOrderBook.remove_filled_order at h
    dsimp only at h
    cases hlk : Ladder.lookupLevel b1.bids bp with
    | none =>
      rw [hlk] at h
      exact absurd h (by simp)
    | some l =>
      rw [hlk] at h
      dsimp only at h
      cases h
      cases s with
      | Buy => exact hm
      | Sell =>
        rcases restsIn_prune hm with h1 | h1
        · exact ⟨(bp, l), lookup_mem hlk, List.mem_of_mem_filter h1⟩
        · exact h1
  | Sell =>
    unfold LimitOrderBook.remove_filled_order at h
    dsimp only at h
    cases hlk : Ladder.lookupLevel b1.asks bp with
    | none =>
      rw [hlk] at h
      exact absurd h (by simp)
    | some l =>
      rw [hlk] at h
      dsimp only at h
      cases h
      cases s with
      | Sell => exact hm
      | Buy =>
        rcases restsIn_prune hm with h1 | h1
        · exact ⟨(bp, l), lookup_mem hlk, List.mem_of_mem_filter h1⟩
        · exact h1

/-- Each trade carries the id and the price of the resting maker order it
executed against: the trade records the maker id (sell side for an
incoming buy, buy side for an incoming sell), and an order with that id
and exactly the trade price rests on the opposing side of the pre-call
book. -/
theorem matchLoop_trade_makers (fuel : Nat) :
    ∀ (b : LimitOrderBook) (inc : Order) (now : Nat) (acc : List Trade)
      (b2 : LimitOrderBook) (inc2 : Order) (ts : List Trade),
      LimitOrderBook.matchLoop fuel b inc now acc = Except.ok (b2, inc2, ts) →
      ∀ t ∈ ts, t ∈ acc ∨
        ∃ e ∈ LimitOrderBook.oppLadder b inc.side, ∃ m ∈ e.2,
          m.id = LimitOrderBook.makerId t inc.side ∧ t.price = m.price := by
  induction fuel with
  | zero =>
    intro b inc now acc b2 inc2 ts heq t ht
    rw [matchLoop_zero] at heq
    simp only [Except.ok.injEq, Prod.mk.injEq] at heq
    obtain ⟨rfl, rfl, rfl⟩ := heq
    exact Or.inl ht
  | succ n ih =>
    intro b inc now acc b2 inc2 ts heq t ht
    cases hb : LimitOrderBook.bestOpposing b inc.side with
    | none =>
      rw [matchLoop_succ_noOpp hb] at heq
      simp only [Except.ok.injEq, Prod.mk.injEq] at heq
      obtain ⟨rfl, rfl, rfl⟩ := heq
      exact Or.inl ht
    | some bp =>
      by_cases hc : LimitOrderBook.crossesPrice inc.side inc.price bp
      · cases hl : Ladder.lookupLevel (LimitOrderBook.oppLadder b inc.side)
            bp with
        | none =>
          rw [matchLoop_succ_noLevel hb hl] at heq
          simp only [Except.ok.injEq, Prod.mk.injEq] at heq
          obtain ⟨rfl, rfl, rfl⟩ := heq
          exact Or.inl ht
        | some lvl =>
          cases lvl with
          | nil =>
            rw [matchLoop_succ_emptyLevel hb hl] at heq
            simp only [Except.ok.injEq, Prod.mk.injEq] at heq
            obtain ⟨rfl, rfl, rfl⟩ := heq
            exact Or.inl ht
          | cons h rest =>
            cases hact : h.is_active with
            | false =>
              rw [matchLoop_succ_inactive hb hl hact] at heq
              simp only [Except.ok.injEq, Prod.mk.injEq] at heq
              obtain ⟨rfl, rfl, rfl⟩ := heq
              exact Or.inl ht
            | true =>
              rw [matchLoop_succ_step hb hc hl hact] at heq
              dsimp only [matchLoopStep] at heq
              have htr : ∃ e ∈ LimitOrderBook.oppLadder b inc.side,
                  ∃ m ∈ e.2, m.id = LimitOrderBook.makerId (tradeOf inc h now)
                    inc.side ∧ (tradeOf inc h now).price = m.price :=
                ⟨(bp, h :: rest), lookup_mem hl, h, List.mem_cons_self _ _,
                  (makerId_tradeOf inc h now).symm, rfl⟩
              have hmemtr : ∀ t2 ∈ acc ++ [tradeOf inc h now], t2 ∈ acc ∨
                  ∃ e ∈ LimitOrderBook.oppLadder b inc.side, ∃ m ∈ e.2,
                    m.id = LimitOrderBook.makerId t2 inc.side ∧
                    t2.price = m.price := by
                intro t2 ht2
                rcases List.mem_append.mp ht2 with h1 | h1
                · exact Or.inl h1
                · rw [List.mem_singleton.mp h1]
                  exact Or.inr htr
              have hlift : ∀ (i : Nat) (pr : Int) (m : Order),
                  m ∈ (fillResult h
                    (min inc.remaining_quantity h.remaining_quantity) now)
                    :: rest →
                  m.id = i → pr = m.price →
                  ∃ e ∈ LimitOrderBook.oppLadder b inc.side, ∃ m2 ∈ e.2,
                    m2.id = i ∧ pr = m2.price := by
                intro i pr m hm hid hpr
                rcases List.mem_cons.mp hm with h1 | h1
                · subst h1
                  exact ⟨(bp, h :: rest), lookup_mem hl, h,
                    List.mem_cons_self _ _, hid, hpr⟩
                · exact ⟨(bp, h :: rest), lookup_mem hl, m,
                    List.mem_cons_of_mem _ h1, hid, hpr⟩
              by_cases hf : (fillResult h
                  (min inc.remaining_quantity h.remaining_quantity)
                  now).is_filled = true
              · rw [if_pos hf] at heq
                cases hrm : LimitOrderBook.remove_filled_order
                    (setOppLevel b inc.side bp (fillResult h
                      (min inc.remaining_quantity h.remaining_quantity) now
                      :: rest)) h.id h.side bp with
                | error e =>
                  rw [hrm] at heq
                  exact absurd heq (by simp)
                | ok brm =>
                  rw [hrm] at heq
                  dsimp only at heq
                  have hsub1 : ∀ (t2 : Trade),
                      (∃ e ∈ LimitOrderBook.oppLadder brm inc.side,
                        ∃ m ∈ e.2, m.id = LimitOrderBook.makerId t2 inc.side ∧
                        t2.price = m.price) →
                      ∃ e ∈ LimitOrderBook.oppLadder b inc.side, ∃ m ∈ e.2,
                        m.id = LimitOrderBook.makerId t2 inc.side ∧
                        t2.price = m.price := by
                    rintro t2 ⟨e, he, m, hm, hid, hpr⟩
                    have h2 := remove_filled_restsIn hrm inc.side ⟨e, he, hm⟩
                    rw [oppLadder_setOppLevel] at h2
                    rcases restsIn_setLevel h2 with h3 | ⟨e2, he2, hm2⟩
                    · exact hlift _ _ m h3 hid hpr
                    · exact ⟨e2, he2, m, hm2, hid, hpr⟩
                  by_cases hif : (fillResult inc
                      (min inc.remaining_quantity h.remaining_quantity)
                      now).is_filled = true
                  · rw [if_pos hif] at heq
                    simp only [Except.ok.injEq, Prod.mk.injEq] at heq
                    obtain ⟨rfl, rfl, rfl⟩ := heq
                    exact hmemtr t ht
                  · rw [if_neg hif] at heq
                    rcases ih brm _ now (acc ++ [tradeOf inc h now]) b2 inc2
                        ts heq t ht with h1 | h1
                    · exact hmemtr t h1
                    · exact Or.inr (hsub1 t h1)
              · rw [if_neg hf] at heq
                have hsub1 : ∀ (t2 : Trade),
                    (∃ e ∈ LimitOrderBook.oppLadder (setOppLevel b inc.side
                      bp (fillResult h
                        (min inc.remaining_quantity h.remaining_quantity) now
                        :: rest)) inc.side,
                      ∃ m ∈ e.2, m.id = LimitOrderBook.makerId t2 inc.side ∧
                      t2.price = m.price) →
                    ∃ e ∈ LimitOrderBook.oppLadder b inc.side, ∃ m ∈ e.2,
                      m.id = LimitOrderBook.makerId t2 inc.side ∧
                      t2.price = m.price := by
                  rintro t2 ⟨e, he, m, hm, hid, hpr⟩
                  rw [oppLadder_setOppLevel] at he
                  rcases restsIn_setLevel ⟨e, he, hm⟩ with h3 | ⟨e2, he2, hm2⟩
                  · exact hlift _ _ m h3 hid hpr
                  · exact ⟨e2, he2, m, hm2, hid, hpr⟩
                by_cases hif : (fillResult inc
                    (min inc.remaining_quantity h.remaining_quantity)
                    now).is_filled = true
                · rw [if_pos hif] at heq
                  simp only [Except.ok.injEq, Prod.mk.injEq] at heq
                  obtain ⟨rfl, rfl, rfl⟩ := heq
                  exact hmemtr t ht
                · rw [if_neg hif] at heq
                  rcases ih _ _ now (acc ++ [tradeOf inc h now]) b2 inc2 ts
                      heq t ht with h1 | h1
                  · exact hmemtr t h1
                  · exact Or.inr (hsub1 t h1)
      · rw [matchLoop_succ_noCross hb hc] at heq
        simp only [Except.ok.injEq, Prod.mk.injEq] at heq
        obtain ⟨rfl, rfl, rfl⟩ := heq
        exact Or.inl ht

/-- C3 counterexample: the claimed instance is false on the code. A
Buy at 150.10 does not cross a resting Sell at 150.50 (150.10 < 150.50),
so submitting Buy 150.10 for 350 to the S1 book executes no trade at all,
rather than one trade at 150.50. -/
theorem taker_price_cex :
    (LimitOrderBook.add_order s1book s2buy 4).map Prod.snd =
      Except.ok [] := by rfl

theorem lookup_decomp {lad : Ladder} {p : Int} {l : List Order}
    (h : Ladder.lookupLevel lad p = some l) :
    ∃ la lb, lad = la ++ (p, l) :: lb ∧ ∀ e ∈ la, e.1 ≠ p := by
  induction lad with
  | nil => simp [Ladder.lookupLevel] at h
  | cons a rest ih =>
    by_cases ha : a.1 = p
    · rw [Ladder.lookupLevel, if_pos ha] at h
      cases h
      refine ⟨[], rest, ?_, by simp⟩
      cases a
      simp_all
    · rw [Ladder.lookupLevel, if_neg ha] at h
      obtain ⟨la, lb, hdec, hne⟩ := ih h
      exact ⟨a :: la, lb, by rw [hdec]; rfl,
        fun e he => by
          rcases List.mem_cons.mp he with h1 | h1
          · exact h1 ▸ ha
          · exact hne e h1⟩

theorem setLevel_append {la lb : Ladder} {p : Int} {l l2 : List Order}
    (hla : ∀ e ∈ la, e.1 ≠ p) :
    Ladder.setLevel (la ++ (p, l) :: lb) p l2 = la ++ (p, l2) :: lb := by
  induction la with
  | nil => simp [Ladder.setLevel]
  | cons a rest ih =>
    have ha : a.1 ≠ p := hla a (List.mem_cons_self _ _)
    simp only [List.cons_append, Ladder.setLevel, if_neg ha, List.append_eq]
    rw [ih (fun e he => hla e (List.mem_cons_of_mem _ he))]

theorem removeKey_append {la lb : Ladder} {p : Int} {l : List Order}
    (hla : ∀ e ∈ la, e.1 ≠ p) :
    Ladder.removeKey (la ++ (p, l) :: lb) p = la ++ lb := by
  induction la with
  | nil => simp [Ladder.removeKey]
  | cons a rest ih =>
    have ha : a.1 ≠ p := hla a (List.mem_cons_self _ _)
    simp only [List.cons_append, Ladder.removeKey, if_neg ha, List.append_eq]
    rw [ih (fun e he => hla e (List.mem_cons_of_mem _ he))]

theorem ids_append (la lb : Ladder) :
    Ladder.ids (la ++ lb) = Ladder.ids la ++ Ladder.ids lb := by
  simp [Ladder.ids]

theorem ids_cons (p : Int) (l : List Order) (lb : Ladder) :
    Ladder.ids ((p, l) :: lb) = l.map Order.id ++ Ladder.ids lb := by
  simp [Ladder.ids]

theorem remSum_append (la lb : Ladder) :
    Ladder.remSum (la ++ lb) = Ladder.remSum la + Ladder.remSum lb := by
  simp [Ladder.remSum]

theorem remSum_cons (p : Int) (l : List Order) (lb : Ladder) :
    Ladder.remSum ((p, l) :: lb) =
      (l.map Order.remaining_quantity).sum + Ladder.remSum lb := by
  simp [Ladder.remSum]

theorem keys_append (la lb : Ladder) :
    ladderKeys (la ++ lb) = ladderKeys la ++ ladderKeys lb := by
  simp [ladderKeys]

theorem keys_cons (p : Int) (l : List Order) (lb : Ladder) :
    ladderKeys ((p, l) :: lb) = p :: ladderKeys lb := rfl

theorem keys_cons_entry (e : Int × List Order) (lb : Ladder) :
    ladderKeys (e :: lb) = e.1 :: ladderKeys lb := rfl

theorem orderTotal_append (la lb : Ladder) :
    Ladder.orderTotal (la ++ lb) =
      Ladder.orderTotal la + Ladder.orderTotal lb := by
  simp [Ladder.orderTotal]

theorem orderTotal_cons (p : Int) (l : List Order) (lb : Ladder) :
    Ladder.orderTotal ((p, l) :: lb) = l.length + Ladder.orderTotal lb := by
  simp [Ladder.orderTotal]

theorem minKey_eq_keys (lad : Ladder) :
    Ladder.minKey lad = (ladderKeys lad).head? := by
  cases lad <;> rfl

theorem maxKey_eq_keys (lad : Ladder) :
    Ladder.maxKey lad = (ladderKeys lad).getLast? := by
  simp [Ladder.maxKey, ladderKeys, List.getLast?_map]

theorem sorted_head_le {l : List Int} {p q : Int}
    (hs : l.Pairwise (· < ·)) (hq : q ∈ l) (hp : l.head? = some p) :
    p ≤ q := by
  cases l with
  | nil => simp at hq
  | cons a rest =>
    cases hp
    rcases List.mem_cons.mp hq with h1 | h1
    · exact le_of_eq h1.symm
    · exact le_of_lt (List.rel_of_pairwise_cons hs h1)

theorem sorted_le_getLast {l : List Int} {p q : Int}
    (hs : l.Pairwise (· < ·)) (hq : q ∈ l) (hp : l.getLast? = some p) :
    q ≤ p := by
  induction l with
  | nil => simp at hq
  | cons a rest ih =>
    cases rest with
    | nil =>
      simp at hq hp
      omega
    | cons a2 rest2 =>
      rw [List.getLast?_cons_cons] at hp
      rcases List.mem_cons.mp hq with h1 | h1
      · subst h1
        have hmem : p ∈ a2 :: rest2 :=
          List.mem_of_mem_getLast? hp
        exact le_of_lt (List.rel_of_pairwise_cons hs hmem)
      · exact ih (List.Pairwise.of_cons hs) h1 hp

theorem filter_id_eq_self {l : List Order} {i : Nat}
    (h : i ∉ l.map Order.id) :
    l.filter (fun o => ¬ o.id = i) = l := by
  rw [List.filter_eq_self]
  intro o ho
  simp only [decide_eq_true_eq]
  intro hoi
  exact h (hoi ▸ List.mem_map_of_mem Order.id ho)

theorem lookupLevel_append {la lb : Ladder} {p : Int} {l : List Order}
    (hla : ∀ e ∈ la, e.1 ≠ p) :
    Ladder.lookupLevel (la ++ (p, l) :: lb) p = some l := by
  induction la with
  | nil => simp [Ladder.lookupLevel]
  | cons a rest ih =>
    have ha : a.1 ≠ p := hla a (List.mem_cons_self _ _)
    simp only [List.cons_append, Ladder.lookupLevel, if_neg ha, List.append_eq]
    exact ih (fun e he => hla e (List.mem_cons_of_mem _ he))

theorem bestOpposing_lookup {b : LimitOrderBook} {s : OrderSide} {bp : Int}
    (hsorted : ladderSorted (LimitOrderBook.oppLadder b s))
    (hb : LimitOrderBook.bestOpposing b s = some bp) :
    ∃ l, Ladder.lookupLevel (LimitOrderBook.oppLadder b s) bp = some l := by
  cases s with
  | Buy =>
    simp only [LimitOrderBook.bestOpposing] at hb
    simp only [LimitOrderBook.oppLadder] at *
    cases hlad : b.asks with
    | nil => rw [hlad] at hb; simp [Ladder.minKey] at hb
    | cons e rest =>
      rw [hlad] at hb
      simp [Ladder.minKey] at hb
      refine ⟨e.2, ?_⟩
      rw [Ladder.lookupLevel, if_pos hb]
  | Sell =>
    simp only [LimitOrderBook.bestOpposing] at hb
    simp only [LimitOrderBook.oppLadder] at *
    unfold Ladder.maxKey at hb
    obtain ⟨e, he, hkey⟩ := Option.map_eq_some'.mp hb
    obtain ⟨la, hdec⟩ := List.getLast?_eq_some_iff.mp he
    have hne : ∀ e2 ∈ la, e2.1 ≠ bp := by
      intro e2 he2
      unfold ladderSorted at hsorted
      rw [hdec, keys_append] at hsorted
      have hlt := (List.pairwise_append.mp hsorted).2.2 e2.1
        (List.mem_map_of_mem _ he2) bp (by simp [ladderKeys, hkey])
      omega
    refine ⟨e.2, ?_⟩
    rw [hdec, show e = (bp, e.2) by
      cases e
      simp only at hkey
      simp [hkey]]
    exact lookupLevel_append hne

theorem keys_entryPush {lad : Ladder} {p : Int} {o : Order} {k : Int}
    (h : k ∈ ladderKeys (Ladder.entryPush lad p o)) :
    k = p ∨ k ∈ ladderKeys lad := by
  induction lad with
  | nil => simpa [Ladder.entryPush, ladderKeys] using h
  | cons a rest ih =>
    rw [Ladder.entryPush] at h
    by_cases h1 : p < a.1
    · rw [if_pos h1] at h
      rcases List.mem_cons.mp h with h2 | h2
      · exact Or.inl h2
      · exact Or.inr h2
    · rw [if_neg h1] at h
      by_cases h2 : p = a.1
      · rw [if_pos h2] at h
        rcases List.mem_cons.mp h with h3 | h3
        · exact Or.inl (h3.trans h2.symm)
        · exact Or.inr (List.mem_cons_of_mem _ h3)
      · rw [if_neg h2] at h
        rcases List.mem_cons.mp h with h3 | h3
        · exact Or.inr (h3 ▸ List.mem_cons_self _ _)
        · rcases ih h3 with h4 | h4
          · exact Or.inl h4
          · exact Or.inr (List.mem_cons_of_mem _ h4)

theorem mem_entryPush {lad : Ladder} {p : Int} {o : Order}
    {e : Int × List Order} (h : e ∈ Ladder.entryPush lad p o) :
    e ∈ lad ∨ e = (p, [o]) ∨
      ∃ l1, (p, l1) ∈ lad ∧ e = (p, l1 ++ [o]) := by
  induction lad with
  | nil =>
    exact Or.inr (Or.inl (List.mem_singleton.mp
      (by simpa [Ladder.entryPush] using h)))
  | cons a rest ih =>
    rw [Ladder.entryPush] at h
    by_cases h1 : p < a.1
    · rw [if_pos h1] at h
      rcases List.mem_cons.mp h with h2 | h2
      · exact Or.inr (Or.inl h2)
      · exact Or.inl h2
    · rw [if_neg h1] at h
      by_cases h2 : p = a.1
      · rw [if_pos h2] at h
        rcases List.mem_cons.mp h with h3 | h3
        · refine Or.inr (Or.inr ⟨a.2, ?_, ?_⟩)
          · have : a = (p, a.2) := by
              cases a
              simp_all
            exact this ▸ List.mem_cons_self _ _
          · rw [h3, h2]
        · exact Or.inl (List.mem_cons_of_mem _ h3)
      · rw [if_neg h2] at h
        rcases List.mem_cons.mp h with h3 | h3
        · exact Or.inl (h3 ▸ List.mem_cons_self _ _)
        · rcases ih h3 with h4 | h4 | ⟨l1, hl1, he⟩
          · exact Or.inl (List.mem_cons_of_mem _ h4)
          · exact Or.inr (Or.inl h4)
          · exact Or.inr (Or.inr ⟨l1, List.mem_cons_of_mem _ hl1, he⟩)

theorem entryPush_sorted {lad : Ladder} {p : Int} {o : Order}
    (hs : ladderSorted lad) : ladderSorted (Ladder.entryPush lad p o) := by
  induction lad with
  | nil => simp [Ladder.entryPush, ladderSorted, ladderKeys]
  | cons a rest ih =>
    unfold ladderSorted at hs
    rw [keys_cons, List.pairwise_cons] at hs
    obtain ⟨ha, hrest⟩ := hs
    rw [Ladder.entryPush]
    by_cases h1 : p < a.1
    · rw [if_pos h1]
      unfold ladderSorted
      rw [keys_cons, List.pairwise_cons]
      refine ⟨?_, by unfold ladderSorted at *; rw [keys_cons, List.pairwise_cons]; exact ⟨ha, hrest⟩⟩
      intro k hk
      rw [keys_cons] at hk
      rcases List.mem_cons.mp hk with h2 | h2
      · omega
      · have := ha k h2
        omega
    · rw [if_neg h1]
      by_cases h2 : p = a.1
      · rw [if_pos h2]
        unfold ladderSorted
        rw [keys_cons, List.pairwise_cons]
        exact ⟨ha, hrest⟩
      · rw [if_neg h2]
        unfold ladderSorted
        rw [keys_cons, List.pairwise_cons]
        refine ⟨?_, ih hrest⟩
        intro k hk
        rcases keys_entryPush hk with h3 | h3
        · omega
        · exact ha k h3

theorem entryPush_noEmpty {lad : Ladder} {p : Int} {o : Order}
    (hn : ladderNoEmpty lad) : ladderNoEmpty (Ladder.entryPush lad p o) := by
  intro e he
  rcases mem_entryPush he with h1 | h1 | ⟨l1, _, h1⟩
  · exact hn e h1
  · subst h1
    simp
  · subst h1
    simp

theorem entryPush_active {lad : Ladder} {p : Int} {o : Order}
    (ha : ladderActive lad) (ho : o.is_active = true ∧ 0 < o.remaining_quantity) :
    ladderActive (Ladder.entryPush lad p o) := by
  intro e he o2 ho2
  rcases mem_entryPush he with h1 | h1 | ⟨l1, hl1, h1⟩
  · exact ha e h1 o2 ho2
  · subst h1
    rcases List.mem_singleton.mp ho2 with rfl
    exact ho
  · subst h1
    rcases List.mem_append.mp ho2 with h2 | h2
    · exact ha _ hl1 o2 h2
    · rcases List.mem_singleton.mp h2 with rfl
      exact ho

theorem entryPush_sides {lad : Ladder} {p : Int} {o : Order} {s : OrderSide}
    (hsd : ladderSides lad s) (ho : o.side = s) :
    ladderSides (Ladder.entryPush lad p o) s := by
  intro e he o2 ho2
  rcases mem_entryPush he with h1 | h1 | ⟨l1, hl1, h1⟩
  · exact hsd e h1 o2 ho2
  · subst h1
    rcases List.mem_singleton.mp ho2 with rfl
    exact ho
  · subst h1
    rcases List.mem_append.mp ho2 with h2 | h2
    · exact hsd _ hl1 o2 h2
    · rcases List.mem_singleton.mp h2 with rfl
      exact ho

theorem ids_entryPush (lad : Ladder) (p : Int) (o : Order) :
    (Ladder.ids (Ladder.entryPush lad p o)).Perm (o.id :: Ladder.ids lad) := by
  induction lad with
  | nil => simp [Ladder.entryPush, Ladder.ids]
  | cons a rest ih =>
    rw [Ladder.entryPush]
    by_cases h1 : p < a.1
    · rw [if_pos h1]
      rw [ids_cons p [o]]
      simp
    · rw [if_neg h1]
      by_cases h2 : p = a.1
      · rw [if_pos h2]
        rw [ids_cons, ids_cons]
        simp only [List.map_append, List.map_cons, List.map_nil]
        rw [List.append_assoc]
        exact List.perm_middle.trans (by simp)
      · rw [if_neg h2]
        rw [ids_cons, ids_cons]
        exact (List.Perm.append_left (a.2.map Order.id) ih).trans
          List.perm_middle

theorem remSum_entryPush (lad : Ladder) (p : Int) (o : Order) :
    Ladder.remSum (Ladder.entryPush lad p o) =
      Ladder.remSum lad + o.remaining_quantity := by
  induction lad with
  | nil => simp [Ladder.entryPush, Ladder.remSum]
  | cons a rest ih =>
    rw [Ladder.entryPush]
    by_cases h1 : p < a.1
    · rw [if_pos h1]
      rw [remSum_cons p [o], remSum_cons]
      simp [Ladder.remSum]
      omega
    · rw [if_neg h1]
      by_cases h2 : p = a.1
      · rw [if_pos h2]
        rw [remSum_cons, remSum_cons]
        simp
        omega
      · rw [if_neg h2]
        rw [remSum_cons, remSum_cons, ih]
        omega

theorem fillResult_is_filled (o : Order) (q now : Nat) :
    (fillResult o q now).is_filled = true ↔ o.remaining_quantity - q = 0 := by
  simp only [fillResult, Order.is_filled]
  split <;> simp_all

theorem fillResult_active {o : Order} {q now : Nat}
    (h : o.remaining_quantity - q ≠ 0) :
    (fillResult o q now).is_active = true := by
  simp only [fillResult, Order.is_active]
  rw [if_neg h]

theorem tradeQtySum_nil : tradeQtySum [] = 0 := rfl

theorem tradeQtySum_append (l1 l2 : List Trade) :
    tradeQtySum (l1 ++ l2) = tradeQtySum l1 + tradeQtySum l2 := by
  simp [tradeQtySum]

theorem tradeQtySum_single (t : Trade) : tradeQtySum [t] = t.quantity := by
  simp [tradeQtySum]

theorem afterRemove_opp (b : LimitOrderBook) (s : OrderSide) (bp : Int)
    (lvl : List Order) (oid : Nat) :
    LimitOrderBook.oppLadder (afterRemove b s bp lvl oid) s =
      (if (lvl.filter (fun o => ¬ o.id = oid)).isEmpty
       then Ladder.removeKey
         (Ladder.setLevel (LimitOrderBook.oppLadder b s) bp lvl) bp
       else Ladder.setLevel
         (Ladder.setLevel (LimitOrderBook.oppLadder b s) bp lvl) bp
         (lvl.filter (fun o => ¬ o.id = oid))) := by
  cases s <;> rfl

theorem afterRemove_own (b : LimitOrderBook) (s : OrderSide) (bp : Int)
    (lvl : List Order) (oid : Nat) :
    LimitOrderBook.ownLadder (afterRemove b s bp lvl oid) s =
      LimitOrderBook.ownLadder b s := by
  cases s <;> rfl

theorem setOppLevel_own (b : LimitOrderBook) (s : OrderSide) (bp : Int)
    (l : List Order) :
    LimitOrderBook.ownLadder (setOppLevel b s bp l) s =
      LimitOrderBook.ownLadder b s := by
  cases s <;> rfl

theorem filter_fill_head (h : Order) (tq now : Nat) (rest : List Order)
    (hnotin : h.id ∉ rest.map Order.id) :
    (fillResult h tq now :: rest).filter (fun o => ¬ o.id = h.id) = rest := by
  rw [List.filter_cons]
  have : (fillResult h tq now).id = h.id := rfl
  simp only [this, decide_eq_true_eq]
  rw [if_neg (by simp)]
  exact filter_id_eq_self hnotin

theorem matchLoop_master (fuel : Nat) :
    ∀ (b : LimitOrderBook) (inc : Order) (now : Nat) (acc : List Trade),
      Ladder.orderTotal (LimitOrderBook.oppLadder b inc.side) < fuel →
      ladderSorted (LimitOrderBook.oppLadder b inc.side) →
      ladderNoEmpty (LimitOrderBook.oppLadder b inc.side) →
      ladderActive (LimitOrderBook.oppLadder b inc.side) →
      ladderSides (LimitOrderBook.oppLadder b inc.side) (oppositeSide inc.side) →
      (Ladder.ids (LimitOrderBook.oppLadder b inc.side)).Nodup →
      ∃ b2 inc2 tds,
        LimitOrderBook.matchLoop fuel b inc now acc =
          Except.ok (b2, inc2, acc ++ tds) ∧
        MatchOut b inc inc.side b2 inc2 tds := by
  induction fuel with
  | zero => intro b inc now acc hfuel _ _ _ _ _; omega
  | succ n ih =>
    intro b inc now acc hfuel hsorted hne hact hsides hnodup
    cases hb : LimitOrderBook.bestOpposing b inc.side with
    | none =>
      refine ⟨b, inc, [], by rw [matchLoop_succ_noOpp hb, List.append_nil], ?_⟩
      exact { own_eq := rfl, keys_sub := fun k hk => hk, sorted2 := hsorted,
              ne2 := hne, act2 := hact, sides2 := hsides,
              ids_sub := List.Sublist.refl _,
              conserve := by simp [tradeQtySum_nil],
              side_eq := rfl, price_eq := rfl, id_eq := rfl,
              status_ok := Or.inl rfl,
              finished := Or.inr (Or.inl hb) }
    | some bp =>
      by_cases hc : LimitOrderBook.crossesPrice inc.side inc.price bp
      case neg =>
        refine ⟨b, inc, [],
          by rw [matchLoop_succ_noCross hb hc, List.append_nil], ?_⟩
        exact { own_eq := rfl, keys_sub := fun k hk => hk, sorted2 := hsorted,
                ne2 := hne, act2 := hact, sides2 := hsides,
                ids_sub := List.Sublist.refl _,
                conserve := by simp [tradeQtySum_nil],
                side_eq := rfl, price_eq := rfl, id_eq := rfl,
                status_ok := Or.inl rfl,
                finished := Or.inr (Or.inr ⟨bp, hb, hc⟩) }
      case pos =>
        cases hl : Ladder.lookupLevel (LimitOrderBook.oppLadder b inc.side) bp with
        | none =>
          obtain ⟨l, hl2⟩ := bestOpposing_lookup hsorted hb
          rw [hl] at hl2
          cases hl2
        | some lvl =>
          cases lvl with
          | nil => exact absurd rfl (hne _ (lookup_mem hl))
          | cons h rest =>
            have hacth : h.is_active = true ∧ 0 < h.remaining_quantity :=
              hact _ (lookup_mem hl) h (List.mem_cons_self _ _)
            rw [matchLoop_succ_step hb hc hl hacth.1]
            dsimp only [matchLoopStep]
            obtain ⟨la, lb, hdec, hlane⟩ := lookup_decomp hl
            have hhs : h.side = oppositeSide inc.side :=
              hsides _ (lookup_mem hl) h (List.mem_cons_self _ _)
            have hids_eq : Ladder.ids (LimitOrderBook.oppLadder b inc.side) =
                Ladder.ids la ++ ((h.id :: rest.map Order.id) ++ Ladder.ids lb) := by
              rw [hdec, ids_append, ids_cons]
              simp
            have hlevel_nodup : (h.id :: rest.map Order.id).Nodup := by
              rw [hids_eq] at hnodup
              exact ((List.sublist_append_left _ _).trans
                (List.sublist_append_right _ _)).nodup hnodup
            have hnotin : h.id ∉ rest.map Order.id :=
              (List.nodup_cons.mp hlevel_nodup).1
            have hremSum_eq : Ladder.remSum (LimitOrderBook.oppLadder b inc.side)
                = Ladder.remSum la + ((h.remaining_quantity +
                  (rest.map Order.remaining_quantity).sum) + Ladder.remSum lb) := by
              rw [hdec, remSum_append, remSum_cons]
              simp
            have htot_eq : Ladder.orderTotal (LimitOrderBook.oppLadder b inc.side)
                = Ladder.orderTotal la + ((1 + rest.length) +
                  Ladder.orderTotal lb) := by
              rw [hdec, orderTotal_append, orderTotal_cons]
              simp
              omega
            have hkeys_eq : ladderKeys (LimitOrderBook.oppLadder b inc.side) =
                ladderKeys la ++ bp :: ladderKeys lb := by
              rw [hdec, keys_append, keys_cons]
            have htql : min inc.remaining_quantity h.remaining_quantity ≤
                inc.remaining_quantity := Nat.min_le_left _ _
            have htqr : min inc.remaining_quantity h.remaining_quantity ≤
                h.remaining_quantity := Nat.min_le_right _ _
            by_cases hf : (fillResult h
                (min inc.remaining_quantity h.remaining_quantity) now).is_filled
                = true
            · rw [if_pos hf, hhs, remove_step hl]
              dsimp only
              have htq_h : h.remaining_quantity =
                  min inc.remaining_quantity h.remaining_quantity := by
                have := (fillResult_is_filled h _ now).mp hf
                omega
              have hopp2 : LimitOrderBook.oppLadder
                  (afterRemove b inc.side bp (fillResult h
                    (min inc.remaining_quantity h.remaining_quantity) now :: rest)
                    h.id) inc.side =
                  if rest.isEmpty then la ++ lb else la ++ (bp, rest) :: lb := by
                rw [afterRemove_opp, filter_fill_head h _ now rest hnotin]
                rw [hdec, setLevel_append hlane]
                by_cases hre : rest.isEmpty
                · rw [if_pos hre, if_pos hre, removeKey_append hlane]
                · rw [if_neg hre, if_neg hre, setLevel_append hlane]
              have hrestsub : ∀ o ∈ rest, o ∈ h :: rest :=
                fun o ho => List.mem_cons_of_mem _ ho
              -- facts about the pruned opposing ladder
              have hkeys2 : ∀ k ∈ ladderKeys (LimitOrderBook.oppLadder
                  (afterRemove b inc.side bp (fillResult h
                    (min inc.remaining_quantity h.remaining_quantity) now :: rest)
                    h.id) inc.side),
                  k ∈ ladderKeys (LimitOrderBook.oppLadder b inc.side) := by
                rw [hopp2, hkeys_eq]
                by_cases hre : rest.isEmpty
                · rw [if_pos hre, keys_append]
                  intro k hk
                  rcases List.mem_append.mp hk with h1 | h1
                  · exact List.mem_append.mpr (Or.inl h1)
                  · exact List.mem_append.mpr (Or.inr (List.mem_cons_of_mem _ h1))
                · rw [if_neg hre, keys_append, keys_cons]
                  intro k hk
                  exact hk
              have hsorted2 : ladderSorted (LimitOrderBook.oppLadder
                  (afterRemove b inc.side bp (fillResult h
                    (min inc.remaining_quantity h.remaining_quantity) now :: rest)
                    h.id) inc.side) := by
                unfold ladderSorted at hsorted ⊢
                rw [hkeys_eq] at hsorted
                rw [hopp2]
                by_cases hre : rest.isEmpty
                · rw [if_pos hre, keys_append]
                  exact hsorted.sublist
                    (List.Sublist.append_left (List.sublist_cons_self _ _) _)
                · rw [if_neg hre, keys_append, keys_cons]
                  exact hsorted
              have hne2 : ladderNoEmpty (LimitOrderBook.oppLadder
                  (afterRemove b inc.side bp (fillResult h
                    (min inc.remaining_quantity h.remaining_quantity) now :: rest)
                    h.id) inc.side) := by
                rw [hopp2]
                have hne0 : ladderNoEmpty (la ++ (bp, h :: rest) :: lb) := by
                  rw [hdec] at hne
                  exact hne
                by_cases hre : rest.isEmpty
                · rw [if_pos hre]
                  intro e he
                  rcases List.mem_append.mp he with h1 | h1
                  · exact hne0 e (List.mem_append.mpr (Or.inl h1))
                  · exact hne0 e (List.mem_append.mpr (Or.inr
                      (List.mem_cons_of_mem _ h1)))
                · rw [if_neg hre]
                  intro e he
                  rcases List.mem_append.mp he with h1 | h1
                  · exact hne0 e (List.mem_append.mpr (Or.inl h1))
                  · rcases List.mem_cons.mp h1 with h2 | h2
                    · subst h2
                      simpa [List.isEmpty_iff] using hre
                    · exact hne0 e (List.mem_append.mpr (Or.inr
                        (List.mem_cons_of_mem _ h2)))
              have hmem_lift : ∀ e, e ∈ (if rest.isEmpty then la ++ lb
                  else la ++ (bp, rest) :: lb) →
                  (e ∈ la ++ (bp, h :: rest) :: lb ∨ e = (bp, rest)) := by
                intro e he
                by_cases hre : rest.isEmpty
                · rw [if_pos hre] at he
                  rcases List.mem_append.mp he with h1 | h1
                  · exact Or.inl (List.mem_append.mpr (Or.inl h1))
                  · exact Or.inl (List.mem_append.mpr (Or.inr
                      (List.mem_cons_of_mem _ h1)))
                · rw [if_neg hre] at he
                  rcases List.mem_append.mp he with h1 | h1
                  · exact Or.inl (List.mem_append.mpr (Or.inl h1))
                  · rcases List.mem_cons.mp h1 with h2 | h2
                    · exact Or.inr h2
                    · exact Or.inl (List.mem_append.mpr (Or.inr
                        (List.mem_cons_of_mem _ h2)))
              have hact2 : ladderActive (LimitOrderBook.oppLadder
                  (afterRemove b inc.side bp (fillResult h
                    (min inc.remaining_quantity h.remaining_quantity) now :: rest)
                    h.id) inc.side) := by
                rw [hopp2]
                intro e he o ho
                rcases hmem_lift e he with h1 | h1
                · exact hact e (by rw [hdec]; exact h1) o ho
                · subst h1
                  exact hact _ (lookup_mem hl) o (hrestsub o ho)
              have hsides2 : ladderSides (LimitOrderBook.oppLadder
                  (afterRemove b inc.side bp (fillResult h
                    (min inc.remaining_quantity h.remaining_quantity) now :: rest)
                    h.id) inc.side) (oppositeSide inc.side) := by
                rw [hopp2]
                intro e he o ho
                rcases hmem_lift e he with h1 | h1
                · exact hsides e (by rw [hdec]; exact h1) o ho
                · subst h1
                  exact hsides _ (lookup_mem hl) o (hrestsub o ho)
              have hids2 : (Ladder.ids (LimitOrderBook.oppLadder
                  (afterRemove b inc.side bp (fillResult h
                    (min inc.remaining_quantity h.remaining_quantity) now :: rest)
                    h.id) inc.side)).Sublist
                  (Ladder.ids (LimitOrderBook.oppLadder b inc.side)) := by
                rw [hopp2, hids_eq]
                by_cases hre : rest.isEmpty
                · rw [if_pos hre, ids_append]
                  refine List.Sublist.append (List.Sublist.refl _) ?_
                  exact List.sublist_append_right _ _
                · rw [if_neg hre, ids_append, ids_cons]
                  refine List.Sublist.append (List.Sublist.refl _) ?_
                  exact List.sublist_cons_self _ _
              have hnodup2 : (Ladder.ids (LimitOrderBook.oppLadder
                  (afterRemove b inc.side bp (fillResult h
                    (min inc.remaining_quantity h.remaining_quantity) now :: rest)
                    h.id) inc.side)).Nodup := hids2.nodup hnodup
              have hremSum2 : Ladder.remSum (LimitOrderBook.oppLadder
                  (afterRemove b inc.side bp (fillResult h
                    (min inc.remaining_quantity h.remaining_quantity) now :: rest)
                    h.id) inc.side) + h.remaining_quantity =
                  Ladder.remSum (LimitOrderBook.oppLadder b inc.side) := by
                rw [hopp2, hremSum_eq]
                by_cases hre : rest.isEmpty
                · rw [if_pos hre, remSum_append]
                  have hrn : rest = [] := List.isEmpty_iff.mp hre
                  subst hrn
                  simp only [List.map_nil, List.sum_nil]
                  omega
                · rw [if_neg hre, remSum_append, remSum_cons]
                  omega
              have htot2 : Ladder.orderTotal (LimitOrderBook.oppLadder
                  (afterRemove b inc.side bp (fillResult h
                    (min inc.remaining_quantity h.remaining_quantity) now :: rest)
                    h.id) inc.side) + 1 =
                  Ladder.orderTotal (LimitOrderBook.oppLadder b inc.side) := by
                rw [hopp2, htot_eq]
                by_cases hre : rest.isEmpty
                · rw [if_pos hre, orderTotal_append]
                  have hrn : rest = [] := List.isEmpty_iff.mp hre
                  subst hrn
                  simp only [List.length_nil]
                  omega
                · rw [if_neg hre, orderTotal_append, orderTotal_cons]
                  omega
              by_cases hif : (fillResult inc
                  (min inc.remaining_quantity h.remaining_quantity) now).is_filled
                  = true
              · rw [if_pos hif]
                refine ⟨_, _, [tradeOf inc h now], rfl, ?_⟩
                refine { own_eq := afterRemove_own b inc.side bp _ h.id,
                         keys_sub := hkeys2, sorted2 := hsorted2, ne2 := hne2,
                         act2 := hact2, sides2 := hsides2, ids_sub := hids2,
                         conserve := ?_, side_eq := rfl, price_eq := rfl,
                         id_eq := rfl, status_ok := Or.inr rfl,
                         finished := Or.inl hif }
                rw [tradeQtySum_single]
                have hq : (tradeOf inc h now).quantity =
                    min inc.remaining_quantity h.remaining_quantity := rfl
                have hrem : (fillResult inc
                    (min inc.remaining_quantity h.remaining_quantity)
                    now).remaining_quantity = inc.remaining_quantity -
                    min inc.remaining_quantity h.remaining_quantity := rfl
                rw [hq, hrem]
                omega
              · rw [if_neg hif]
                obtain ⟨b3, inc3, tds3, heq3, hout3⟩ := ih
                  (afterRemove b inc.side bp (fillResult h
                    (min inc.remaining_quantity h.remaining_quantity) now :: rest)
                    h.id)
                  (fillResult inc
                    (min inc.remaining_quantity h.remaining_quantity) now)
                  now (acc ++ [tradeOf inc h now])
                  (by
                    have hss : (fillResult inc
                      (min inc.remaining_quantity h.remaining_quantity)
                      now).side = inc.side := rfl
                    rw [hss]
                    omega) hsorted2 hne2 hact2 hsides2 hnodup2
                refine ⟨b3, inc3, tradeOf inc h now :: tds3, ?_, ?_⟩
                · rw [heq3]
                  rw [List.append_assoc]
                  rfl
                · have hrem : (fillResult inc
                      (min inc.remaining_quantity h.remaining_quantity)
                      now).remaining_quantity = inc.remaining_quantity -
                      min inc.remaining_quantity h.remaining_quantity := rfl
                  refine { own_eq := hout3.own_eq.trans
                            (afterRemove_own b inc.side bp _ h.id),
                           keys_sub := fun k hk => hkeys2 k (hout3.keys_sub k hk),
                           sorted2 := hout3.sorted2, ne2 := hout3.ne2,
                           act2 := hout3.act2, sides2 := hout3.sides2,
                           ids_sub := hout3.ids_sub.trans hids2,
                           conserve := ?_, side_eq := hout3.side_eq,
                           price_eq := hout3.price_eq, id_eq := hout3.id_eq,
                           status_ok := ?_, finished := ?_ }
                  · have hc3 := hout3.conserve
                    rw [hrem] at hc3
                    have htr : tradeQtySum (tradeOf inc h now :: tds3) =
                        min inc.remaining_quantity h.remaining_quantity +
                        tradeQtySum tds3 := by
                      have hsplit : tradeOf inc h now :: tds3 =
                          [tradeOf inc h now] ++ tds3 := rfl
                      rw [hsplit, tradeQtySum_append, tradeQtySum_single]
                      rfl
                    have hss : (fillResult inc
                        (min inc.remaining_quantity h.remaining_quantity)
                        now).side = inc.side := rfl
                    rw [hss] at hc3
                    rw [htr]
                    omega
                  · right
                    rcases hout3.status_ok with h1 | h1
                    · rw [h1]
                      rfl
                    · exact h1
                  · rcases hout3.finished with h1 | h1 | ⟨bp2, hbp2, hcr2⟩
                    · exact Or.inl h1
                    · exact Or.inr (Or.inl h1)
                    · refine Or.inr (Or.inr ⟨bp2, hbp2, ?_⟩)
                      have hpr : (fillResult inc
                          (min inc.remaining_quantity h.remaining_quantity)
                          now).price = inc.price := rfl
                      rw [hpr] at hcr2
                      exact hcr2
            · -- head not fully filled: the incoming order must be filled
              rw [if_neg hf]
              have hfb : (fillResult h
                  (min inc.remaining_quantity h.remaining_quantity) now).is_filled
                  = false := by
                cases hx : (fillResult h
                    (min inc.remaining_quantity h.remaining_quantity) now).is_filled
                · rfl
                · exact absurd hx hf
              have hz : h.remaining_quantity -
                  min inc.remaining_quantity h.remaining_quantity ≠ 0 := by
                intro hcontra
                exact hf ((fillResult_is_filled h _ now).mpr hcontra)
              have htq_inc : min inc.remaining_quantity h.remaining_quantity =
                  inc.remaining_quantity := by
                rcases min_choice inc.remaining_quantity h.remaining_quantity
                  with h1 | h1
                · exact h1
                · omega
              have hif : (fillResult inc
                  (min inc.remaining_quantity h.remaining_quantity) now).is_filled
                  = true := by
                apply (fillResult_is_filled inc _ now).mpr
                omega
              rw [if_pos hif]
              refine ⟨_, _, [tradeOf inc h now], rfl, ?_⟩
              have hopp1 : LimitOrderBook.oppLadder (setOppLevel b inc.side bp
                  (fillResult h
                    (min inc.remaining_quantity h.remaining_quantity) now :: rest))
                  inc.side = la ++ (bp, fillResult h
                    (min inc.remaining_quantity h.remaining_quantity) now :: rest)
                    :: lb := by
                rw [oppLadder_setOppLevel, hdec, setLevel_append hlane]
              have hmem1 : ∀ e, e ∈ la ++ (bp, fillResult h
                  (min inc.remaining_quantity h.remaining_quantity) now :: rest)
                  :: lb →
                  e ∈ la ++ (bp, h :: rest) :: lb ∨
                  e = (bp, fillResult h
                    (min inc.remaining_quantity h.remaining_quantity) now
                    :: rest) := by
                intro e he
                rcases List.mem_append.mp he with h1 | h1
                · exact Or.inl (List.mem_append.mpr (Or.inl h1))
                · rcases List.mem_cons.mp h1 with h2 | h2
                  · exact Or.inr h2
                  · exact Or.inl (List.mem_append.mpr (Or.inr
                      (List.mem_cons_of_mem _ h2)))
              refine { own_eq := setOppLevel_own b inc.side bp _,
                       keys_sub := ?_, sorted2 := ?_, ne2 := ?_, act2 := ?_,
                       sides2 := ?_, ids_sub := ?_, conserve := ?_,
                       side_eq := rfl, price_eq := rfl, id_eq := rfl,
                       status_ok := Or.inr rfl, finished := Or.inl hif }
              · rw [hopp1, hkeys_eq, keys_append, keys_cons]
                intro k hk
                exact hk
              · unfold ladderSorted at hsorted ⊢
                rw [hopp1, keys_append, keys_cons, ← hkeys_eq]
                exact hsorted
              · rw [hopp1]
                intro e he
                rcases hmem1 e he with h1 | h1
                · exact hne e (by rw [hdec]; exact h1)
                · subst h1
                  simp
              · rw [hopp1]
                intro e he o ho
                rcases hmem1 e he with h1 | h1
                · exact hact e (by rw [hdec]; exact h1) o ho
                · subst h1
                  rcases List.mem_cons.mp ho with h2 | h2
                  · subst h2
                    refine ⟨fillResult_active hz, ?_⟩
                    have : (fillResult h
                        (min inc.remaining_quantity h.remaining_quantity)
                        now).remaining_quantity = h.remaining_quantity -
                        min inc.remaining_quantity h.remaining_quantity := rfl
                    rw [this]
                    omega
                  · exact hact _ (lookup_mem hl) o (List.mem_cons_of_mem _ h2)
              · rw [hopp1]
                intro e he o ho
                rcases hmem1 e he with h1 | h1
                · exact hsides e (by rw [hdec]; exact h1) o ho
                · subst h1
                  rcases List.mem_cons.mp ho with h2 | h2
                  · subst h2
                    exact hhs
                  · exact hsides _ (lookup_mem hl) o (List.mem_cons_of_mem _ h2)
              · rw [hopp1, hids_eq, ids_append, ids_cons]
                simp only [List.map_cons]
                have hidh : (fillResult h
                    (min inc.remaining_quantity h.remaining_quantity) now).id
                    = h.id := rfl
                rw [hidh]
              · rw [tradeQtySum_single]
                have hq : (tradeOf inc h now).quantity =
                    min inc.remaining_quantity h.remaining_quantity := rfl
                have hrem : (fillResult inc
                    (min inc.remaining_quantity h.remaining_quantity)
                    now).remaining_quantity = inc.remaining_quantity -
                    min inc.remaining_quantity h.remaining_quantity := rfl
                rw [hq, hrem, hopp1, hremSum_eq, remSum_append, remSum_cons]
                have hrem2 : (fillResult h
                    (min inc.remaining_quantity h.remaining_quantity)
                    now).remaining_quantity = h.remaining_quantity -
                    min inc.remaining_quantity h.remaining_quantity := rfl
                simp only [List.map_cons, List.sum_cons, hrem2]
                omega

theorem oppCount_eq (b : LimitOrderBook) (s : OrderSide) :
    LimitOrderBook.oppCount b s =
      Ladder.orderTotal (LimitOrderBook.oppLadder b s) := by
  cases s <;> rfl

theorem active_not_filled {o : Order} (h : o.is_active = true) :
    o.is_filled = false := by
  unfold Order.is_active at h
  unfold Order.is_filled
  cases hs : o.status <;> simp_all

theorem le_maxKey_of_mem {lad : Ladder} {k : Int}
    (hs : ladderSorted lad) (hk : k ∈ ladderKeys lad) :
    ∃ m, Ladder.maxKey lad = some m ∧ k ≤ m := by
  have hne : ladderKeys lad ≠ [] := List.ne_nil_of_mem hk
  obtain ⟨m, hm⟩ := Option.isSome_iff_exists.mp
    (by rwa [List.getLast?_isSome])
  refine ⟨m, by rw [maxKey_eq_keys]; exact hm, ?_⟩
  exact sorted_le_getLast hs hk hm

theorem minKey_le_of_mem {lad : Ladder} {k : Int}
    (hs : ladderSorted lad) (hk : k ∈ ladderKeys lad) :
    ∃ m, Ladder.minKey lad = some m ∧ m ≤ k := by
  have hne : ladderKeys lad ≠ [] := List.ne_nil_of_mem hk
  obtain ⟨m, hm⟩ := Option.isSome_iff_exists.mp
    (by rwa [List.head?_isSome])
  refine ⟨m, by rw [minKey_eq_keys]; exact hm, ?_⟩
  exact sorted_head_le hs hk hm

theorem maxKey_mem_keys {lad : Ladder} {k : Int}
    (h : Ladder.maxKey lad = some k) : k ∈ ladderKeys lad := by
  rw [maxKey_eq_keys] at h
  exact List.mem_of_getLast?_eq_some h

theorem minKey_mem_keys {lad : Ladder} {k : Int}
    (h : Ladder.minKey lad = some k) : k ∈ ladderKeys lad := by
  rw [minKey_eq_keys] at h
  exact List.mem_of_mem_head? (by rw [h]; rfl)

theorem insert_order_buy {b : LimitOrderBook} {o : Order}
    (h : o.side = OrderSide.Buy) :
    (LimitOrderBook.insert_order b o).bids =
      Ladder.entryPush b.bids o.price o ∧
    (LimitOrderBook.insert_order b o).asks = b.asks := by
  unfold LimitOrderBook.insert_order
  rw [h]
  exact ⟨rfl, rfl⟩

theorem insert_order_sell {b : LimitOrderBook} {o : Order}
    (h : o.side = OrderSide.Sell) :
    (LimitOrderBook.insert_order b o).asks =
      Ladder.entryPush b.asks o.price o ∧
    (LimitOrderBook.insert_order b o).bids = b.bids := by
  unfold LimitOrderBook.insert_order
  rw [h]
  exact ⟨rfl, rfl⟩

theorem add_order_step {b : LimitOrderBook} (inc : Order) (now : Nat)
    (hsortedB : ladderSorted b.bids) (hsortedA : ladderSorted b.asks)
    (hneB : ladderNoEmpty b.bids) (hneA : ladderNoEmpty b.asks)
    (hactB : ladderActive b.bids) (hactA : ladderActive b.asks)
    (hsideB : ladderSides b.bids OrderSide.Buy)
    (hsideA : ladderSides b.asks OrderSide.Sell)
    (hnodup : (Ladder.ids b.bids ++ Ladder.ids b.asks).Nodup)
    (hnc : notCrossed b)
    (hincst : inc.status = OrderStatus.Active)
    (hfresh : inc.id ∉ Ladder.ids b.bids ++ Ladder.ids b.asks) :
    ∃ b2 ts,
      LimitOrderBook.add_order b inc now = Except.ok (b2, ts) ∧
      ladderSorted b2.bids ∧ ladderSorted b2.asks ∧
      ladderNoEmpty b2.bids ∧ ladderNoEmpty b2.asks ∧
      ladderActive b2.bids ∧ ladderActive b2.asks ∧
      ladderSides b2.bids OrderSide.Buy ∧ ladderSides b2.asks OrderSide.Sell ∧
      (Ladder.ids b2.bids ++ Ladder.ids b2.asks).Nodup ∧
      (∀ i ∈ Ladder.ids b2.bids ++ Ladder.ids b2.asks,
        i ∈ Ladder.ids b.bids ++ Ladder.ids b.asks ∨ i = inc.id) ∧
      notCrossed b2 ∧
      Ladder.remSum b2.bids + Ladder.remSum b2.asks + 2 * tradeQtySum ts =
        Ladder.remSum b.bids + Ladder.remSum b.asks + inc.remaining_quantity := by
  have hnodupB : (Ladder.ids b.bids).Nodup := (List.nodup_append.mp hnodup).1
  have hnodupA : (Ladder.ids b.asks).Nodup := (List.nodup_append.mp hnodup).2.1
  have hdisj : ∀ i ∈ Ladder.ids b.bids, i ∉ Ladder.ids b.asks := by
    intro i hi hia
    exact (List.nodup_append.mp hnodup).2.2 hi hia
  cases hs : inc.side with
  | Buy =>
    obtain ⟨b1, inc2, tds, heq, out⟩ :=
      matchLoop_master (LimitOrderBook.oppCount b inc.side + 1) b inc now []
        (by rw [oppCount_eq]; omega)
        (by rw [hs]; exact hsortedA) (by rw [hs]; exact hneA)
        (by rw [hs]; exact hactA) (by rw [hs]; exact hsideA)
        (by rw [hs]; exact hnodupA)
    rw [hs] at out
    -- name the facts about the post-match book
    have hb1bids : b1.bids = b.bids := out.own_eq
    have hsorted1A : ladderSorted b1.asks := out.sorted2
    have hne1A : ladderNoEmpty b1.asks := out.ne2
    have hact1A : ladderActive b1.asks := out.act2
    have hside1A : ladderSides b1.asks OrderSide.Sell := out.sides2
    have hids1A : (Ladder.ids b1.asks).Sublist (Ladder.ids b.asks) := out.ids_sub
    have hkeys1A : ∀ k ∈ ladderKeys b1.asks, k ∈ ladderKeys b.asks :=
      out.keys_sub
    have hcons1 : Ladder.remSum b1.asks + inc2.remaining_quantity +
        2 * tradeQtySum tds = Ladder.remSum b.asks + inc.remaining_quantity :=
      out.conserve
    have hside2 : inc2.side = OrderSide.Buy := out.side_eq.trans hs
    have hprice2 : inc2.price = inc.price := out.price_eq
    have hid2 : inc2.id = inc.id := out.id_eq
    unfold LimitOrderBook.add_order LimitOrderBook.match_order
    rw [heq]
    dsimp only
    by_cases hrest : 0 < inc2.remaining_quantity ∧ inc2.is_active
    · rw [if_pos hrest]
      have hnotfil : inc2.is_filled = false := active_not_filled hrest.2
      have hfin : LimitOrderBook.bestOpposing b1 OrderSide.Buy = none ∨
          ∃ bp2, LimitOrderBook.bestOpposing b1 OrderSide.Buy = some bp2 ∧
            ¬ LimitOrderBook.crossesPrice OrderSide.Buy inc.price bp2 := by
        rcases out.finished with h1 | h1 | h1
        · rw [hnotfil] at h1
          cases h1
        · exact Or.inl h1
        · exact Or.inr h1
      refine ⟨_, tds, rfl, ?_, ?_, ?_, ?_, ?_, ?_, ?_, ?_, ?_, ?_, ?_, ?_⟩
      · rw [(insert_order_buy hside2).1]
        show ladderSorted (Ladder.entryPush b1.bids inc2.price inc2)
        rw [hb1bids]
        exact entryPush_sorted hsortedB
      · rw [(insert_order_buy hside2).2]
        show ladderSorted b1.asks
        exact hsorted1A
      · rw [(insert_order_buy hside2).1]
        show ladderNoEmpty (Ladder.entryPush b1.bids inc2.price inc2)
        rw [hb1bids]
        exact entryPush_noEmpty hneB
      · rw [(insert_order_buy hside2).2]
        show ladderNoEmpty b1.asks
        exact hne1A
      · rw [(insert_order_buy hside2).1]
        show ladderActive (Ladder.entryPush b1.bids inc2.price inc2)
        rw [hb1bids]
        exact entryPush_active hactB ⟨hrest.2, hrest.1⟩
      · rw [(insert_order_buy hside2).2]
        show ladderActive b1.asks
        exact hact1A
      · rw [(insert_order_buy hside2).1]
        show ladderSides (Ladder.entryPush b1.bids inc2.price inc2) OrderSide.Buy
        rw [hb1bids]
        exact entryPush_sides hsideB hside2
      · rw [(insert_order_buy hside2).2]
        show ladderSides b1.asks OrderSide.Sell
        exact hside1A
      · rw [(insert_order_buy hside2).1, (insert_order_buy hside2).2]
        show (Ladder.ids (Ladder.entryPush b1.bids inc2.price inc2) ++
          Ladder.ids b1.asks).Nodup
        rw [hb1bids]
        have hperm : (Ladder.ids (Ladder.entryPush b.bids inc2.price inc2) ++
            Ladder.ids b1.asks).Perm
            (inc2.id :: (Ladder.ids b.bids ++ Ladder.ids b1.asks)) :=
          (ids_entryPush b.bids inc2.price inc2).append_right _
        rw [hperm.nodup_iff]
        rw [List.nodup_cons]
        constructor
        · rw [hid2]
          intro hmem
          rcases List.mem_append.mp hmem with h1 | h1
          · exact hfresh (List.mem_append.mpr (Or.inl h1))
          · exact hfresh (List.mem_append.mpr (Or.inr (hids1A.mem h1)))
        · exact List.Nodup.append hnodupB (hids1A.nodup hnodupA)
            (fun i hi hia => hdisj i hi (hids1A.mem hia))
      · rw [(insert_order_buy hside2).1, (insert_order_buy hside2).2]
        show ∀ i ∈ Ladder.ids (Ladder.entryPush b1.bids inc2.price inc2) ++
          Ladder.ids b1.asks, _
        rw [hb1bids]
        intro i hi
        rcases List.mem_append.mp hi with h1 | h1
        · have := (ids_entryPush b.bids inc2.price inc2).mem_iff.mp h1
          rcases List.mem_cons.mp this with h2 | h2
          · exact Or.inr (h2.trans hid2)
          · exact Or.inl (List.mem_append.mpr (Or.inl h2))
        · exact Or.inl (List.mem_append.mpr (Or.inr (hids1A.mem h1)))
      · -- not crossed
        intro bb ba hbb hba
        unfold LimitOrderBook.best_bid at hbb
        unfold LimitOrderBook.best_ask at hba
        rw [(insert_order_buy hside2).1] at hbb
        rw [(insert_order_buy hside2).2] at hba
        replace hbb : Ladder.maxKey
            (Ladder.entryPush b1.bids inc2.price inc2) = some bb := hbb
        replace hba : Ladder.minKey b1.asks = some ba := hba
        rw [hb1bids] at hbb
        rcases hfin with h1 | ⟨bp2, hbp2, hcr⟩
        · simp only [LimitOrderBook.bestOpposing] at h1
          rw [h1] at hba
          cases hba
        · simp only [LimitOrderBook.bestOpposing] at hbp2
          rw [hbp2] at hba
          cases hba
          simp only [LimitOrderBook.crossesPrice] at hcr
          push_neg at hcr
          have hbbmem := maxKey_mem_keys hbb
          rcases keys_entryPush hbbmem with h2 | h2
          · rw [h2, hprice2]
            omega
          · have hbamem : ba ∈ ladderKeys b.asks :=
              hkeys1A ba (minKey_mem_keys hbp2)
            obtain ⟨mx, hmx, hlemx⟩ := le_maxKey_of_mem hsortedB h2
            obtain ⟨mn, hmn, hlemn⟩ := minKey_le_of_mem hsortedA hbamem
            have := hnc mx mn hmx hmn
            omega
      · rw [(insert_order_buy hside2).1, (insert_order_buy hside2).2]
        show Ladder.remSum (Ladder.entryPush b1.bids inc2.price inc2) +
          Ladder.remSum b1.asks + 2 * tradeQtySum tds = _
        rw [hb1bids, remSum_entryPush]
        omega
    · rw [if_neg hrest]
      have hz : inc2.remaining_quantity = 0 := by
        rcases out.status_ok with h1 | h1
        · subst h1
          by_contra hzz
          exact hrest ⟨Nat.pos_of_ne_zero hzz, by
            unfold Order.is_active
            rw [hincst]⟩
        · by_contra hzz
          rw [if_neg hzz] at h1
          exact hrest ⟨Nat.pos_of_ne_zero hzz, by
            unfold Order.is_active
            rw [h1]⟩
      refine ⟨_, tds, rfl, ?_, ?_, ?_, ?_, ?_, ?_, ?_, ?_, ?_, ?_, ?_, ?_⟩
      · show ladderSorted b1.bids
        rw [hb1bids]
        exact hsortedB
      · exact hsorted1A
      · show ladderNoEmpty b1.bids
        rw [hb1bids]
        exact hneB
      · exact hne1A
      · show ladderActive b1.bids
        rw [hb1bids]
        exact hactB
      · exact hact1A
      · show ladderSides b1.bids OrderSide.Buy
        rw [hb1bids]
        exact hsideB
      · exact hside1A
      · show (Ladder.ids b1.bids ++ Ladder.ids b1.asks).Nodup
        rw [hb1bids]
        exact List.Nodup.append hnodupB (hids1A.nodup hnodupA)
          (fun i hi hia => hdisj i hi (hids1A.mem hia))
      · show ∀ i ∈ Ladder.ids b1.bids ++ Ladder.ids b1.asks, _
        rw [hb1bids]
        intro i hi
        rcases List.mem_append.mp hi with h1 | h1
        · exact Or.inl (List.mem_append.mpr (Or.inl h1))
        · exact Or.inl (List.mem_append.mpr (Or.inr (hids1A.mem h1)))
      · intro bb ba hbb hba
        unfold LimitOrderBook.best_bid at hbb
        unfold LimitOrderBook.best_ask at hba
        have hbb2 : Ladder.maxKey b.bids = some bb := by
          rw [← hb1bids]
          exact hbb
        have hbamem : ba ∈ ladderKeys b.asks :=
          hkeys1A ba (minKey_mem_keys hba)
        obtain ⟨mn, hmn, hlemn⟩ := minKey_le_of_mem hsortedA hbamem
        have := hnc bb mn hbb2 hmn
        omega
      · show Ladder.remSum b1.bids + Ladder.remSum b1.asks + _ = _
        rw [hb1bids]
        omega
  | Sell =>
    obtain ⟨b1, inc2, tds, heq, out⟩ :=
      matchLoop_master (LimitOrderBook.oppCount b inc.side + 1) b inc now []
        (by rw [oppCount_eq]; omega)
        (by rw [hs]; exact hsortedB) (by rw [hs]; exact hneB)
        (by rw [hs]; exact hactB) (by rw [hs]; exact hsideB)
        (by rw [hs]; exact hnodupB)
    rw [hs] at out
    have hb1asks : b1.asks = b.asks := out.own_eq
    have hsorted1B : ladderSorted b1.bids := out.sorted2
    have hne1B : ladderNoEmpty b1.bids := out.ne2
    have hact1B : ladderActive b1.bids := out.act2
    have hside1B : ladderSides b1.bids OrderSide.Buy := out.sides2
    have hids1B : (Ladder.ids b1.bids).Sublist (Ladder.ids b.bids) := out.ids_sub
    have hkeys1B : ∀ k ∈ ladderKeys b1.bids, k ∈ ladderKeys b.bids :=
      out.keys_sub
    have hcons1 : Ladder.remSum b1.bids + inc2.remaining_quantity +
        2 * tradeQtySum tds = Ladder.remSum b.bids + inc.remaining_quantity :=
      out.conserve
    have hside2 : inc2.side = OrderSide.Sell := out.side_eq.trans hs
    have hprice2 : inc2.price = inc.price := out.price_eq
    have hid2 : inc2.id = inc.id := out.id_eq
    unfold LimitOrderBook.add_order LimitOrderBook.match_order
    rw [heq]
    dsimp only
    by_cases hrest : 0 < inc2.remaining_quantity ∧ inc2.is_active
    · rw [if_pos hrest]
      have hnotfil : inc2.is_filled = false := active_not_filled hrest.2
      have hfin : LimitOrderBook.bestOpposing b1 OrderSide.Sell = none ∨
          ∃ bp2, LimitOrderBook.bestOpposing b1 OrderSide.Sell = some bp2 ∧
            ¬ LimitOrderBook.crossesPrice OrderSide.Sell inc.price bp2 := by
        rcases out.finished with h1 | h1 | h1
        · rw [hnotfil] at h1
          cases h1
        · exact Or.inl h1
        · exact Or.inr h1
      refine ⟨_, tds, rfl, ?_, ?_, ?_, ?_, ?_, ?_, ?_, ?_, ?_, ?_, ?_, ?_⟩
      · rw [(insert_order_sell hside2).2]
        show ladderSorted b1.bids
        exact hsorted1B
      · rw [(insert_order_sell hside2).1]
        show ladderSorted (Ladder.entryPush b1.asks inc2.price inc2)
        rw [hb1asks]
        exact entryPush_sorted hsortedA
      · rw [(insert_order_sell hside2).2]
        show ladderNoEmpty b1.bids
        exact hne1B
      · rw [(insert_order_sell hside2).1]
        show ladderNoEmpty (Ladder.entryPush b1.asks inc2.price inc2)
        rw [hb1asks]
        exact entryPush_noEmpty hneA
      · rw [(insert_order_sell hside2).2]
        show ladderActive b1.bids
        exact hact1B
      · rw [(insert_order_sell hside2).1]
        show ladderActive (Ladder.entryPush b1.asks inc2.price inc2)
        rw [hb1asks]
        exact entryPush_active hactA ⟨hrest.2, hrest.1⟩
      · rw [(insert_order_sell hside2).2]
        show ladderSides b1.bids OrderSide.Buy
        exact hside1B
      · rw [(insert_order_sell hside2).1]
        show ladderSides (Ladder.entryPush b1.asks inc2.price inc2) OrderSide.Sell
        rw [hb1asks]
        exact entryPush_sides hsideA hside2
      · rw [(insert_order_sell hside2).1, (insert_order_sell hside2).2]
        show (Ladder.ids b1.bids ++
          Ladder.ids (Ladder.entryPush b1.asks inc2.price inc2)).Nodup
        rw [hb1asks]
        have hperm : (Ladder.ids b1.bids ++
            Ladder.ids (Ladder.entryPush b.asks inc2.price inc2)).Perm
            (inc2.id :: (Ladder.ids b1.bids ++ Ladder.ids b.asks)) := by
          have h1 := ids_entryPush b.asks inc2.price inc2
          exact (h1.append_left _).trans List.perm_middle
        rw [hperm.nodup_iff]
        rw [List.nodup_cons]
        constructor
        · rw [hid2]
          intro hmem
          rcases List.mem_append.mp hmem with h1 | h1
          · exact hfresh (List.mem_append.mpr (Or.inl (hids1B.mem h1)))
          · exact hfresh (List.mem_append.mpr (Or.inr h1))
        · exact List.Nodup.append (hids1B.nodup hnodupB) hnodupA
            (fun i hi hia => hdisj i (hids1B.mem hi) hia)
      · rw [(insert_order_sell hside2).1, (insert_order_sell hside2).2]
        show ∀ i ∈ Ladder.ids b1.bids ++
          Ladder.ids (Ladder.entryPush b1.asks inc2.price inc2), _
        rw [hb1asks]
        intro i hi
        rcases List.mem_append.mp hi with h1 | h1
        · exact Or.inl (List.mem_append.mpr (Or.inl (hids1B.mem h1)))
        · have := (ids_entryPush b.asks inc2.price inc2).mem_iff.mp h1
          rcases List.mem_cons.mp this with h2 | h2
          · exact Or.inr (h2.trans hid2)
          · exact Or.inl (List.mem_append.mpr (Or.inr h2))
      · intro bb ba hbb hba
        unfold LimitOrderBook.best_bid at hbb
        unfold LimitOrderBook.best_ask at hba
        rw [(insert_order_sell hside2).2] at hbb
        rw [(insert_order_sell hside2).1] at hba
        replace hbb : Ladder.maxKey b1.bids = some bb := hbb
        replace hba : Ladder.minKey
            (Ladder.entryPush b1.asks inc2.price inc2) = some ba := hba
        rw [hb1asks] at hba
        rcases hfin with h1 | ⟨bp2, hbp2, hcr⟩
        · simp only [LimitOrderBook.bestOpposing] at h1
          rw [h1] at hbb
          cases hbb
        · simp only [LimitOrderBook.bestOpposing] at hbp2
          rw [hbp2] at hbb
          cases hbb
          simp only [LimitOrderBook.crossesPrice] at hcr
          push_neg at hcr
          have hbamem := minKey_mem_keys hba
          rcases keys_entryPush hbamem with h2 | h2
          · rw [h2, hprice2]
            omega
          · have hbbmem : bb ∈ ladderKeys b.bids :=
              hkeys1B bb (maxKey_mem_keys hbp2)
            obtain ⟨mx, hmx, hlemx⟩ := le_maxKey_of_mem hsortedB hbbmem
            obtain ⟨mn, hmn, hlemn⟩ := minKey_le_of_mem hsortedA h2
            have := hnc mx mn hmx hmn
            omega
      · rw [(insert_order_sell hside2).1, (insert_order_sell hside2).2]
        show Ladder.remSum b1.bids +
          Ladder.remSum (Ladder.entryPush b1.asks inc2.price inc2) +
          2 * tradeQtySum tds = _
        rw [hb1asks, remSum_entryPush]
        omega
    · rw [if_neg hrest]
      have hz : inc2.remaining_quantity = 0 := by
        rcases out.status_ok with h1 | h1
        · subst h1
          by_contra hzz
          exact hrest ⟨Nat.pos_of_ne_zero hzz, by
            unfold Order.is_active
            rw [hincst]⟩
        · by_contra hzz
          rw [if_neg hzz] at h1
          exact hrest ⟨Nat.pos_of_ne_zero hzz, by
            unfold Order.is_active
            rw [h1]⟩
      refine ⟨_, tds, rfl, ?_, ?_, ?_, ?_, ?_, ?_, ?_, ?_, ?_, ?_, ?_, ?_⟩
      · exact hsorted1B
      · show ladderSorted b1.asks
        rw [hb1asks]
        exact hsortedA
      · exact hne1B
      · show ladderNoEmpty b1.asks
        rw [hb1asks]
        exact hneA
      · exact hact1B
      · show ladderActive b1.asks
        rw [hb1asks]
        exact hactA
      · exact hside1B
      · show ladderSides b1.asks OrderSide.Sell
        rw [hb1asks]
        exact hsideA
      · show (Ladder.ids b1.bids ++ Ladder.ids b1.asks).Nodup
        rw [hb1asks]
        exact List.Nodup.append (hids1B.nodup hnodupB) hnodupA
          (fun i hi hia => hdisj i (hids1B.mem hi) hia)
      · show ∀ i ∈ Ladder.ids b1.bids ++ Ladder.ids b1.asks, _
        rw [hb1asks]
        intro i hi
        rcases List.mem_append.mp hi with h1 | h1
        · exact Or.inl (List.mem_append.mpr (Or.inl (hids1B.mem h1)))
        · exact Or.inl (List.mem_append.mpr (Or.inr h1))
      · intro bb ba hbb hba
        unfold LimitOrderBook.best_bid at hbb
        unfold LimitOrderBook.best_ask at hba
        have hba2 : Ladder.minKey b.asks = some ba := by
          rw [← hb1asks]
          exact hba
        have hbbmem : bb ∈ ladderKeys b.bids :=
          hkeys1B bb (maxKey_mem_keys hbb)
        obtain ⟨mx, hmx, hlemx⟩ := le_maxKey_of_mem hsortedB hbbmem
        have := hnc mx ba hmx hba2
        omega
      · show Ladder.remSum b1.bids + Ladder.remSum b1.asks + _ = _
        rw [hb1asks]
        omega

theorem extract_decomp {l : List Order} {oid : Nat} {o : Order}
    {l2 : List Order} (h : LimitOrderBook.extractById l oid = some (o, l2)) :
    ∃ p1 p2, l = p1 ++ o :: p2 ∧ l2 = p1 ++ p2 := by
  induction l generalizing l2 with
  | nil => simp [LimitOrderBook.extractById] at h
  | cons a rest ih =>
    rw [LimitOrderBook.extractById] at h
    by_cases ha : a.id = oid
    · rw [if_pos ha] at h
      simp at h
      obtain ⟨h1, h2⟩ := h
      exact ⟨[], rest, by simp [h1], by simp [h2]⟩
    · rw [if_neg ha] at h
      cases hx : LimitOrderBook.extractById rest oid with
      | none => rw [hx] at h; simp at h
      | some pr =>
        rw [hx] at h
        simp at h
        obtain ⟨h1, h2⟩ := h
        obtain ⟨o2, l3⟩ := pr
        simp at h1 h2
        obtain ⟨p1, p2, hd1, hd2⟩ := @ih l3 (by rw [hx, h1])
        refine ⟨a :: p1, p2, by simp [hd1], ?_⟩
        rw [← h2, hd2]
        rfl

/-- Ladder facts for replacing or pruning the level at a key: the result
after removing one order o from level l at the decomposed position. -/
theorem prune_level_facts {la lb : Ladder} {price : Int}
    {p1 p2 : List Order} {o : Order}
    (hsorted : ladderSorted (la ++ (price, p1 ++ o :: p2) :: lb))
    (hne : ladderNoEmpty (la ++ (price, p1 ++ o :: p2) :: lb))
    (hact : ladderActive (la ++ (price, p1 ++ o :: p2) :: lb))
    {s : OrderSide}
    (hsides : ladderSides (la ++ (price, p1 ++ o :: p2) :: lb) s) :
    ladderSorted (if (p1 ++ p2).isEmpty
      then la ++ lb else la ++ (price, p1 ++ p2) :: lb) ∧
    ladderNoEmpty (if (p1 ++ p2).isEmpty
      then la ++ lb else la ++ (price, p1 ++ p2) :: lb) ∧
    ladderActive (if (p1 ++ p2).isEmpty
      then la ++ lb else la ++ (price, p1 ++ p2) :: lb) ∧
    ladderSides (if (p1 ++ p2).isEmpty
      then la ++ lb else la ++ (price, p1 ++ p2) :: lb) s ∧
    (Ladder.ids (if (p1 ++ p2).isEmpty
      then la ++ lb else la ++ (price, p1 ++ p2) :: lb)).Sublist
      (Ladder.ids (la ++ (price, p1 ++ o :: p2) :: lb)) ∧
    (∀ k ∈ ladderKeys (if (p1 ++ p2).isEmpty
      then la ++ lb else la ++ (price, p1 ++ p2) :: lb),
      k ∈ ladderKeys (la ++ (price, p1 ++ o :: p2) :: lb)) ∧
    Ladder.remSum (if (p1 ++ p2).isEmpty
      then la ++ lb else la ++ (price, p1 ++ p2) :: lb) +
      o.remaining_quantity =
      Ladder.remSum (la ++ (price, p1 ++ o :: p2) :: lb) := by
  have hmem2 : ∀ x ∈ p1 ++ p2, x ∈ p1 ++ o :: p2 := by
    intro x hx
    rcases List.mem_append.mp hx with h1 | h1
    · exact List.mem_append.mpr (Or.inl h1)
    · exact List.mem_append.mpr (Or.inr (List.mem_cons_of_mem _ h1))
  have hmemlift : ∀ e, e ∈ (if (p1 ++ p2).isEmpty
      then la ++ lb else la ++ (price, p1 ++ p2) :: lb) →
      e ∈ la ++ (price, p1 ++ o :: p2) :: lb ∨ e = (price, p1 ++ p2) := by
    intro e he
    split at he
    · rcases List.mem_append.mp he with h1 | h1
      · exact Or.inl (List.mem_append.mpr (Or.inl h1))
      · exact Or.inl (List.mem_append.mpr (Or.inr (List.mem_cons_of_mem _ h1)))
    · rcases List.mem_append.mp he with h1 | h1
      · exact Or.inl (List.mem_append.mpr (Or.inl h1))
      · rcases List.mem_cons.mp h1 with h2 | h2
        · exact Or.inr h2
        · exact Or.inl (List.mem_append.mpr (Or.inr (List.mem_cons_of_mem _ h2)))
  have hlvlmem : (price, p1 ++ o :: p2) ∈ la ++ (price, p1 ++ o :: p2) :: lb :=
    List.mem_append.mpr (Or.inr (List.mem_cons_self _ _))
  refine ⟨?_, ?_, ?_, ?_, ?_, ?_, ?_⟩
  · unfold ladderSorted at hsorted ⊢
    split
    · rw [keys_append] at hsorted ⊢
      rw [keys_cons] at hsorted
      exact hsorted.sublist
        (List.Sublist.append_left (List.sublist_cons_self _ _) _)
    · rw [keys_append, keys_cons] at hsorted ⊢
      exact hsorted
  · intro e he
    split at he
    · rcases List.mem_append.mp he with h2 | h2
      · exact hne e (List.mem_append.mpr (Or.inl h2))
      · exact hne e (List.mem_append.mpr (Or.inr (List.mem_cons_of_mem _ h2)))
    · rcases List.mem_append.mp he with h2 | h2
      · exact hne e (List.mem_append.mpr (Or.inl h2))
      · rcases List.mem_cons.mp h2 with h3 | h3
        · subst h3
          intro hc
          rename_i hemp
          exact hemp (by rw [show (p1 ++ p2 : List Order) = [] from hc]; rfl)
        · exact hne e
            (List.mem_append.mpr (Or.inr (List.mem_cons_of_mem _ h3)))
  · intro e he o2 ho2
    rcases hmemlift e he with h1 | h1
    · exact hact e h1 o2 ho2
    · subst h1
      exact hact _ hlvlmem o2 (hmem2 o2 ho2)
  · intro e he o2 ho2
    rcases hmemlift e he with h1 | h1
    · exact hsides e h1 o2 ho2
    · subst h1
      exact hsides _ hlvlmem o2 (hmem2 o2 ho2)
  · rw [ids_append, ids_cons]
    split
    · rw [ids_append]
      refine List.Sublist.append (List.Sublist.refl _) ?_
      exact List.sublist_append_right _ _
    · rw [ids_append, ids_cons]
      refine List.Sublist.append (List.Sublist.refl _) ?_
      refine List.Sublist.append ?_ (List.Sublist.refl _)
      simp only [List.map_append, List.map_cons]
      exact List.Sublist.append (List.Sublist.refl _)
        (List.sublist_cons_self _ _)
  · rw [keys_append, keys_cons]
    split
    · rw [keys_append]
      intro k hk
      rcases List.mem_append.mp hk with h1 | h1
      · exact List.mem_append.mpr (Or.inl h1)
      · exact List.mem_append.mpr (Or.inr (List.mem_cons_of_mem _ h1))
    · rw [keys_append, keys_cons]
      intro k hk
      exact hk
  · rw [remSum_append, remSum_cons]
    split
    · rename_i hemp
      rw [remSum_append]
      obtain ⟨hp1, hp2⟩ := List.append_eq_nil.mp (List.isEmpty_iff.mp hemp)
      subst hp1
      subst hp2
      simp only [List.nil_append, List.map_cons, List.map_nil,
        List.sum_cons, List.sum_nil]
      omega
    · rw [remSum_append, remSum_cons]
      simp only [List.map_append, List.sum_append, List.map_cons,
        List.sum_cons]
      omega

/-- Packaging of the cancel_order post-state facts when the ladders are
unchanged and the call returned an error. -/
theorem cancel_pack_err {b b2 : LimitOrderBook} (e : MatchingEngineError)
    (hbids : b2.bids = b.bids) (hasks : b2.asks = b.asks)
    (hsortedB : ladderSorted b.bids) (hsortedA : ladderSorted b.asks)
    (hneB : ladderNoEmpty b.bids) (hneA : ladderNoEmpty b.asks)
    (hactB : ladderActive b.bids) (hactA : ladderActive b.asks)
    (hsideB : ladderSides b.bids OrderSide.Buy)
    (hsideA : ladderSides b.asks OrderSide.Sell)
    (hnc : notCrossed b) :
    ladderSorted b2.bids ∧ ladderSorted b2.asks ∧
    ladderNoEmpty b2.bids ∧ ladderNoEmpty b2.asks ∧
    ladderActive b2.bids ∧ ladderActive b2.asks ∧
    ladderSides b2.bids OrderSide.Buy ∧ ladderSides b2.asks OrderSide.Sell ∧
    (Ladder.ids b2.bids).Sublist (Ladder.ids b.bids) ∧
    (Ladder.ids b2.asks).Sublist (Ladder.ids b.asks) ∧
    notCrossed b2 ∧
    (∀ o, (Except.error e : Except MatchingEngineError Order) =
        Except.ok o →
      Ladder.remSum b2.bids + Ladder.remSum b2.asks +
        o.remaining_quantity =
        Ladder.remSum b.bids + Ladder.remSum b.asks) ∧
    (∀ e2, (Except.error e : Except MatchingEngineError Order) =
        Except.error e2 → b2.bids = b.bids ∧ b2.asks = b.asks) := by
  have hnc2 : notCrossed b2 := by
    intro bb ba h1 h2
    unfold LimitOrderBook.best_bid at h1
    unfold LimitOrderBook.best_ask at h2
    rw [hbids] at h1
    rw [hasks] at h2
    exact hnc bb ba h1 h2
  refine ⟨?_, ?_, ?_, ?_, ?_, ?_, ?_, ?_, ?_, ?_, hnc2, ?_, ?_⟩
  · rw [hbids]; exact hsortedB
  · rw [hasks]; exact hsortedA
  · rw [hbids]; exact hneB
  · rw [hasks]; exact hneA
  · rw [hbids]; exact hactB
  · rw [hasks]; exact hactA
  · rw [hbids]; exact hsideB
  · rw [hasks]; exact hsideA
  · rw [hbids]
  · rw [hasks]
  · intro o ho
    exact Except.noConfusion ho
  · intro e2 _
    exact ⟨hbids, hasks⟩

/-- One cancel_order call preserves every ladder invariant; a successful
cancellation removes exactly the returned remaining quantity from the
ladders, and every error path leaves both ladders unchanged. -/
theorem cancel_order_step {b : LimitOrderBook} (oid now : Nat)
    (hsortedB : ladderSorted b.bids) (hsortedA : ladderSorted b.asks)
    (hneB : ladderNoEmpty b.bids) (hneA : ladderNoEmpty b.asks)
    (hactB : ladderActive b.bids) (hactA : ladderActive b.asks)
    (hsideB : ladderSides b.bids OrderSide.Buy)
    (hsideA : ladderSides b.asks OrderSide.Sell)
    (hnc : notCrossed b) :
    ∃ b2 res, LimitOrderBook.cancel_order b oid now = (b2, res) ∧
      ladderSorted b2.bids ∧ ladderSorted b2.asks ∧
      ladderNoEmpty b2.bids ∧ ladderNoEmpty b2.asks ∧
      ladderActive b2.bids ∧ ladderActive b2.asks ∧
      ladderSides b2.bids OrderSide.Buy ∧ ladderSides b2.asks OrderSide.Sell ∧
      (Ladder.ids b2.bids).Sublist (Ladder.ids b.bids) ∧
      (Ladder.ids b2.asks).Sublist (Ladder.ids b.asks) ∧
      notCrossed b2 ∧
      (∀ o, res = Except.ok o →
        Ladder.remSum b2.bids + Ladder.remSum b2.asks +
          o.remaining_quantity =
          Ladder.remSum b.bids + Ladder.remSum b.asks) ∧
      (∀ e2, res = Except.error e2 →
        b2.bids = b.bids ∧ b2.asks = b.asks) := by
  unfold LimitOrderBook.cancel_order
  cases hidx : OrderIndex.lookupId b.orders oid with
  | none =>
    exact ⟨b, _, rfl, cancel_pack_err _ rfl rfl hsortedB hsortedA hneB hneA
      hactB hactA hsideB hsideA hnc⟩
  | some sp =>
    obtain ⟨side, price⟩ := sp
    cases side with
    | Buy =>
      dsimp only
      cases hlv : Ladder.lookupLevel b.bids price with
      | none =>
        exact ⟨_, _, rfl, cancel_pack_err _ rfl rfl hsortedB hsortedA hneB
          hneA hactB hactA hsideB hsideA hnc⟩
      | some l =>
        dsimp only
        cases hex : LimitOrderBook.extractById l oid with
        | none =>
          exact ⟨_, _, rfl, cancel_pack_err _ rfl rfl hsortedB hsortedA hneB
            hneA hactB hactA hsideB hsideA hnc⟩
        | some pr =>
          obtain ⟨o, l2⟩ := pr
          dsimp only
          obtain ⟨la, lb, hl, hla⟩ := lookup_decomp hlv
          obtain ⟨p1, p2, hlp, hl2⟩ := extract_decomp hex
          subst hl2
          subst hlp
          obtain ⟨hs2, hne2, hact2, hsides2, hids2, hkeys2, hsum2⟩ :=
            prune_level_facts (hl ▸ hsortedB) (hl ▸ hneB) (hl ▸ hactB)
              (hl ▸ hsideB)
          have hlad2 : (if (p1 ++ p2 : List Order).isEmpty
              then Ladder.removeKey b.bids price
              else Ladder.setLevel b.bids price (p1 ++ p2)) =
              (if (p1 ++ p2 : List Order).isEmpty
              then la ++ lb else la ++ (price, p1 ++ p2) :: lb) := by
            rw [hl]
            split
            · exact removeKey_append hla
            · exact setLevel_append hla
          rw [hlad2]
          refine ⟨_, _, rfl, hs2, hsortedA, hne2, hneA, hact2, hactA,
            hsides2, hsideA, ?_, List.Sublist.refl _, ?_, ?_, ?_⟩
          · rw [hl]
            exact hids2
          · intro bb ba h1 h2
            unfold LimitOrderBook.best_bid at h1
            unfold LimitOrderBook.best_ask at h2
            dsimp only at h1 h2
            have hmemb : bb ∈ ladderKeys b.bids := by
              rw [hl]
              exact hkeys2 bb (maxKey_mem_keys h1)
            obtain ⟨m, hm, hbm⟩ := le_maxKey_of_mem hsortedB hmemb
            exact le_trans hbm (hnc m ba hm h2)
          · intro o3 ho
            injection ho with ho2
            subst ho2
            have hbsum : Ladder.remSum b.bids =
                Ladder.remSum (la ++ (price, p1 ++ o :: p2) :: lb) := by
              rw [hl]
            show Ladder.remSum (if (p1 ++ p2 : List Order).isEmpty
                then la ++ lb else la ++ (price, p1 ++ p2) :: lb) +
              Ladder.remSum b.asks +
              (Order.cancel o now).remaining_quantity =
              Ladder.remSum b.bids + Ladder.remSum b.asks
            have hrem : (Order.cancel o now).remaining_quantity =
                o.remaining_quantity := rfl
            rw [hrem, hbsum]
            omega
          · intro e2 he
            exact Except.noConfusion he
    | Sell =>
      dsimp only
      cases hlv : Ladder.lookupLevel b.asks price with
      | none =>
        exact ⟨_, _, rfl, cancel_pack_err _ rfl rfl hsortedB hsortedA hneB
          hneA hactB hactA hsideB hsideA hnc⟩
      | some l =>
        dsimp only
        cases hex : LimitOrderBook.extractById l oid with
        | none =>
          exact ⟨_, _, rfl, cancel_pack_err _ rfl rfl hsortedB hsortedA hneB
            hneA hactB hactA hsideB hsideA hnc⟩
        | some pr =>
          obtain ⟨o, l2⟩ := pr
          dsimp only
          obtain ⟨la, lb, hl, hla⟩ := lookup_decomp hlv
          obtain ⟨p1, p2, hlp, hl2⟩ := extract_decomp hex
          subst hl2
          subst hlp
          obtain ⟨hs2, hne2, hact2, hsides2, hids2, hkeys2, hsum2⟩ :=
            prune_level_facts (hl ▸ hsortedA) (hl ▸ hneA) (hl ▸ hactA)
              (hl ▸ hsideA)
          have hlad2 : (if (p1 ++ p2 : List Order).isEmpty
              then Ladder.removeKey b.asks price
              else Ladder.setLevel b.asks price (p1 ++ p2)) =
              (if (p1 ++ p2 : List Order).isEmpty
              then la ++ lb else la ++ (price, p1 ++ p2) :: lb) := by
            rw [hl]
            split
            · exact removeKey_append hla
            · exact setLevel_append hla
          rw [hlad2]
          refine ⟨_, _, rfl, hsortedB, hs2, hneB, hne2, hactB, hact2,
            hsideB, hsides2, List.Sublist.refl _, ?_, ?_, ?_, ?_⟩
          · rw [hl]
            exact hids2
          · intro bb ba h1 h2
            unfold LimitOrderBook.best_bid at h1
            unfold LimitOrderBook.best_ask at h2
            dsimp only at h1 h2
            have hmema : ba ∈ ladderKeys b.asks := by
              rw [hl]
              exact hkeys2 ba (minKey_mem_keys h2)
            obtain ⟨m, hm, hbm⟩ := minKey_le_of_mem hsortedA hmema
            exact le_trans (hnc bb m h1 hm) hbm
          · intro o3 ho
            injection ho with ho2
            subst ho2
            have hasum : Ladder.remSum b.asks =
                Ladder.remSum (la ++ (price, p1 ++ o :: p2) :: lb) := by
              rw [hl]
            show Ladder.remSum b.bids +
              Ladder.remSum (if (p1 ++ p2 : List Order).isEmpty
                then la ++ lb else la ++ (price, p1 ++ p2) :: lb) +
              (Order.cancel o now).remaining_quantity =
              Ladder.remSum b.bids + Ladder.remSum b.asks
            have hrem : (Order.cancel o now).remaining_quantity =
                o.remaining_quantity := rfl
            rw [hrem, hasum]
            omega
          · intro e2 he
            exact Except.noConfusion he

theorem traceInv_initial : TraceInv initialState := by
  refine ⟨?_, ?_, ?_, ?_, ?_, ?_, ?_, ?_, ?_, ?_, ?_, ?_⟩
  · exact List.Pairwise.nil
  · exact List.Pairwise.nil
  · intro e he
    exact absurd he (List.not_mem_nil e)
  · intro e he
    exact absurd he (List.not_mem_nil e)
  · intro e he
    exact absurd he (List.not_mem_nil e)
  · intro e he
    exact absurd he (List.not_mem_nil e)
  · intro e he
    exact absurd he (List.not_mem_nil e)
  · intro e he
    exact absurd he (List.not_mem_nil e)
  · exact List.nodup_nil
  · intro i hi
    exact absurd hi (List.not_mem_nil i)
  · intro bb ba h1 _
    exact Option.noConfusion h1
  · rfl

/-- One trace step preserves the invariant: a submission goes through
add_order (fresh id from the counter), a cancellation through
cancel_order. -/
theorem stepOp_inv {st : TraceState} (op : BookOp) (h : TraceInv st) :
    TraceInv (stepOp st op) := by
  cases op with
  | submit side price qty user =>
    have hincst : (Order.new st.nextId user side price qty st.now).status =
        OrderStatus.Active := rfl
    have hfresh : (Order.new st.nextId user side price qty st.now).id ∉
        Ladder.ids st.book.bids ++ Ladder.ids st.book.asks := by
      intro hmem
      have hlt := h.idsLt _ hmem
      have hid : (Order.new st.nextId user side price qty st.now).id =
          st.nextId := rfl
      rw [hid] at hlt
      omega
    obtain ⟨b2, ts, heq, hs1, hs2, hn1, hn2, ha1, ha2, hsd1, hsd2,
      hnodup2, hids2, hnc2, hsum2⟩ :=
      add_order_step (Order.new st.nextId user side price qty st.now) st.now
        h.sortedB h.sortedA h.neB h.neA h.actB h.actA h.sideB h.sideA
        h.nodup h.nc hincst hfresh
    unfold stepOp
    dsimp only
    rw [heq]
    refine ⟨hs1, hs2, hn1, hn2, ha1, ha2, hsd1, hsd2, hnodup2, ?_, hnc2, ?_⟩
    · intro i hi
      show i < st.nextId + 1
      rcases hids2 i hi with h1 | h1
      · have := h.idsLt i h1
        omega
      · have hid : (Order.new st.nextId user side price qty st.now).id =
            st.nextId := rfl
        rw [hid] at h1
        omega
    · show st.submittedSum + qty = Ladder.remSum b2.bids +
        Ladder.remSum b2.asks + st.cancelledSum +
        2 * (st.tradeSum + tradeQtySum ts)
      have hrem : (Order.new st.nextId user side price qty
          st.now).remaining_quantity = qty := rfl
      rw [hrem] at hsum2
      have hc := h.conserve
      omega
  | cancelOp oid =>
    obtain ⟨b2, res, heq, hs1, hs2, hn1, hn2, ha1, ha2, hsd1, hsd2,
      hsubB, hsubA, hnc2, hok, herr⟩ :=
      cancel_order_step oid st.now h.sortedB h.sortedA h.neB h.neA
        h.actB h.actA h.sideB h.sideA h.nc
    have hnodup2 : (Ladder.ids b2.bids ++ Ladder.ids b2.asks).Nodup :=
      List.Nodup.sublist (List.Sublist.append hsubB hsubA) h.nodup
    have hlt2 : ∀ i ∈ Ladder.ids b2.bids ++ Ladder.ids b2.asks,
        i < st.nextId := by
      intro i hi
      rcases List.mem_append.mp hi with h1 | h1
      · exact h.idsLt i (List.mem_append.mpr (Or.inl (hsubB.subset h1)))
      · exact h.idsLt i (List.mem_append.mpr (Or.inr (hsubA.subset h1)))
    unfold stepOp
    dsimp only
    rw [heq]
    cases res with
    | ok o =>
      refine ⟨hs1, hs2, hn1, hn2, ha1, ha2, hsd1, hsd2, hnodup2,
        hlt2, hnc2, ?_⟩
      show st.submittedSum = Ladder.remSum b2.bids + Ladder.remSum b2.asks +
        (st.cancelledSum + o.remaining_quantity) + 2 * st.tradeSum
      have hsum := hok o rfl
      have hc := h.conserve
      omega
    | error e =>
      refine ⟨hs1, hs2, hn1, hn2, ha1, ha2, hsd1, hsd2, hnodup2,
        hlt2, hnc2, ?_⟩
      show st.submittedSum = Ladder.remSum b2.bids + Ladder.remSum b2.asks +
        st.cancelledSum + 2 * st.tradeSum
      obtain ⟨hbeq, haeq⟩ := herr e rfl
      rw [hbeq, haeq]
      exact h.conserve

/-- The invariant holds after every finite trace from the empty book. -/
theorem traceInv_run (ops : List BookOp) : TraceInv (runTrace ops) := by
  unfold runTrace
  suffices hgen : ∀ st, TraceInv st → TraceInv (ops.foldl stepOp st) from
    hgen initialState traceInv_initial
  induction ops with
  | nil =>
    intro st h
    exact h
  | cons op rest ih =>
    intro st h
    exact ih _ (stepOp_inv op h)

theorem precedes_of_not_mem {aid bid : Nat} {l : List Nat} (h : bid ∉ l) :
    precedes aid bid l := by
  intro pre post hdec
  rw [hdec] at h
  exact absurd (List.mem_append.mpr (Or.inr (List.mem_cons_self _ _))) h

theorem precedes_head_false {aid bid : Nat} {l : List Nat}
    (h : precedes aid bid (bid :: l)) : False := by
  have := h [] l rfl
  simp at this

theorem precedes_tail {aid bid c : Nat} {l : List Nat} (hc : c ≠ aid)
    (h : precedes aid bid (c :: l)) : precedes aid bid l := by
  intro pre post hdec
  have h2 := h (c :: pre) post (by rw [hdec]; rfl)
  rcases List.mem_cons.mp h2 with h1 | h1
  · exact absurd h1.symm hc
  · exact h1

theorem nodup_decomp_pre {x : Nat} {v : List Nat} :
    ∀ (u pre post : List Nat), (u ++ x :: v).Nodup →
      u ++ x :: v = pre ++ x :: post → pre = u := by
  intro u
  induction u with
  | nil =>
    intro pre post hnd heq
    cases pre with
    | nil => rfl
    | cons c pre2 =>
      injection heq with h1 h2
      have hx : x ∈ v := by
        rw [h2]
        exact List.mem_append.mpr (Or.inr (List.mem_cons_self _ _))
      exact absurd hx (List.nodup_cons.mp hnd).1
  | cons c u2 ih =>
    intro pre post hnd heq
    rw [List.cons_append] at hnd
    cases pre with
    | nil =>
      injection heq with h1 h2
      have hx : x ∈ u2 ++ x :: v :=
        List.mem_append.mpr (Or.inr (List.mem_cons_self _ _))
      have hx2 : c ∈ u2 ++ x :: v := by
        rw [h1]
        exact hx
      exact absurd hx2 (List.nodup_cons.mp hnd).1
    | cons d pre2 =>
      injection heq with h1 h2
      have h3 := ih pre2 post (List.nodup_cons.mp hnd).2 h2
      rw [h3, h1]

theorem precedes_of_between {aid bid : Nat} {u m w : List Nat}
    (hnd : (u ++ aid :: (m ++ bid :: w)).Nodup) :
    precedes aid bid (u ++ aid :: (m ++ bid :: w)) := by
  intro pre post hdec
  have hform : u ++ aid :: (m ++ bid :: w) = (u ++ aid :: m) ++ bid :: w := by
    simp
  have hpre : pre = u ++ aid :: m :=
    nodup_decomp_pre (u ++ aid :: m) pre post (by rw [← hform]; exact hnd)
      (by rw [← hform]; exact hdec)
  rw [hpre]
  exact List.mem_append.mpr (Or.inr (List.mem_cons_self _ _))

theorem mem_ids_of_mem {lad : Ladder} {e : Int × List Order} (he : e ∈ lad)
    {i : Nat} (hi : i ∈ e.2.map Order.id) : i ∈ Ladder.ids lad := by
  induction lad with
  | nil => exact absurd he (List.not_mem_nil e)
  | cons a rest ih =>
    obtain ⟨p, l⟩ := a
    rw [ids_cons]
    rcases List.mem_cons.mp he with h1 | h1
    · subst h1
      exact List.mem_append.mpr (Or.inl hi)
    · exact List.mem_append.mpr (Or.inr (ih h1))

theorem append_single_decomp {α : Type} {acc : List α} {tr t : α}
    {pre post : List α} (h : acc ++ [tr] = pre ++ t :: post) :
    (∃ post2, acc = pre ++ t :: post2) ∨ (pre = acc ∧ t = tr ∧ post = []) := by
  rcases List.eq_nil_or_concat post with hp | ⟨post3, last, hp⟩
  · subst hp
    obtain ⟨h1, h2⟩ := List.append_inj' h rfl
    right
    refine ⟨h1.symm, ?_, rfl⟩
    injection h2 with h3 _
    exact h3.symm
  · subst hp
    have hre : pre ++ t :: post3.concat last = (pre ++ t :: post3) ++ [last] := by
      simp
    rw [hre] at h
    obtain ⟨h1, h2⟩ := List.append_inj' h rfl
    left
    exact ⟨post3, h1⟩

theorem tradesFifo_nil {s : OrderSide} {aid bid : Nat} :
    tradesFifo s aid bid [] := by
  intro pre t post hdec _
  have hlen := congrArg List.length hdec
  simp at hlen
  omega

theorem tradesFifo_append {s : OrderSide} {aid bid : Nat} {acc : List Trade}
    {tr : Trade} (hG : tradesFifo s aid bid acc)
    (h : LimitOrderBook.makerId tr s ≠ bid ∨
      ∃ t0 ∈ acc, LimitOrderBook.makerId t0 s = aid) :
    tradesFifo s aid bid (acc ++ [tr]) := by
  intro pre t post hdec hmk
  rcases append_single_decomp hdec with ⟨post2, h1⟩ | ⟨h1, h2, _⟩
  · exact hG pre t post2 h1 hmk
  · subst h2
    rcases h with hne | ⟨t0, ht0, hmk0⟩
    · exact absurd hmk hne
    · subst h1
      exact ⟨t0, ht0, hmk0⟩

theorem level_id_unique {l : List Order} (hnd : (l.map Order.id).Nodup)
    {m1 m2 : Order} (h1 : m1 ∈ l) (h2 : m2 ∈ l) (hid : m1.id = m2.id) :
    m1 = m2 := by
  induction l with
  | nil => exact absurd h1 (List.not_mem_nil m1)
  | cons a rest ih =>
    simp only [List.map_cons, List.nodup_cons] at hnd
    rcases List.mem_cons.mp h1 with ha1 | ha1 <;>
      rcases List.mem_cons.mp h2 with ha2 | ha2
    · rw [ha1, ha2]
    · subst ha1
      have hin : m2.id ∈ rest.map Order.id := List.mem_map_of_mem _ ha2
      rw [← hid] at hin
      exact absurd hin hnd.1
    · subst ha2
      have hin : m1.id ∈ rest.map Order.id := List.mem_map_of_mem _ ha1
      rw [hid] at hin
      exact absurd hin hnd.1
    · exact ih hnd.2 ha1 ha2

/-- With globally distinct resting ids, an id determines the resting
order: two orders found anywhere in the ladder with equal ids are the
same order. -/
theorem resting_id_unique {lad : Ladder} (hnd : (Ladder.ids lad).Nodup)
    {e1 e2 : Int × List Order} {m1 m2 : Order} (he1 : e1 ∈ lad)
    (hm1 : m1 ∈ e1.2) (he2 : e2 ∈ lad) (hm2 : m2 ∈ e2.2)
    (hid : m1.id = m2.id) : m1 = m2 := by
  induction lad with
  | nil => exact absurd he1 (List.not_mem_nil e1)
  | cons a rest ih =>
    obtain ⟨p, l⟩ := a
    rw [ids_cons] at hnd
    obtain ⟨hndl, hndrest, hdisj⟩ := List.nodup_append.mp hnd
    rcases List.mem_cons.mp he1 with h1 | h1 <;>
      rcases List.mem_cons.mp he2 with h2 | h2
    · subst h1
      subst h2
      exact level_id_unique hndl hm1 hm2 hid
    · subst h1
      have hin1 : m1.id ∈ l.map Order.id := List.mem_map_of_mem _ hm1
      have hin2 : m2.id ∈ Ladder.ids rest :=
        mem_ids_of_mem h2 (List.mem_map_of_mem _ hm2)
      rw [← hid] at hin2
      exact absurd hin2 (hdisj hin1)
    · subst h2
      have hin2 : m2.id ∈ l.map Order.id := List.mem_map_of_mem _ hm2
      have hin1 : m1.id ∈ Ladder.ids rest :=
        mem_ids_of_mem h1 (List.mem_map_of_mem _ hm1)
      rw [hid] at hin1
      exact absurd hin1 (hdisj hin2)
    · exact ih hndrest h1 h2

/-- C3 amended: every trade emitted by add_order carries the price of the
resting (maker) order it executed against: the trade records the maker
order id (sell_order_id for an incoming buy, buy_order_id for an incoming
sell), an order with exactly that id and the trade price rests on the
opposing side of the pre-call book, and — with the distinct resting ids
every API-built book has — every opposing resting order bearing that id
has the trade price, never the incoming price when they differ. An
incoming Buy at 150.60, which does cross the resting Sell at 150.50 of
the S1 book, executes one trade at the resting price 150.50, not at the
incoming 150.60 (a Buy at 150.10 does not cross and trades nothing, see
the counterexample). -/
theorem maker_price_amended :
    (∀ (b : LimitOrderBook) (o : Order) (now : Nat) (b2 : LimitOrderBook)
      (ts : List Trade),
      LimitOrderBook.add_order b o now = Except.ok (b2, ts) →
      ∀ t ∈ ts, ∃ e ∈ LimitOrderBook.oppLadder b o.side, ∃ m ∈ e.2,
        m.id = LimitOrderBook.makerId t o.side ∧ t.price = m.price) ∧
    (∀ (b : LimitOrderBook) (o : Order) (now : Nat) (b2 : LimitOrderBook)
      (ts : List Trade),
      LimitOrderBook.add_order b o now = Except.ok (b2, ts) →
      (Ladder.ids (LimitOrderBook.oppLadder b o.side)).Nodup →
      ∀ t ∈ ts, ∀ e ∈ LimitOrderBook.oppLadder b o.side, ∀ m ∈ e.2,
        m.id = LimitOrderBook.makerId t o.side → t.price = m.price) ∧
    (LimitOrderBook.add_order s1book crossingBuy15060 4).map Prod.snd =
      Except.ok [s1CrossTrade] ∧
    s1CrossTrade.price = 15050 ∧ crossingBuy15060.price = 15060 := by
  have hgen : ∀ (b : LimitOrderBook) (o : Order) (now : Nat)
      (b2 : LimitOrderBook) (ts : List Trade),
      LimitOrderBook.add_order b o now = Except.ok (b2, ts) →
      ∀ t ∈ ts, ∃ e ∈ LimitOrderBook.oppLadder b o.side, ∃ m ∈ e.2,
        m.id = LimitOrderBook.makerId t o.side ∧ t.price = m.price := by
    intro b o now b2 ts heq t ht
    unfold LimitOrderBook.add_order LimitOrderBook.match_order at heq
    cases hml : LimitOrderBook.matchLoop
        (LimitOrderBook.oppCount b o.side + 1) b o now [] with
    | error e => rw [hml] at heq; exact absurd heq (by simp)
    | ok r =>
      obtain ⟨b1, o2, ts1⟩ := r
      rw [hml] at heq
      dsimp only at heq
      have hts : ts = ts1 := by
        by_cases hrest : 0 < o2.remaining_quantity ∧ o2.is_active
        · rw [if_pos hrest] at heq
          simp only [Except.ok.injEq, Prod.mk.injEq] at heq
          exact heq.2.symm
        · rw [if_neg hrest] at heq
          simp only [Except.ok.injEq, Prod.mk.injEq] at heq
          exact heq.2.symm
      subst hts
      rcases matchLoop_trade_makers _ b o now [] b1 o2 ts hml t ht with h1 | h1
      · exact absurd h1 (List.not_mem_nil t)
      · exact h1
  refine ⟨hgen, ?_, by rfl, rfl, rfl⟩
  intro b o now b2 ts heq hnd t ht e he m hm hid
  obtain ⟨e0, he0, m0, hm0, hid0, hpr0⟩ := hgen b o now b2 ts heq t ht
  have hm0m : m0 = m :=
    resting_id_unique hnd he0 hm0 he hm (hid0.trans hid.symm)
  rw [hpr0, hm0m]

/-- C3 witness: the maker-identification statement applied to the concrete
crossing trade of the S1 book, in both its existential form and its
unique-id form. -/
theorem maker_price_amended_witness :
    (∃ e ∈ LimitOrderBook.oppLadder s1book crossingBuy15060.side,
      ∃ m ∈ e.2, m.id = LimitOrderBook.makerId s1CrossTrade
        crossingBuy15060.side ∧ s1CrossTrade.price = m.price) ∧
    ((Ladder.ids (LimitOrderBook.oppLadder s1book
        crossingBuy15060.side)).Nodup ∧
      ∀ e ∈ LimitOrderBook.oppLadder s1book crossingBuy15060.side,
        ∀ m ∈ e.2, m.id = LimitOrderBook.makerId s1CrossTrade
          crossingBuy15060.side → s1CrossTrade.price = m.price) :=
  ⟨maker_price_amended.1 s1book crossingBuy15060 4 _ _ (by rfl)
     s1CrossTrade (by decide),
   by decide,
   maker_price_amended.2.1 s1book crossingBuy15060 4 _ _ (by rfl)
     (by decide) s1CrossTrade (by decide)⟩

/-- FIFO through the match loop: if in every opposing level any occurrence
of the second id is preceded by the first id (or a trade against the first
id is already accumulated), the accumulated FIFO order of trades is
preserved to the end of the loop. -/
theorem matchLoop_fifo (aid bid : Nat) (fuel : Nat) :
    ∀ (b : LimitOrderBook) (inc : Order) (now : Nat) (acc : List Trade)
      (b2 : LimitOrderBook) (inc2 : Order) (tds : List Trade),
      LimitOrderBook.matchLoop fuel b inc now acc =
        Except.ok (b2, inc2, tds) →
      ladderSides (LimitOrderBook.oppLadder b inc.side)
        (oppositeSide inc.side) →
      (Ladder.ids (LimitOrderBook.oppLadder b inc.side)).Nodup →
      tradesFifo inc.side aid bid acc →
      ((∀ e ∈ LimitOrderBook.oppLadder b inc.side,
          precedes aid bid (e.2.map Order.id)) ∨
        ∃ t0 ∈ acc, LimitOrderBook.makerId t0 inc.side = aid) →
      tradesFifo inc.side aid bid tds := by
  induction fuel with
  | zero =>
    intro b inc now acc b2 inc2 tds heq _ _ hG _
    rw [matchLoop_zero] at heq
    injection heq with h1
    injection h1 with _ h2
    injection h2 with _ h3
    rw [← h3]
    exact hG
  | succ n ih =>
    intro b inc now acc b2 inc2 tds heq hsides hnodup hG hd
    cases hb : LimitOrderBook.bestOpposing b inc.side with
    | none =>
      rw [matchLoop_succ_noOpp hb] at heq
      injection heq with h1
      injection h1 with _ h2
      injection h2 with _ h3
      rw [← h3]
      exact hG
    | some bp =>
      by_cases hc : LimitOrderBook.crossesPrice inc.side inc.price bp
      case neg =>
        rw [matchLoop_succ_noCross hb hc] at heq
        injection heq with h1
        injection h1 with _ h2
        injection h2 with _ h3
        rw [← h3]
        exact hG
      case pos =>
        cases hl : Ladder.lookupLevel (LimitOrderBook.oppLadder b inc.side)
            bp with
        | none =>
          rw [matchLoop_succ_noLevel hb hl] at heq
          injection heq with h1
          injection h1 with _ h2
          injection h2 with _ h3
          rw [← h3]
          exact hG
        | some lvl =>
          cases lvl with
          | nil =>
            rw [matchLoop_succ_emptyLevel hb hl] at heq
            injection heq with h1
            injection h1 with _ h2
            injection h2 with _ h3
            rw [← h3]
            exact hG
          | cons h rest =>
            by_cases hia : h.is_active = true
            case neg =>
              have hiaf : h.is_active = false := by
                cases hx : h.is_active
                · rfl
                · exact absurd hx hia
              rw [matchLoop_succ_inactive hb hl hiaf] at heq
              injection heq with h1
              injection h1 with _ h2
              injection h2 with _ h3
              rw [← h3]
              exact hG
            case pos =>
              rw [matchLoop_succ_step hb hc hl hia] at heq
              dsimp only [matchLoopStep] at heq
              obtain ⟨la, lb, hdec, hlane⟩ := lookup_decomp hl
              have hhs : h.side = oppositeSide inc.side :=
                hsides _ (lookup_mem hl) h (List.mem_cons_self _ _)
              have hids_eq : Ladder.ids (LimitOrderBook.oppLadder b inc.side)
                  = Ladder.ids la ++
                    ((h.id :: rest.map Order.id) ++ Ladder.ids lb) := by
                rw [hdec, ids_append, ids_cons]
                simp
              have hlevel_nodup : (h.id :: rest.map Order.id).Nodup := by
                rw [hids_eq] at hnodup
                exact ((List.sublist_append_left _ _).trans
                  (List.sublist_append_right _ _)).nodup hnodup
              have hnotin : h.id ∉ rest.map Order.id :=
                (List.nodup_cons.mp hlevel_nodup).1
              have hmk : LimitOrderBook.makerId (tradeOf inc h now) inc.side
                  = h.id := by
                cases hs : inc.side <;>
                  simp [LimitOrderBook.makerId, tradeOf, hs]
              have hstep_d : LimitOrderBook.makerId (tradeOf inc h now)
                  inc.side ≠ bid ∨
                  ∃ t0 ∈ acc, LimitOrderBook.makerId t0 inc.side = aid := by
                rcases hd with hQ | hex
                · left
                  rw [hmk]
                  intro hcon
                  have hQl2 : precedes aid bid (h.id :: rest.map Order.id) :=
                    hQ _ (lookup_mem hl)
                  exact precedes_head_false (hcon ▸ hQl2)
                · exact Or.inr hex
              have hG2 : tradesFifo inc.side aid bid
                  (acc ++ [tradeOf inc h now]) := tradesFifo_append hG hstep_d
              have hd_lift : (∃ t0 ∈ acc,
                  LimitOrderBook.makerId t0 inc.side = aid) →
                  ∃ t0 ∈ acc ++ [tradeOf inc h now],
                    LimitOrderBook.makerId t0 inc.side = aid := by
                rintro ⟨t0, ht0, hmk0⟩
                exact ⟨t0, List.mem_append.mpr (Or.inl ht0), hmk0⟩
              by_cases hf : (fillResult h
                  (min inc.remaining_quantity h.remaining_quantity)
                  now).is_filled = true
              · rw [if_pos hf, hhs, remove_step hl] at heq
                dsimp only at heq
                have hopp2 : LimitOrderBook.oppLadder
                    (afterRemove b inc.side bp (fillResult h
                      (min inc.remaining_quantity h.remaining_quantity) now
                      :: rest) h.id) inc.side =
                    if rest.isEmpty then la ++ lb
                    else la ++ (bp, rest) :: lb := by
                  rw [afterRemove_opp, filter_fill_head h _ now rest hnotin]
                  rw [hdec, setLevel_append hlane]
                  by_cases hre : rest.isEmpty
                  · rw [if_pos hre, if_pos hre, removeKey_append hlane]
                  · rw [if_neg hre, if_neg hre, setLevel_append hlane]
                have hmem_lift : ∀ e, e ∈ (if rest.isEmpty then la ++ lb
                    else la ++ (bp, rest) :: lb) →
                    (e ∈ la ++ (bp, h :: rest) :: lb ∨ e = (bp, rest)) := by
                  intro e he
                  by_cases hre : rest.isEmpty
                  · rw [if_pos hre] at he
                    rcases List.mem_append.mp he with h1 | h1
                    · exact Or.inl (List.mem_append.mpr (Or.inl h1))
                    · exact Or.inl (List.mem_append.mpr (Or.inr
                        (List.mem_cons_of_mem _ h1)))
                  · rw [if_neg hre] at he
                    rcases List.mem_append.mp he with h1 | h1
                    · exact Or.inl (List.mem_append.mpr (Or.inl h1))
                    · rcases List.mem_cons.mp h1 with h2 | h2
                      · exact Or.inr h2
                      · exact Or.inl (List.mem_append.mpr (Or.inr
                          (List.mem_cons_of_mem _ h2)))
                have hrestsub : ∀ o ∈ rest, o ∈ h :: rest :=
                  fun o ho => List.mem_cons_of_mem _ ho
                have hsides2 : ladderSides (LimitOrderBook.oppLadder
                    (afterRemove b inc.side bp (fillResult h
                      (min inc.remaining_quantity h.remaining_quantity) now
                      :: rest) h.id) inc.side) (oppositeSide inc.side) := by
                  rw [hopp2]
                  intro e he o ho
                  rcases hmem_lift e he with h1 | h1
                  · exact hsides e (by rw [hdec]; exact h1) o ho
                  · subst h1
                    exact hsides _ (lookup_mem hl) o (hrestsub o ho)
                have hids2 : (Ladder.ids (LimitOrderBook.oppLadder
                    (afterRemove b inc.side bp (fillResult h
                      (min inc.remaining_quantity h.remaining_quantity) now
                      :: rest) h.id) inc.side)).Sublist
                    (Ladder.ids (LimitOrderBook.oppLadder b inc.side)) := by
                  rw [hopp2, hids_eq]
                  by_cases hre : rest.isEmpty
                  · rw [if_pos hre, ids_append]
                    refine List.Sublist.append (List.Sublist.refl _) ?_
                    exact List.sublist_append_right _ _
                  · rw [if_neg hre, ids_append, ids_cons]
                    refine List.Sublist.append (List.Sublist.refl _) ?_
                    exact List.sublist_cons_self _ _
                have hnodup2 : (Ladder.ids (LimitOrderBook.oppLadder
                    (afterRemove b inc.side bp (fillResult h
                      (min inc.remaining_quantity h.remaining_quantity) now
                      :: rest) h.id) inc.side)).Nodup := hids2.nodup hnodup
                have hd2 : (∀ e ∈ LimitOrderBook.oppLadder
                    (afterRemove b inc.side bp (fillResult h
                      (min inc.remaining_quantity h.remaining_quantity) now
                      :: rest) h.id) inc.side,
                    precedes aid bid (e.2.map Order.id)) ∨
                    ∃ t0 ∈ acc ++ [tradeOf inc h now],
                      LimitOrderBook.makerId t0 inc.side = aid := by
                  rcases hd with hQ | hex
                  · by_cases hha : h.id = aid
                    · right
                      refine ⟨tradeOf inc h now,
                        List.mem_append.mpr (Or.inr (List.mem_cons_self _ _)),
                        ?_⟩
                      rw [hmk, hha]
                    · left
                      rw [hopp2]
                      intro e he
                      rcases hmem_lift e he with h1 | h1
                      · exact hQ e (by rw [hdec]; exact h1)
                      · subst h1
                        have hQl2 : precedes aid bid
                            (h.id :: rest.map Order.id) :=
                          hQ _ (lookup_mem hl)
                        exact precedes_tail hha hQl2
                  · exact Or.inr (hd_lift hex)
                by_cases hif : (fillResult inc
                    (min inc.remaining_quantity h.remaining_quantity)
                    now).is_filled = true
                · rw [if_pos hif] at heq
                  injection heq with h1
                  injection h1 with _ h2
                  injection h2 with _ h3
                  rw [← h3]
                  exact hG2
                · rw [if_neg hif] at heq
                  exact ih _ (fillResult inc
                      (min inc.remaining_quantity h.remaining_quantity) now)
                    now _ b2 inc2 tds heq hsides2 hnodup2 hG2 hd2
              · rw [if_neg hf] at heq
                have hopp1 : LimitOrderBook.oppLadder (setOppLevel b inc.side
                    bp (fillResult h
                      (min inc.remaining_quantity h.remaining_quantity) now
                      :: rest)) inc.side =
                    la ++ (bp, fillResult h
                      (min inc.remaining_quantity h.remaining_quantity) now
                      :: rest) :: lb := by
                  rw [oppLadder_setOppLevel, hdec, setLevel_append hlane]
                have hmem1 : ∀ e, e ∈ la ++ (bp, fillResult h
                    (min inc.remaining_quantity h.remaining_quantity) now
                    :: rest) :: lb →
                    e ∈ la ++ (bp, h :: rest) :: lb ∨
                    e = (bp, fillResult h
                      (min inc.remaining_quantity h.remaining_quantity) now
                      :: rest) := by
                  intro e he
                  rcases List.mem_append.mp he with h1 | h1
                  · exact Or.inl (List.mem_append.mpr (Or.inl h1))
                  · rcases List.mem_cons.mp h1 with h2 | h2
                    · exact Or.inr h2
                    · exact Or.inl (List.mem_append.mpr (Or.inr
                        (List.mem_cons_of_mem _ h2)))
                have hsides1 : ladderSides (LimitOrderBook.oppLadder
                    (setOppLevel b inc.side bp (fillResult h
                      (min inc.remaining_quantity h.remaining_quantity) now
                      :: rest)) inc.side) (oppositeSide inc.side) := by
                  rw [hopp1]
                  intro e he o ho
                  rcases hmem1 e he with h1 | h1
                  · exact hsides e (by rw [hdec]; exact h1) o ho
                  · subst h1
                    rcases List.mem_cons.mp ho with h2 | h2
                    · subst h2
                      exact hhs
                    · exact hsides (bp, h :: rest) (lookup_mem hl) o
                        (List.mem_cons_of_mem _ h2)
                have hids1 : Ladder.ids (LimitOrderBook.oppLadder
                    (setOppLevel b inc.side bp (fillResult h
                      (min inc.remaining_quantity h.remaining_quantity) now
                      :: rest)) inc.side) =
                    Ladder.ids (LimitOrderBook.oppLadder b inc.side) := by
                  rw [hopp1, hids_eq, ids_append, ids_cons]
                  rfl
                have hnodup1 : (Ladder.ids (LimitOrderBook.oppLadder
                    (setOppLevel b inc.side bp (fillResult h
                      (min inc.remaining_quantity h.remaining_quantity) now
                      :: rest)) inc.side)).Nodup := by
                  rw [hids1]
                  exact hnodup
                have hd1 : (∀ e ∈ LimitOrderBook.oppLadder
                    (setOppLevel b inc.side bp (fillResult h
                      (min inc.remaining_quantity h.remaining_quantity) now
                      :: rest)) inc.side,
                    precedes aid bid (e.2.map Order.id)) ∨
                    ∃ t0 ∈ acc ++ [tradeOf inc h now],
                      LimitOrderBook.makerId t0 inc.side = aid := by
                  rcases hd with hQ | hex
                  · left
                    rw [hopp1]
                    intro e he
                    rcases hmem1 e he with h1 | h1
                    · exact hQ e (by rw [hdec]; exact h1)
                    · subst h1
                      exact hQ (bp, h :: rest) (lookup_mem hl)
                  · exact Or.inr (hd_lift hex)
                by_cases hif : (fillResult inc
                    (min inc.remaining_quantity h.remaining_quantity)
                    now).is_filled = true
                · rw [if_pos hif] at heq
                  injection heq with h1
                  injection h1 with _ h2
                  injection h2 with _ h3
                  rw [← h3]
                  exact hG2
                · rw [if_neg hif] at heq
                  exact ih _ (fillResult inc
                      (min inc.remaining_quantity h.remaining_quantity) now)
                    now _ b2 inc2 tds heq hsides1 hnodup1 hG2 hd1

/-- The trades returned by add_order are exactly the trades produced by
the match loop it runs. -/
theorem add_order_trades {b : LimitOrderBook} {inc : Order} {now : Nat}
    {b2 : LimitOrderBook} {tds : List Trade}
    (heq : LimitOrderBook.add_order b inc now = Except.ok (b2, tds)) :
    ∃ b4 inc4, LimitOrderBook.matchLoop
      (LimitOrderBook.oppCount b inc.side + 1) b inc now [] =
      Except.ok (b4, inc4, tds) := by
  unfold LimitOrderBook.add_order LimitOrderBook.match_order at heq
  cases hml : LimitOrderBook.matchLoop
      (LimitOrderBook.oppCount b inc.side + 1) b inc now [] with
  | error e =>
    rw [hml] at heq
    exact Except.noConfusion heq
  | ok tr4 =>
    obtain ⟨b4, inc4, trades4⟩ := tr4
    rw [hml] at heq
    dsimp only at heq
    refine ⟨b4, inc4, ?_⟩
    split at heq
    · injection heq with h1
      injection h1 with h1a h2
      rw [← h2]
    · injection heq with h1
      injection h1 with h1a h2
      rw [← h2]

/-- The FIFO consequence at the add_order level: when the opposing ladder
holds the two orders in queue order at the same price (with globally
distinct resting ids and correct sides), any trade against the later
order is preceded by a trade against the earlier one. -/
theorem add_order_fifo {b : LimitOrderBook} {inc a bo : Order} {now : Nat}
    {p : Int} {l1 l2 l3 : List Order} {b2 : LimitOrderBook}
    {tds : List Trade}
    (hlv : Ladder.lookupLevel (LimitOrderBook.oppLadder b inc.side) p =
      some (l1 ++ a :: (l2 ++ bo :: l3)))
    (hsides : ladderSides (LimitOrderBook.oppLadder b inc.side)
      (oppositeSide inc.side))
    (hnodup : (Ladder.ids (LimitOrderBook.oppLadder b inc.side)).Nodup)
    (heq : LimitOrderBook.add_order b inc now = Except.ok (b2, tds)) :
    tradesFifo inc.side a.id bo.id tds := by
  obtain ⟨b4, inc4, hml⟩ := add_order_trades heq
  obtain ⟨la, lb, hdec, hlane⟩ := lookup_decomp hlv
  have hidseq : Ladder.ids (LimitOrderBook.oppLadder b inc.side) =
      Ladder.ids la ++ ((l1 ++ a :: (l2 ++ bo :: l3)).map Order.id ++
        Ladder.ids lb) := by
    rw [hdec, ids_append, ids_cons]
  have hmapL : (l1 ++ a :: (l2 ++ bo :: l3)).map Order.id =
      l1.map Order.id ++ a.id :: (l2.map Order.id ++ bo.id ::
        l3.map Order.id) := by
    simp
  have hbidL : bo.id ∈ (l1 ++ a :: (l2 ++ bo :: l3)).map Order.id := by
    rw [hmapL]
    exact List.mem_append.mpr (Or.inr (List.mem_cons_of_mem _
      (List.mem_append.mpr (Or.inr (List.mem_cons_self _ _)))))
  rw [hidseq] at hnodup
  obtain ⟨hndla, hndrest, hdisj⟩ := List.nodup_append.mp hnodup
  obtain ⟨hndL, hndlb, hdisj2⟩ := List.nodup_append.mp hndrest
  have hQ : ∀ e ∈ LimitOrderBook.oppLadder b inc.side,
      precedes a.id bo.id (e.2.map Order.id) := by
    intro e he
    rw [hdec] at he
    rcases List.mem_append.mp he with h1 | h1
    · apply precedes_of_not_mem
      intro hbe
      have h2 : bo.id ∈ Ladder.ids la := mem_ids_of_mem h1 hbe
      exact hdisj h2 (List.mem_append.mpr (Or.inl hbidL))
    · rcases List.mem_cons.mp h1 with h2 | h2
      · subst h2
        show precedes a.id bo.id ((l1 ++ a :: (l2 ++ bo :: l3)).map Order.id)
        rw [hmapL]
        rw [hmapL] at hndL
        exact precedes_of_between hndL
      · apply precedes_of_not_mem
        intro hbe
        have h3 : bo.id ∈ Ladder.ids lb := mem_ids_of_mem h2 hbe
        exact hdisj2 hbidL h3
  have hnodup2 : (Ladder.ids (LimitOrderBook.oppLadder b inc.side)).Nodup := by
    rw [hidseq]
    exact hnodup
  exact matchLoop_fifo a.id bo.id _ b inc now [] b4 inc4 tds hml hsides
    hnodup2 tradesFifo_nil (Or.inl hQ)

/-- A crossing incoming order smaller than the active head of the best
opposing level fills it partially: add_order emits exactly one trade and
the head order stays at the head of its level, same id, with its
remaining quantity reduced by the incoming quantity. -/
theorem partial_fill_head {b : LimitOrderBook} {inc h : Order} {now : Nat}
    {bp : Int} {rest : List Order}
    (hb : LimitOrderBook.bestOpposing b inc.side = some bp)
    (hc : LimitOrderBook.crossesPrice inc.side inc.price bp)
    (hl : Ladder.lookupLevel (LimitOrderBook.oppLadder b inc.side) bp =
      some (h :: rest))
    (hact : h.is_active = true)
    (hlt : inc.remaining_quantity < h.remaining_quantity) :
    ∃ b2, LimitOrderBook.add_order b inc now =
        Except.ok (b2, [tradeOf inc h now]) ∧
      Ladder.lookupLevel (LimitOrderBook.oppLadder b2 inc.side) bp =
        some (fillResult h inc.remaining_quantity now :: rest) ∧
      (fillResult h inc.remaining_quantity now).id = h.id ∧
      (fillResult h inc.remaining_quantity now).remaining_quantity =
        h.remaining_quantity - inc.remaining_quantity := by
  have htq : min inc.remaining_quantity h.remaining_quantity =
      inc.remaining_quantity := Nat.min_eq_left (Nat.le_of_lt hlt)
  have hfb : ¬ (fillResult h
      (min inc.remaining_quantity h.remaining_quantity) now).is_filled
      = true := by
    intro hcon
    have h2 := (fillResult_is_filled h _ now).mp hcon
    rw [htq] at h2
    omega
  have hif : (fillResult inc
      (min inc.remaining_quantity h.remaining_quantity) now).is_filled
      = true := by
    apply (fillResult_is_filled inc _ now).mpr
    rw [htq]
    omega
  have hrem2 : (fillResult inc
      (min inc.remaining_quantity h.remaining_quantity)
      now).remaining_quantity = 0 := by
    show inc.remaining_quantity -
      min inc.remaining_quantity h.remaining_quantity = 0
    rw [htq]
    omega
  have hcond : ¬ (0 < (fillResult inc
      (min inc.remaining_quantity h.remaining_quantity)
      now).remaining_quantity ∧ (fillResult inc
      (min inc.remaining_quantity h.remaining_quantity)
      now).is_active = true) := by
    rintro ⟨h1, _⟩
    rw [hrem2] at h1
    omega
  have hopprt : ∀ (x : LimitOrderBook) (rt : List Trade) (s : OrderSide),
      LimitOrderBook.oppLadder { x with recent_trades := rt } s =
        LimitOrderBook.oppLadder x s := by
    intro x rt s
    cases s <;> rfl
  unfold LimitOrderBook.add_order LimitOrderBook.match_order
  rw [matchLoop_succ_step hb hc hl hact]
  dsimp only [matchLoopStep]
  rw [if_neg hfb, if_pos hif]
  dsimp only
  rw [if_neg hcond]
  rw [List.nil_append]
  refine ⟨_, rfl, ?_, rfl, rfl⟩
  rw [hopprt, oppLadder_setOppLevel, htq]
  exact lookupLevel_setLevel_self hl _

/-- C4: FIFO time priority. First conjunct: for two orders a and bo
resting on the same side at the same price with a ahead of bo in the
level queue (a was inserted first), any crossing incoming order matches a
before bo: among the trades add_order returns, every trade whose maker is
bo is preceded by a trade whose maker is a (for books whose resting ids
are distinct and whose opposing ladder is on the correct side). Second
conjunct: a partial fill of the head order of the best crossing opposing
level leaves that order at the head of its level, with the same id and
its remaining quantity reduced by exactly the incoming quantity. -/
theorem fifo_time_priority :
    (∀ (b : LimitOrderBook) (inc a bo : Order) (now : Nat) (p : Int)
       (l1 l2 l3 : List Order) (b2 : LimitOrderBook) (tds : List Trade),
       Ladder.lookupLevel (LimitOrderBook.oppLadder b inc.side) p =
         some (l1 ++ a :: (l2 ++ bo :: l3)) →
       ladderSides (LimitOrderBook.oppLadder b inc.side)
         (oppositeSide inc.side) →
       (Ladder.ids (LimitOrderBook.oppLadder b inc.side)).Nodup →
       LimitOrderBook.add_order b inc now = Except.ok (b2, tds) →
       tradesFifo inc.side a.id bo.id tds) ∧
    (∀ (b : LimitOrderBook) (inc h : Order) (now : Nat) (bp : Int)
       (rest : List Order),
       LimitOrderBook.bestOpposing b inc.side = some bp →
       LimitOrderBook.crossesPrice inc.side inc.price bp →
       Ladder.lookupLevel (LimitOrderBook.oppLadder b inc.side) bp =
         some (h :: rest) →
       h.is_active = true →
       inc.remaining_quantity < h.remaining_quantity →
       ∃ b2, LimitOrderBook.add_order b inc now =
           Except.ok (b2, [tradeOf inc h now]) ∧
         Ladder.lookupLevel (LimitOrderBook.oppLadder b2 inc.side) bp =
           some (fillResult h inc.remaining_quantity now :: rest) ∧
         (fillResult h inc.remaining_quantity now).id = h.id ∧
         (fillResult h inc.remaining_quantity now).remaining_quantity =
           h.remaining_quantity - inc.remaining_quantity) :=
  ⟨fun _ _ _ _ _ _ _ _ _ _ _ hlv hsides hnodup heq =>
     add_order_fifo hlv hsides hnodup heq,
   fun _ _ _ _ _ _ hb hc hl hact hlt =>
     partial_fill_head hb hc hl hact hlt⟩

theorem fifo_time_priority_witness :
    (Ladder.lookupLevel (LimitOrderBook.oppLadder fifoBook fifoInc.side)
        15050 = some ([] ++ aOrd :: ([] ++ bOrd :: [])) ∧
      ladderSides (LimitOrderBook.oppLadder fifoBook fifoInc.side)
        (oppositeSide fifoInc.side) ∧
      (Ladder.ids (LimitOrderBook.oppLadder fifoBook fifoInc.side)).Nodup ∧
      LimitOrderBook.add_order fifoBook fifoInc 5 =
        Except.ok (fifoBook2, fifoTds) ∧
      tradesFifo fifoInc.side aOrd.id bOrd.id fifoTds) ∧
    (LimitOrderBook.bestOpposing headBook headInc.side = some 15050 ∧
      LimitOrderBook.crossesPrice headInc.side headInc.price 15050 ∧
      Ladder.lookupLevel (LimitOrderBook.oppLadder headBook headInc.side)
        15050 = some (hOrd :: []) ∧
      hOrd.is_active = true ∧
      headInc.remaining_quantity < hOrd.remaining_quantity ∧
      ∃ b2, LimitOrderBook.add_order headBook headInc 6 =
          Except.ok (b2, [tradeOf headInc hOrd 6]) ∧
        Ladder.lookupLevel (LimitOrderBook.oppLadder b2 headInc.side)
          15050 = some (fillResult hOrd headInc.remaining_quantity 6 :: []) ∧
        (fillResult hOrd headInc.remaining_quantity 6).id = hOrd.id ∧
        (fillResult hOrd headInc.remaining_quantity 6).remaining_quantity =
          hOrd.remaining_quantity - headInc.remaining_quantity) := by
  constructor
  · refine ⟨by decide, by unfold ladderSides; decide, by decide,
      by rfl, ?_⟩
    exact fifo_time_priority.1 fifoBook fifoInc aOrd bOrd 5 15050 [] [] []
      fifoBook2 fifoTds (by decide) (by unfold ladderSides; decide)
      (by decide) (by rfl)
  · refine ⟨by decide, by decide, by decide, by decide, by decide, ?_⟩
    exact fifo_time_priority.2 headBook headInc hOrd 6 15050 []
      (by decide) (by decide) (by decide) (by decide) (by decide)

/-- C1: for every finite sequence of submissions and cancellations applied
to an initially empty book, at every quiescent point (the state reached
after any prefix of the operations, each prefix being itself such a
sequence), whenever best_bid and best_ask both return Some, the best bid
is at most the best ask. -/
theorem no_crossed_market (ops : List BookOp) (bb ba : Int)
    (h1 : LimitOrderBook.best_bid (runTrace ops).book = some bb)
    (h2 : LimitOrderBook.best_ask (runTrace ops).book = some ba) :
    bb ≤ ba :=
  (traceInv_run ops).nc bb ba h1 h2

theorem no_crossed_market_witness :
    LimitOrderBook.best_bid (runTrace s1ops).book = some 15000 ∧
    LimitOrderBook.best_ask (runTrace s1ops).book = some 15050 ∧
    (15000 : Int) ≤ 15050 :=
  ⟨by decide, by decide,
    no_crossed_market s1ops 15000 15050 (by decide) (by decide)⟩

/-- C2: quantity conservation over every finite trace from the empty
book. A is the accumulated original quantity of all submitted orders, T
the accumulated quantity of all trades emitted by add_order, and R the
remaining quantity resting across both ladders plus the accumulated
remaining quantity of the orders returned by cancel_order; then
A = R + 2*T. -/
theorem quantity_conservation (ops : List BookOp) :
    (runTrace ops).submittedSum =
      (Ladder.remSum (runTrace ops).book.bids +
        Ladder.remSum (runTrace ops).book.asks +
        (runTrace ops).cancelledSum) +
      2 * (runTrace ops).tradeSum :=
  (traceInv_run ops).conserve

end Brokerage
